import Mathlib

/-!
# B-tree of `src/BTree/BTree.hpp`: shallow embedding and verification

The C++ classes `BTreeNode<Key>` and `BTree<Key>` are embedded as pure functions.

* `Key` is instantiated with `Int`; C++ `int` sizes, indices and the minimum
  degree are mathematical integers (no wrap-around is modelled).
* A `std::shared_ptr<BTreeNode>` is an `Option BTreeNode`; `none` is `nullptr`.
  The tree is owned top-down, so a node mutated through a pointer is stored
  back into the slot of its parent it was read from.
* Every operation that leaves defined behaviour in C++ (element access outside
  a vector, member access through a null pointer, a negative length handed to
  `resize`) yields a `Fault` instead of a value.
* Recursion on the tree is bounded by a budget; the public operations take it
  from the height of the root, and the theorems that an operation returns
  show that this budget suffices.
-/

/-- The ways in which an operation of the program can fail to produce a value. -/
inductive Fault where
  | nullDeref
  | outOfRange
  | badLength
  | budget
  deriving DecidableEq, Repr

/-! ## `std::vector` primitives -/

/-- Read access `v[i]`. -/
def vecGet {α : Type} (v : List α) (i : Int) : Except Fault α :=
  if i < 0 then .error .outOfRange
  else match v[i.toNat]? with
    | some a => .ok a
    | none => .error .outOfRange

/-- Write access `v[i] = a`. -/
def vecSet {α : Type} (v : List α) (i : Int) (a : α) : Except Fault (List α) :=
  if 0 ≤ i ∧ i < v.length then .ok (v.set i.toNat a) else .error .outOfRange

/-- Insertion `v.insert(v.begin() + i, a)`. -/
def vecInsert {α : Type} (v : List α) (i : Int) (a : α) : Except Fault (List α) :=
  if 0 ≤ i ∧ i ≤ v.length then .ok (v.take i.toNat ++ a :: v.drop i.toNat)
  else .error .outOfRange

/-- Removal `v.erase(v.begin() + i)`. -/
def vecErase {α : Type} (v : List α) (i : Int) : Except Fault (List α) :=
  if 0 ≤ i ∧ i < v.length then .ok (v.take i.toNat ++ v.drop (i.toNat + 1))
  else .error .outOfRange

/-- Resizing `v.resize(n)`; new slots hold the value-initialised element `d`. -/
def vecResize {α : Type} (v : List α) (n : Int) (d : α) : Except Fault (List α) :=
  if n < 0 then .error .badLength
  else .ok (v.take n.toNat ++ List.replicate (n.toNat - v.length) d)

/-- Loop `for (j = lo; j < hi; ++j) body`, run for `n = hi - lo` rounds from `j = lo`. -/
def forUp {σ : Type} (body : Int → σ → Except Fault σ) : Nat → Int → σ → Except Fault σ
  | 0, _, s => .ok s
  | n + 1, j, s => do
    let s1 ← body j s
    forUp body n (j + 1) s1

/-- Loop `for (j = hi; j >= lo; --j) body`, run for `n = hi - lo + 1` rounds from `j = hi`. -/
def forDown {σ : Type} (body : Int → σ → Except Fault σ) : Nat → Int → σ → Except Fault σ
  | 0, _, s => .ok s
  | n + 1, j, s => do
    let s1 ← body j s
    forDown body n (j - 1) s1

/-! ## `BTreeNode` -/

/-- A node: the `leaf` flag, the vector of keys and the vector of child pointers. -/
inductive BTreeNode where
  | mk (leaf : Bool) (keys : List Int) (children : List (Option BTreeNode))

namespace BTreeNode

/-- Field `leaf`. -/
def leaf : BTreeNode → Bool
  | mk l _ _ => l

/-- Field `keys`. -/
def keys : BTreeNode → List Int
  | mk _ ks _ => ks

/-- Field `children`. -/
def children : BTreeNode → List (Option BTreeNode)
  | mk _ _ cs => cs

/-- Constructor `BTreeNode()`: not a leaf, no keys, no children. -/
def new : BTreeNode := mk false [] []

/-- Assignment to the field `leaf`. -/
def setLeaf (n : BTreeNode) (b : Bool) : BTreeNode := mk b n.keys n.children

/-- Method `size()`. -/
def size (n : BTreeNode) : Int := n.keys.length

/-- Method `appendKey`. -/
def appendKey (n : BTreeNode) (k : Int) : BTreeNode := mk n.leaf (n.keys ++ [k]) n.children

/-- Method `prependKey`. -/
def prependKey (n : BTreeNode) (k : Int) : BTreeNode := mk n.leaf (k :: n.keys) n.children

/-- Method `insertKey`. -/
def insertKey (n : BTreeNode) (i : Int) (k : Int) : Except Fault BTreeNode := do
  let ks ← vecInsert n.keys i k
  pure (mk n.leaf ks n.children)

/-- Method `resizeKeysAndChildren`: `keys.resize(sz); children.resize(sz + 1)`. -/
def resizeKeysAndChildren (n : BTreeNode) (sz : Int) : Except Fault BTreeNode := do
  let ks ← vecResize n.keys sz 0
  let cs ← vecResize n.children (sz + 1) none
  pure (mk n.leaf ks cs)

/-- Read through `operator[]`. -/
def key (n : BTreeNode) (i : Int) : Except Fault Int := vecGet n.keys i

/-- Write through `operator[]`. -/
def setKey (n : BTreeNode) (i : Int) (k : Int) : Except Fault BTreeNode := do
  let ks ← vecSet n.keys i k
  pure (mk n.leaf ks n.children)

/-- Method `eraseKey`. -/
def eraseKey (n : BTreeNode) (i : Int) : Except Fault BTreeNode := do
  let ks ← vecErase n.keys i
  pure (mk n.leaf ks n.children)

/-- Method `getChild`. -/
def getChild (n : BTreeNode) (i : Int) : Except Fault (Option BTreeNode) := vecGet n.children i

/-- Method `setChild`. -/
def setChild (n : BTreeNode) (i : Int) (ch : Option BTreeNode) : Except Fault BTreeNode := do
  let cs ← vecSet n.children i ch
  pure (mk n.leaf n.keys cs)

/-- Method `appendChild`. -/
def appendChild (n : BTreeNode) (ch : Option BTreeNode) : BTreeNode :=
  mk n.leaf n.keys (n.children ++ [ch])

/-- Method `prependChild`. -/
def prependChild (n : BTreeNode) (ch : Option BTreeNode) : BTreeNode :=
  mk n.leaf n.keys (ch :: n.children)

/-- Method `insertChild`. -/
def insertChild (n : BTreeNode) (i : Int) (ch : Option BTreeNode) : Except Fault BTreeNode := do
  let cs ← vecInsert n.children i ch
  pure (mk n.leaf n.keys cs)

/-- Method `eraseChild`. -/
def eraseChild (n : BTreeNode) (i : Int) : Except Fault BTreeNode := do
  let cs ← vecErase n.children i
  pure (mk n.leaf n.keys cs)

mutual
/-- Number of levels below and including a node (a node without children has height 1). -/
def height : BTreeNode → Nat
  | mk _ _ cs => heightList cs + 1
/-- Largest height among a vector of child pointers. -/
def heightList : List (Option BTreeNode) → Nat
  | [] => 0
  | c :: cs => max (heightOpt c) (heightList cs)
/-- Height behind a pointer; a null pointer has height 0. -/
def heightOpt : Option BTreeNode → Nat
  | none => 0
  | some c => height c
end

end BTreeNode

/-- Member access through a pointer (`p->...`). -/
def deref (p : Option BTreeNode) : Except Fault BTreeNode :=
  match p with
  | some n => .ok n
  | none => .error .nullDeref

/-! ## `BTree` -/

/-- The tree object: the minimum degree and the root. -/
structure BTree where
  minDegree : Int
  root : BTreeNode

namespace BTree

/-- Function `allocateNode`. -/
def allocateNode : BTreeNode := BTreeNode.new

/-- Constructor `BTree(int _minDegree)`: stores the degree and makes the root an empty leaf.
The source performs no check on its argument. -/
def new (_minDegree : Int) : Except Fault BTree :=
  .ok { minDegree := _minDegree, root := allocateNode.setLeaf true }

/-- Function `splitChild(x, i)`; returns the updated `x`. -/
def splitChild (t : Int) (x : BTreeNode) (i : Int) : Except Fault BTreeNode := do
  let z := allocateNode
  let y ← deref (← x.getChild i)
  let z := z.setLeaf y.leaf
  let z ← z.resizeKeysAndChildren (t - 1)
  let z ← forUp (fun j z => do z.setKey j (← y.key (j + t))) (t - 1).toNat 0 z
  let z ← if !y.leaf then
      forUp (fun j z => do z.setChild j (← y.getChild (j + t))) t.toNat 0 z
    else pure z
  let keyGoingUp ← y.key (t - 1)
  let y ← y.resizeKeysAndChildren (t - 1)
  let x ← x.setChild i (some y)
  let x ← x.resizeKeysAndChildren (x.size + 1)
  let x ← forDown (fun j x => do x.setChild (j + 1) (← x.getChild j))
    (x.size - 1 - (i + 1) + 1).toNat (x.size - 1) x
  let x ← x.setChild (i + 1) (some z)
  let x ← forDown (fun j x => do x.setKey (j + 1) (← x.key j))
    (x.size - 2 - i + 1).toNat (x.size - 2) x
  x.setKey i keyGoingUp

/-- Leaf loop of `insertNonfull`: `while (i >= 0 && key < node[i]) { node[i+1] = node[i]; --i; }`,
entered with `n = i + 1`; returns the node and the final `i`. -/
def shiftKeys (key : Int) : Nat → BTreeNode → Except Fault (BTreeNode × Int)
  | 0, node => .ok (node, -1)
  | n + 1, node => do
    let k ← node.key n
    if key < k then
      let node1 ← node.setKey ((n : Int) + 1) k
      shiftKeys key n node1
    else pure (node, (n : Int))

/-- Internal loop of `insertNonfull`: `while (i >= 0 && key < node[i]) { --i; }`,
entered with `n = i + 1`; returns the final `i`. -/
def scanDown (key : Int) (node : BTreeNode) : Nat → Except Fault Int
  | 0 => .ok (-1)
  | n + 1 => do
    let k ← node.key n
    if key < k then scanDown key node n else pure (n : Int)

/-- Function `insertNonfull(node, key)`; returns the updated `node`. -/
def insertNonfull (t : Int) (key : Int) : Nat → BTreeNode → Except Fault BTreeNode
  | 0, _ => .error .budget
  | fuel + 1, node => do
    let i := node.size - 1
    if node.leaf then
      let node ← node.resizeKeysAndChildren (node.size + 1)
      let (node, i) ← shiftKeys key (i + 1).toNat node
      node.setKey (i + 1) key
    else
      let i ← scanDown key node (i + 1).toNat
      let i := i + 1
      let c ← deref (← node.getChild i)
      let (node, i) ← if c.size = 2 * t - 1 then do
          let node ← splitChild t node i
          let k ← node.key i
          pure (node, if key > k then i + 1 else i)
        else pure (node, i)
      let c ← deref (← node.getChild i)
      let c1 ← insertNonfull t key fuel c
      node.setChild i (some c1)

/-- Method `insert(key)`. -/
def insert (T : BTree) (key : Int) : Except Fault BTree := do
  let curNode := T.root
  if curNode.size = 2 * T.minDegree - 1 then
    let newParent := allocateNode
    let newParent := newParent.setLeaf false
    let newParent := newParent.appendChild (some curNode)
    let newParent ← splitChild T.minDegree newParent 0
    let newParent ← insertNonfull T.minDegree key newParent.height newParent
    pure { T with root := newParent }
  else
    let curNode ← insertNonfull T.minDegree key curNode.height curNode
    pure { T with root := curNode }

/-- Scan of `_search`: `while (i < size && key > node[i]) ++i`, entered with `n = size - i`. -/
def searchScan (key : Int) (node : BTreeNode) : Nat → Int → Except Fault Int
  | 0, i => .ok i
  | n + 1, i => do
    let k ← node.key i
    if key > k then searchScan key node n (i + 1) else pure i

/-- Function `_search(searchNode, key)`: the node holding the key and the index, or `none`
for the null result. -/
def _search (key : Int) : Nat → BTreeNode → Except Fault (Option (BTreeNode × Int))
  | 0, _ => .error .budget
  | fuel + 1, searchNode => do
    let i ← searchScan key searchNode searchNode.size.toNat 0
    let hit ← if i < searchNode.size then do pure (decide (key = (← searchNode.key i)))
      else pure false
    if hit then pure (some (searchNode, i))
    else if searchNode.leaf then pure none
    else
      let c ← deref (← searchNode.getChild i)
      _search key fuel c

/-- Method `search(key)`. -/
def search (T : BTree) (key : Int) : Except Fault (Option (BTreeNode × Int)) :=
  _search key T.root.height T.root

/-- A pointer to a node below a given node: the child indices leading to it. -/
abbrev NodePath := List Int

/-- The node a pointer designates (`*p`). -/
def nodeAt : BTreeNode → NodePath → Except Fault BTreeNode
  | n, [] => .ok n
  | n, i :: p => do
    let c ← deref (← n.getChild i)
    nodeAt c p

/-- Mutation of the node a pointer designates: `f` is run on it and the result stored back. -/
def modifyAt (f : BTreeNode → Except Fault BTreeNode) : BTreeNode → NodePath →
    Except Fault BTreeNode
  | n, [] => f n
  | n, i :: p => do
    let c ← deref (← n.getChild i)
    let c1 ← modifyAt f c p
    n.setChild i (some c1)

/-- Walk of `predecessor`: `while (!curNode->leaf) curNode = curNode->getChild(curNode->size())`. -/
def lastPath : Nat → BTreeNode → Except Fault NodePath
  | 0, _ => .error .budget
  | fuel + 1, curNode =>
    if curNode.leaf then .ok []
    else do
      let c ← deref (← curNode.getChild curNode.size)
      let p ← lastPath fuel c
      pure (curNode.size :: p)

/-- Walk of `successor`: `while (!curNode->leaf) curNode = curNode->getChild(0)`. -/
def firstPath : Nat → BTreeNode → Except Fault NodePath
  | 0, _ => .error .budget
  | fuel + 1, curNode =>
    if curNode.leaf then .ok []
    else do
      let c ← deref (← curNode.getChild 0)
      let p ← firstPath fuel c
      pure (0 :: p)

/-- Method `predecessor(node, keyIndex)`; the result is a pointer below `node`. -/
def predecessor (fuel : Nat) (node : BTreeNode) (keyIndex : Int) : Except Fault NodePath := do
  let c ← deref (← node.getChild keyIndex)
  let p ← lastPath fuel c
  pure (keyIndex :: p)

/-- Method `successor(node, keyIndex)`; the result is a pointer below `node`. -/
def successor (fuel : Nat) (node : BTreeNode) (keyIndex : Int) : Except Fault NodePath := do
  let c ← deref (← node.getChild (keyIndex + 1))
  let p ← firstPath fuel c
  pure ((keyIndex + 1) :: p)

/-- Function `unionNodesAroundKey(left, key, right)`. -/
def unionNodesAroundKey (left : Option BTreeNode) (key : Int) (right : Option BTreeNode) :
    Except Fault BTreeNode := do
  let unionNode := allocateNode
  let l ← deref left
  let r ← deref right
  let unionNode := unionNode.setLeaf (l.leaf && r.leaf)
  let unionNode ← forUp (fun j u => do
      let u := u.appendKey (← l.key j)
      pure (u.appendChild (← l.getChild j))) l.size.toNat 0 unionNode
  let unionNode := unionNode.appendChild (← l.getChild l.size)
  let unionNode := unionNode.appendKey key
  let unionNode ← forUp (fun j u => do
      let u := u.appendKey (← r.key j)
      pure (u.appendChild (← r.getChild j))) r.size.toNat 0 unionNode
  pure (unionNode.appendChild (← r.getChild r.size))

/-- Function `normalizeNodeForErasing(parentNode, childIndex)`; returns the updated parent and
the deviation. -/
def normalizeNodeForErasing (t : Int) (parentNode : BTreeNode) (childIndex : Int) :
    Except Fault (BTreeNode × Int) := do
  let c ← deref (← parentNode.getChild childIndex)
  if c.size ≥ t then pure (parentNode, 0)
  else
    let keyIndex := if childIndex = 0 then 0 else childIndex - 1
    let normalizingNode := c
    let leftNode ← parentNode.getChild (childIndex - 1)
    let rightNode ← parentNode.getChild (childIndex + 1)
    let leftLends ← match leftNode with
      | some l => pure (decide (l.size ≥ t))
      | none => pure false
    let rightLends ← match rightNode with
      | some r => pure (decide (r.size ≥ t))
      | none => pure false
    if leftLends then
      let l ← deref leftNode
      let movingKey ← parentNode.key keyIndex
      let parentNode ← parentNode.eraseKey keyIndex
      let normalizingNode := normalizingNode.prependKey movingKey
      let movingKey ← l.key (l.size - 1)
      let parentNode ← parentNode.insertKey keyIndex movingKey
      let movingChild ← l.getChild l.size
      let l ← l.eraseChild l.size
      let normalizingNode := normalizingNode.prependChild movingChild
      let l ← l.eraseKey (l.size - 1)
      let parentNode ← parentNode.setChild (childIndex - 1) (some l)
      let parentNode ← parentNode.setChild childIndex (some normalizingNode)
      pure (parentNode, 0)
    else if rightLends then
      let r ← deref rightNode
      let movingKey ← parentNode.key keyIndex
      let parentNode ← parentNode.eraseKey keyIndex
      let normalizingNode := normalizingNode.appendKey movingKey
      let movingKey ← r.key 0
      let parentNode ← parentNode.insertKey keyIndex movingKey
      let movingChild ← r.getChild 0
      let r ← r.eraseChild 0
      let normalizingNode := normalizingNode.appendChild movingChild
      let r ← r.eraseKey 0
      let parentNode ← parentNode.setChild (childIndex + 1) (some r)
      let parentNode ← parentNode.setChild childIndex (some normalizingNode)
      pure (parentNode, 0)
    else
      let (unionNode, deviation) ← if leftNode.isSome then do
          let u ← unionNodesAroundKey leftNode (← parentNode.key keyIndex) (some normalizingNode)
          pure (u, (1 : Int))
        else do
          let u ← unionNodesAroundKey (some normalizingNode) (← parentNode.key keyIndex) rightNode
          pure (u, (0 : Int))
      let parentNode ← parentNode.eraseKey keyIndex
      let parentNode ← parentNode.eraseChild childIndex
      let parentNode ← parentNode.setChild (childIndex - 1) (some unionNode)
      pure (parentNode, deviation)

/-- Outcome of the key scan of `_erase` in one node. -/
inductive EraseScan where
  | found (i : Int)
  | descend (i : Int)
  | passed

/-- Scan of `_erase`: `for (i = 0; i < size; ++i)` leaving at the first key equal to `key`
(`found`) or greater than it (`descend`); entered with `n = size - i`. -/
def eraseScan (key : Int) (curNode : BTreeNode) : Nat → Int → Except Fault EraseScan
  | 0, _ => .ok .passed
  | n + 1, i => do
    let k ← curNode.key i
    if k = key then pure (.found i)
    else if k > key then pure (.descend i)
    else eraseScan key curNode n (i + 1)

/-- Last search of `_erase` in a leaf: the index of the first key equal to `key`, or the
incoming `keyIndex` when there is none; entered with `n = size - i`. -/
def leafScan (key : Int) (curNode : BTreeNode) (keyIndex : Int) : Nat → Int → Except Fault Int
  | 0, _ => .ok keyIndex
  | n + 1, i => do
    let k ← curNode.key i
    if k = key then pure i else leafScan key curNode keyIndex n (i + 1)

/-- The part of `_erase` after its `do ... while` loop, at the node `curNode` the loop ended on
with the `keyIndex` it found there (`-1` when it found none); `self` is `_erase` itself. -/
def eraseTail (self : BTreeNode → Int → Except Fault BTreeNode) (fuel : Nat) (t : Int)
    (curNode : BTreeNode) (key : Int) (keyIndex : Int) : Except Fault BTreeNode := do
  if curNode.leaf then
    let keyIndex ← leafScan key curNode keyIndex curNode.size.toNat 0
    if keyIndex ≠ -1 then
      let curNode ← curNode.eraseKey keyIndex
      curNode.resizeKeysAndChildren curNode.size
    else pure curNode
  else
    let leftPtr ← curNode.getChild keyIndex
    let rightPtr ← curNode.getChild (keyIndex + 1)
    let leftNode ← deref leftPtr
    if leftNode.size ≥ t then
      let p ← predecessor fuel curNode keyIndex
      let predecessorNode ← nodeAt curNode p
      let swapKey ← predecessorNode.key (predecessorNode.size - 1)
      let curNode ← modifyAt (fun n => self n swapKey) curNode p
      curNode.setKey keyIndex swapKey
    else
      let rightNode ← deref rightPtr
      if rightNode.size ≥ t then
        let p ← successor fuel curNode keyIndex
        let successorNode ← nodeAt curNode p
        let swapKey ← successorNode.key 0
        let curNode ← modifyAt (fun n => self n swapKey) curNode p
        curNode.setKey keyIndex swapKey
      else
        let leftNode := leftNode.appendKey key
        let leftNode ← forUp (fun i l => do pure (l.appendKey (← rightNode.key i)))
          rightNode.size.toNat 0 leftNode
        let leftNode := leftNode.appendChild (← rightNode.getChild 0)
        let leftNode := leftNode.appendChild (← rightNode.getChild 1)
        let curNode ← curNode.eraseKey keyIndex
        let curNode ← curNode.eraseChild (keyIndex + 1)
        let leftNode ← self leftNode key
        curNode.setChild keyIndex (some leftNode)

/-- Function `_erase(startNode, key)`; returns the updated `startNode`. One round of the
`do ... while` loop is one unfolding: the round either ends the loop at the current node or
moves to a child, where the loop goes on if the child is internal and ends if it is a leaf. -/
def _erase (t : Int) : Nat → BTreeNode → Int → Except Fault BTreeNode
  | 0, _, _ => .error .budget
  | fuel + 1, curNode, key => do
    let r ← eraseScan key curNode curNode.size.toNat 0
    match r with
    | .found i => eraseTail (fun n k => _erase t fuel n k) fuel t curNode key i
    | .descend i =>
      let (curNode, deviation) ← normalizeNodeForErasing t curNode i
      let i := i - deviation
      let child ← deref (← curNode.getChild i)
      let child ← if child.leaf then
          eraseTail (fun n k => _erase t fuel n k) fuel t child key (-1)
        else _erase t fuel child key
      curNode.setChild i (some child)
    | .passed =>
      let i := curNode.size
      let child ← deref (← curNode.getChild i)
      let child ← if child.leaf then
          eraseTail (fun n k => _erase t fuel n k) fuel t child key (-1)
        else _erase t fuel child key
      curNode.setChild i (some child)

/-- Method `erase(key)`. -/
def erase (T : BTree) (key : Int) : Except Fault BTree :=
  if T.root.size = 0 then .ok T
  else do
    let r ← _erase T.minDegree T.root.height T.root key
    pure { T with root := r }

end BTree

/-! ## Observations used by the specification -/

/-- In-order merge of the traversals of the children with the keys of a node:
child 0, key 0, child 1, key 1, and so on. -/
def interleave : List (List Int) → List Int → List Int
  | [], ks => ks
  | c :: cs, [] => c ++ interleave cs []
  | c :: cs, k :: ks => c ++ k :: interleave cs ks

namespace BTreeNode

mutual
/-- In-order traversal of the subtree of a node; a leaf contributes its keys. -/
def inorder : BTreeNode → List Int
  | mk l ks cs => if l then ks else interleave (inorderList cs) ks
/-- In-order traversals of a vector of child pointers. -/
def inorderList : List (Option BTreeNode) → List (List Int)
  | [] => []
  | c :: cs => inorderOpt c :: inorderList cs
/-- In-order traversal behind a pointer; a null pointer contributes nothing. -/
def inorderOpt : Option BTreeNode → List Int
  | none => []
  | some c => inorder c
end

mutual
/-- All nodes strictly below a node. -/
def nodesBelow : BTreeNode → List BTreeNode
  | mk _ _ cs => nodesBelowList cs
/-- All nodes reachable through a vector of child pointers. -/
def nodesBelowList : List (Option BTreeNode) → List BTreeNode
  | [] => []
  | c :: cs => nodesBelowOpt c ++ nodesBelowList cs
/-- The node behind a pointer together with all nodes below it. -/
def nodesBelowOpt : Option BTreeNode → List BTreeNode
  | none => []
  | some c => c :: nodesBelow c
end

/-- Every leaf of the subtree is exactly `h` levels below the node, and no node on the way
to a leaf has a null child. -/
def LeavesAtDepth : Nat → BTreeNode → Prop
  | 0, n => n.leaf = true
  | h + 1, n => n.leaf = false ∧ ∀ p ∈ n.children, ∃ c, p = some c ∧ LeavesAtDepth h c

/-- Shape of a subtree of height `h` in a B-tree of minimum degree `t`: leaves at depth `h`
with null child pointers only, every internal node has one child more than keys, and every
node below the top one holds between `t - 1` and `2t - 1` keys. -/
def Shaped (t : Int) : Nat → BTreeNode → Prop
  | 0, n => n.leaf = true ∧ ∀ p ∈ n.children, p = none
  | h + 1, n => n.leaf = false ∧ n.children.length = n.keys.length + 1 ∧
      ∀ p ∈ n.children, ∃ c, p = some c ∧ t - 1 ≤ c.size ∧ c.size ≤ 2 * t - 1 ∧ Shaped t h c

end BTreeNode

namespace BTree

/-- The descent of `erase key` from a node needs no rebalancing: on the way down, every child
entered through a separator greater than `key` already holds at least `t` keys (a child entered
as the rightmost one is never rebalanced). The first argument bounds the depth looked at. -/
def roomyPath (t : Int) (key : Int) : Nat → BTreeNode → Bool
  | 0, _ => true
  | fuel + 1, n =>
    if n.leaf then true
    else
      let i := (n.keys.takeWhile (fun x => decide (x < key))).length
      match n.children[i]? with
      | some (some c) =>
        (decide (n.keys.length ≤ i) || decide (t ≤ c.size)) && roomyPath t key fuel c
      | _ => false

/-- The tree obtained from the empty tree of minimum degree `t` by inserting the keys of a
list from left to right. -/
def build (t : Int) (keys : List Int) : Except Fault BTree := do
  let T ← new t
  keys.foldlM insert T

end BTree

/-! # The van Emde Boas tree (`vanEmdeBoasTree.hpp`, `vanEmdeBoasTree.cpp`)

A `vEBTree` object owns a summary (a null pointer in a tree of universe size 2) and a vector
of clusters, and stores its universe size, minimum and maximum. The methods change the object
in place; here they return the changed object. `int` values are integers: every value the
methods compute for arguments inside the universe lies between `-1` and `u`. Recursion through
the owned subtrees is bounded by a budget; `vEBTree.fuel` is the budget the claims use. -/

/-- Ways a call on a van Emde Boas tree can fail to return: a constructor threw
`vEBTreeCreationException`, a cluster index was outside the vector, a member was accessed
through the null summary pointer, or the recursion budget of the model ran out. -/
inductive vEBFault where
  | creationException
  | outOfRange
  | nullDeref
  | budget
  deriving DecidableEq, Repr

namespace vEBOperations

/-- Function `upSqrt(x)`, that is `(int)pow(2, ceil(log2(x) / 2))`: for `x >= 1` the exponent is
the least `n` with `x <= 4 ^ n`, computed from the position of the highest set bit. The
constructors call it only with a power of two `x >= 4`; the value 0 for `x <= 0` is never
used. -/
def upSqrt (x : Int) : Int :=
  if x ≤ 0 then 0
  else if x.toNat = 2 ^ Nat.log2 x.toNat then ((2 ^ ((Nat.log2 x.toNat + 1) / 2) : Nat) : Int)
  else ((2 ^ (Nat.log2 x.toNat / 2 + 1) : Nat) : Int)

/-- Function `downSqrt(x)`, that is `(int)pow(2, floor(log2(x) / 2))`: for `x >= 1` the exponent
is the greatest `n` with `4 ^ n <= x`. The value 0 for `x <= 0` is never used. -/
def downSqrt (x : Int) : Int :=
  if x ≤ 0 then 0 else ((2 ^ (Nat.log2 x.toNat / 2) : Nat) : Int)

end vEBOperations

/-- A `vEBTree` object: `summary` (`none` is the null pointer), `clusters` (the vector only
ever receives freshly constructed trees, so its entries are the trees themselves), `u`, `min`,
`max`. -/
inductive vEBTree where
  | mk (summary : Option vEBTree) (clusters : List vEBTree) (u : Int) (min : Int) (max : Int)

namespace vEBTree

/-- Enumerator `InvalidValue`. -/
def InvalidValue : Int := -1

/-- Member `summary`. -/
def summary : vEBTree → Option vEBTree
  | mk s _ _ _ _ => s

/-- Member `clusters`. -/
def clusters : vEBTree → List vEBTree
  | mk _ cs _ _ _ => cs

/-- Method `getU()`. -/
def getU : vEBTree → Int
  | mk _ _ u _ _ => u

/-- Method `getMin()`. -/
def getMin : vEBTree → Int
  | mk _ _ _ mn _ => mn

/-- Method `getMax()`. -/
def getMax : vEBTree → Int
  | mk _ _ _ _ mx => mx

/-- Method `setMin(newMin)`. -/
def setMin : vEBTree → Int → vEBTree
  | mk s cs u _ mx, v => mk s cs u v mx

/-- Method `setMax(newMax)`. -/
def setMax : vEBTree → Int → vEBTree
  | mk s cs u mn _, v => mk s cs u mn v

/-- Method `empty()`. -/
def empty (t : vEBTree) : Bool :=
  decide (t.getMin = t.getMax) && decide (t.getMax = InvalidValue)

/-- Method `hasOnlyOneElement()`. -/
def hasOnlyOneElement (t : vEBTree) : Bool :=
  decide (t.getMin = t.getMax) && !t.empty

/-- Method `emptyTreeInsert(x)`. -/
def emptyTreeInsert (t : vEBTree) (x : Int) : vEBTree :=
  (t.setMin x).setMax x

/-- Method `high(x)`, that is `(int)floor((double)x / downSqrt(u))`. -/
def high (t : vEBTree) (x : Int) : Int :=
  Int.fdiv x (vEBOperations.downSqrt t.getU)

/-- Method `low(x)`, that is `x % downSqrt(u)` with the remainder of C++. -/
def low (t : vEBTree) (x : Int) : Int :=
  Int.tmod x (vEBOperations.downSqrt t.getU)

/-- Method `index(x, y)`. -/
def index (t : vEBTree) (x y : Int) : Int :=
  x * vEBOperations.downSqrt t.getU + y

/-- Expression `clusters[i]`. -/
def cluster (t : vEBTree) (i : Int) : Except vEBFault vEBTree :=
  if i < 0 then .error .outOfRange
  else match t.clusters[i.toNat]? with
    | some c => .ok c
    | none => .error .outOfRange

/-- The object after a method has changed the tree behind `clusters[i]` into `c`. -/
def setCluster (t : vEBTree) (i : Int) (c : vEBTree) : Except vEBFault vEBTree :=
  if i < 0 ∨ t.clusters.length ≤ i.toNat then .error .outOfRange
  else match t with
    | mk s cs u mn mx => .ok (mk s (cs.set i.toNat c) u mn mx)

/-- Expression `summary->`. -/
def derefSummary (t : vEBTree) : Except vEBFault vEBTree :=
  match t.summary with
  | some s => .ok s
  | none => .error .nullDeref

/-- The object after a method has changed the tree behind `summary` into `s`. -/
def setSummary : vEBTree → vEBTree → vEBTree
  | mk _ cs u mn mx, s => mk (some s) cs u mn mx

/-- The loop of `createSubtrees`: `n` more times push a newly constructed cluster. -/
def pushClusters (newCluster : Except vEBFault vEBTree) :
    Nat → List vEBTree → Except vEBFault (List vEBTree)
  | 0, cs => .ok cs
  | n + 1, cs => do
    let c ← newCluster
    pushClusters newCluster n (cs ++ [c])

/-- Constructor `vEBTree(_u, _min, _max)` with `createSubtrees`; the budget counts the nesting of
constructor calls. -/
def create : Nat → Int → Int → Int → Except vEBFault vEBTree
  | fuel, u, mn, mx =>
    if u < 2 ∨ Nat.land u.toNat (u - 1).toNat ≠ 0 then .error .creationException
    else if u = 2 then .ok (mk none [] u mn mx)
    else match fuel with
      | 0 => .error .budget
      | fuel + 1 => do
        let upSqrtU := vEBOperations.upSqrt u
        let downSqrtU := vEBOperations.downSqrt u
        let clusters ← pushClusters (create fuel downSqrtU InvalidValue InvalidValue)
          upSqrtU.toNat []
        let summary ← create fuel upSqrtU InvalidValue InvalidValue
        pure (mk (some summary) clusters u mn mx)

/-- Constructor `vEBTree(_u)`. -/
def new (u : Int) : Except vEBFault vEBTree :=
  create u.toNat u InvalidValue InvalidValue

/-- Recursion budget used for the methods of a tree: its universe size, which is more than the
number of levels below it. -/
def fuel (t : vEBTree) : Nat := t.getU.toNat

/-- Method `contains(x)`. -/
def contains : Nat → vEBTree → Int → Except vEBFault Bool
  | 0, _, _ => .error .budget
  | fuel + 1, t, x =>
    if x = t.getMin ∨ x = t.getMax then .ok true
    else if t.getU = 2 then .ok false
    else do
      let c ← t.cluster (t.high x)
      contains fuel c (t.low x)

/-- Method `predecessor(x)`. -/
def predecessor : Nat → vEBTree → Int → Except vEBFault Int
  | 0, _, _ => .error .budget
  | fuel + 1, t, x =>
    if t.getU = 2 then
      if x = 1 ∧ t.getMin = 0 then .ok 0 else .ok InvalidValue
    else if t.getMax ≠ InvalidValue ∧ x > t.getMax then .ok t.getMax
    else do
      let c ← t.cluster (t.high x)
      let minLow := c.getMin
      if minLow ≠ InvalidValue ∧ t.low x > minLow then do
        let offset ← predecessor fuel c (t.low x)
        pure (t.index (t.high x) offset)
      else do
        let s ← t.derefSummary
        let predCluster ← predecessor fuel s (t.high x)
        if predCluster = InvalidValue then
          if t.getMin ≠ InvalidValue ∧ x > t.getMin then pure t.getMin
          else pure InvalidValue
        else do
          let c1 ← t.cluster predCluster
          pure (t.index predCluster c1.getMax)

/-- Method `successor(x)`. -/
def successor : Nat → vEBTree → Int → Except vEBFault Int
  | 0, _, _ => .error .budget
  | fuel + 1, t, x =>
    if t.getU = 2 then
      if x = 0 ∧ t.getMax = 1 then .ok 1 else .ok InvalidValue
    else if t.getMin ≠ InvalidValue ∧ x < t.getMin then .ok t.getMin
    else do
      let c ← t.cluster (t.high x)
      let maxLow := c.getMax
      if maxLow ≠ InvalidValue ∧ t.low x < maxLow then do
        let offset ← successor fuel c (t.low x)
        pure (t.index (t.high x) offset)
      else do
        let s ← t.derefSummary
        let succCluster ← successor fuel s (t.high x)
        if succCluster = InvalidValue then pure InvalidValue
        else do
          let c1 ← t.cluster succCluster
          pure (t.index succCluster c1.getMin)

/-- Method `_insert(x)`. The call `summary->insert(high(val))` is the guarded insert: it runs
`contains` first. `val` and the new minimum are the two values after the swap of case 2. -/
def _insert : Nat → vEBTree → Int → Except vEBFault vEBTree
  | 0, _, _ => .error .budget
  | fuel + 1, t, x =>
    if t.getMin = InvalidValue then .ok (t.emptyTreeInsert x)
    else do
      let val := if x < t.getMin then t.getMin else x
      let t := if x < t.getMin then t.setMin x else t
      let t ← if t.getU > 2 then do
          let c ← t.cluster (t.high val)
          if c.getMin = InvalidValue then do
            let s ← t.derefSummary
            let s1 ← (do
              if (← contains fuel s (t.high val)) then pure s
              else _insert fuel s (t.high val))
            (t.setSummary s1).setCluster (t.high val) (c.emptyTreeInsert (t.low val))
          else do
            let c1 ← _insert fuel c (t.low val)
            t.setCluster (t.high val) c1
        else pure t
      if val > t.getMax then pure (t.setMax val) else pure t

/-- Method `insert(x)`. -/
def insert (fuel : Nat) (t : vEBTree) (x : Int) : Except vEBFault vEBTree := do
  if (← contains fuel t x) then pure t
  else _insert fuel t x

/-- Method `_erase(x)`. After `clusters[high(val)]->_erase(low(val))` the source reads
`clusters[high(val)]` again; that is the changed cluster `c1`. -/
def _erase : Nat → vEBTree → Int → Except vEBFault vEBTree
  | 0, _, _ => .error .budget
  | fuel + 1, t, x =>
    if t.getMin = t.getMax then .ok ((t.setMin InvalidValue).setMax InvalidValue)
    else if t.getU = 2 then
      let t := if x = 0 then t.setMin 1 else t.setMin 0
      .ok (t.setMax t.getMin)
    else do
      let val ← if x = t.getMin then do
          let s ← t.derefSummary
          let firstCluster := s.getMin
          let c ← t.cluster firstCluster
          pure (t.index firstCluster c.getMin)
        else pure x
      let t := if x = t.getMin then t.setMin val else t
      let c ← t.cluster (t.high val)
      let c1 ← _erase fuel c (t.low val)
      let t ← t.setCluster (t.high val) c1
      if c1.getMin = InvalidValue then do
        let s ← t.derefSummary
        let s1 ← _erase fuel s (t.high val)
        let t := t.setSummary s1
        if val = t.getMax then
          let summaryMax := s1.getMax
          if summaryMax = InvalidValue then pure (t.setMax t.getMin)
          else do
            let c2 ← t.cluster summaryMax
            pure (t.setMax (t.index summaryMax c2.getMax))
        else pure t
      else if val = t.getMax then pure (t.setMax (t.index (t.high val) c1.getMax))
      else pure t

/-- Method `erase(x)`. -/
def erase (fuel : Nat) (t : vEBTree) (x : Int) : Except vEBFault vEBTree := do
  if !(← contains fuel t x) then pure t
  else _erase fuel t x

end vEBTree

/-- One call of a sequence of updates. -/
inductive vEBCall where
  | insert (x : Int)
  | erase (x : Int)

namespace vEBCall

/-- The argument of a call. -/
def arg : vEBCall → Int
  | insert x => x
  | erase x => x

/-- Run one call on a tree. -/
def run (t : vEBTree) : vEBCall → Except vEBFault vEBTree
  | insert x => vEBTree.insert t.fuel t x
  | erase x => vEBTree.erase t.fuel t x

/-- Construct `vEBTree(u)` and run the calls in order. -/
def runAll (u : Int) (calls : List vEBCall) : Except vEBFault vEBTree := do
  let t ← vEBTree.new u
  calls.foldlM run t

/-- Whether `x` was inserted by one of the calls and not erased afterwards. -/
def stored (calls : List vEBCall) (x : Int) : Bool :=
  calls.foldl (fun b c => match c with
    | insert y => if y = x then true else b
    | erase y => if y = x then false else b) false

end vEBCall

/-! ## What a tree represents -/

/-- The elements of `R` that fall into cluster `i` of a tree whose clusters have size `d`, as
offsets inside the cluster. -/
def clusterSet (R : Set Int) (d : Int) (i : Int) : Set Int :=
  {y | 0 ≤ y ∧ y < d ∧ i * d + y ∈ R}

/-- The indices below `m` of the clusters that hold an element of `R`. -/
def summarySet (R : Set Int) (d m : Int) : Set Int :=
  {i | 0 ≤ i ∧ i < m ∧ ∃ y, y ∈ clusterSet R d i}

/-- The fields `min` and `max` of a tree that stores the set `S`: both `InvalidValue` when `S`
is empty, else its least and greatest element. -/
def MinMax (S : Set Int) (mn mx : Int) : Prop :=
  (S = ∅ ∧ mn = -1 ∧ mx = -1) ∨ (IsLeast S mn ∧ IsGreatest S mx)

/-- The tree `t` over the universe of size `2 ^ k` stores the set `S`: the minimum is kept out
of the clusters, cluster `i` stores the other elements with high part `i`, and the summary
stores the indices of the clusters that are not empty. -/
inductive Stores : Nat → vEBTree → Set Int → Prop
  | base (mn mx : Int) (S : Set Int) (hS : S ⊆ Set.Ico 0 2) (hmm : MinMax S mn mx) :
      Stores 1 (vEBTree.mk none [] 2 mn mx) S
  | node (k : Nat) (hk : 2 ≤ k) (s : vEBTree) (cs : List vEBTree) (mn mx : Int) (S : Set Int)
      (hS : S ⊆ Set.Ico 0 (2 ^ k)) (hmm : MinMax S mn mx)
      (hlen : cs.length = 2 ^ (k - k / 2))
      (hs : Stores (k - k / 2) s (summarySet (S \ {mn}) (2 ^ (k / 2)) (2 ^ (k - k / 2))))
      (hc : ∀ (i : Nat) (c : vEBTree), cs[i]? = some c →
        Stores (k / 2) c (clusterSet (S \ {mn}) (2 ^ (k / 2)) i)) :
      Stores k (vEBTree.mk (some s) cs (2 ^ k) mn mx) S

section BTreeExamples

open BTreeNode BTree

/-! ## Decidable equality, used to evaluate the model on concrete trees -/

mutual
/-- Decidable equality of nodes. -/
def BTreeNode.decEqNode : (a b : BTreeNode) → Decidable (a = b)
  | mk l1 k1 c1, mk l2 k2 c2 =>
    if h1 : l1 = l2 then
      if h2 : k1 = k2 then
        match BTreeNode.decEqList c1 c2 with
        | isTrue h3 => isTrue (by rw [h1, h2, h3])
        | isFalse h3 => isFalse (fun e => h3 (by cases e; rfl))
      else isFalse (fun e => h2 (by cases e; rfl))
    else isFalse (fun e => h1 (by cases e; rfl))
/-- Decidable equality of child vectors. -/
def BTreeNode.decEqList : (a b : List (Option BTreeNode)) → Decidable (a = b)
  | [], [] => isTrue rfl
  | [], _ :: _ => isFalse (fun e => by cases e)
  | _ :: _, [] => isFalse (fun e => by cases e)
  | x :: xs, y :: ys =>
    match BTreeNode.decEqOpt x y with
    | isTrue h1 =>
      match BTreeNode.decEqList xs ys with
      | isTrue h2 => isTrue (by rw [h1, h2])
      | isFalse h2 => isFalse (fun e => h2 (by cases e; rfl))
    | isFalse h1 => isFalse (fun e => h1 (by cases e; rfl))
/-- Decidable equality of child pointers. -/
def BTreeNode.decEqOpt : (a b : Option BTreeNode) → Decidable (a = b)
  | none, none => isTrue rfl
  | none, some _ => isFalse (fun e => by cases e)
  | some _, none => isFalse (fun e => by cases e)
  | some x, some y =>
    match BTreeNode.decEqNode x y with
    | isTrue h => isTrue (by rw [h])
    | isFalse h => isFalse (fun e => h (by cases e; rfl))
end

instance instDecidableEqBTreeNode : DecidableEq BTreeNode := BTreeNode.decEqNode

instance instDecidableEqBTree : DecidableEq BTree
  | ⟨t1, r1⟩, ⟨t2, r2⟩ =>
    if h1 : t1 = t2 then
      if h2 : r1 = r2 then isTrue (by rw [h1, h2])
      else isFalse (fun e => h2 (by cases e; rfl))
    else isFalse (fun e => h1 (by cases e; rfl))

instance instDecidableEqExcept {ε α : Type} [DecidableEq ε] [DecidableEq α] :
    DecidableEq (Except ε α)
  | .ok a, .ok b =>
    if h : a = b then isTrue (by rw [h]) else isFalse (fun e => h (by cases e; rfl))
  | .error a, .error b =>
    if h : a = b then isTrue (by rw [h]) else isFalse (fun e => h (by cases e; rfl))
  | .ok _, .error _ => isFalse (fun e => by cases e)
  | .error _, .ok _ => isFalse (fun e => by cases e)

/-! ## Trees of the worked examples (minimum degree 2) -/

/-- Shorthand for a leaf of the examples: its keys, with one null child pointer more. -/
def exLeaf (ks : List Int) : Option BTreeNode :=
  some (mk true ks (List.replicate (ks.length + 1) none))

/-- The tree built from 10, 20, 5, 6, 12, 30, 7, 17. -/
def exTreeClrs : BTree :=
  ⟨2, mk false [10, 20] [exLeaf [5, 6, 7], exLeaf [12, 17], exLeaf [30]]⟩

/-- The tree built from 10, 20, 30, 40, 50, 60. -/
def exTreeSix : BTree :=
  ⟨2, mk false [20, 40] [exLeaf [10], exLeaf [30], exLeaf [50, 60]]⟩

/-- What `erase 30` makes of `exTreeSix`. -/
def exTreeSixErase30 : BTree :=
  ⟨2, mk false [50, 40] [exLeaf [10], exLeaf [20], exLeaf [60]]⟩

/-- What `erase 60` makes of `exTreeSix`. -/
def exTreeSixErase60 : BTree :=
  ⟨2, mk false [20, 40] [exLeaf [10], exLeaf [30], exLeaf [50]]⟩

/-- The tree built from 10, 20, 30, 5. -/
def exTreeFour : BTree :=
  ⟨2, mk false [20] [exLeaf [5, 10], exLeaf [30]]⟩

/-- What `erase 30` makes of `exTreeFour`: the right leaf has lost its only key. -/
def exTreeFourErase30 : BTree :=
  ⟨2, mk false [20] [exLeaf [5, 10], some (mk true [] [none])]⟩

/-- The tree built from 10, 20, 30, 40, 50, 60, 5. -/
def exTreeSeven : BTree :=
  ⟨2, mk false [20, 40] [exLeaf [5, 10], exLeaf [30], exLeaf [50, 60]]⟩

/-- What `erase 35` makes of `exTreeSeven`. -/
def exTreeSevenErase35 : BTree :=
  ⟨2, mk false [10, 40] [exLeaf [5], exLeaf [20, 30], exLeaf [50, 60]]⟩

/-- The tree built from 10, 20, 30, 40, 50, 35. -/
def exTreeMid : BTree :=
  ⟨2, mk false [20, 40] [exLeaf [10], exLeaf [30, 35], exLeaf [50]]⟩

/-- What `erase 35` makes of `exTreeMid`. -/
def exTreeMidErase35 : BTree :=
  ⟨2, mk false [20, 40] [exLeaf [10], exLeaf [30], exLeaf [50]]⟩

/-- What a second `erase 35` makes of `exTreeMidErase35`. -/
def exTreeMidErase35Twice : BTree :=
  ⟨2, mk false [40] [exLeaf [10, 20, 30], exLeaf [50]]⟩

/-! ## Trees of the erase scenarios -/

/-- The tree built with minimum degree 3 from the keys 1 to 20 in increasing order. -/
def exTreeTwenty : BTree :=
  ⟨3, mk false [9]
    [some (mk false [3, 6] [exLeaf [1, 2], exLeaf [4, 5], exLeaf [7, 8]]),
     some (mk false [12, 15] [exLeaf [10, 11], exLeaf [13, 14], exLeaf [16, 17, 18, 19, 20]])]⟩

/-- What `erase 9` makes of `exTreeTwenty`: a root without keys over one node with four keys
and four children; the leaf with 16 to 20 is gone. -/
def exTreeTwentyErase9 : BTree :=
  ⟨3, mk false []
    [some (mk false [3, 6, 12, 15]
      [exLeaf [1, 2], exLeaf [4, 5], exLeaf [7, 8, 10, 11], exLeaf [13, 14]])]⟩

/-- The tree built with minimum degree 2 from 10, 20, 30, 40. -/
def exTreeRamp : BTree :=
  ⟨2, mk false [20] [exLeaf [10], exLeaf [30, 40]]⟩

/-- What `erase 40` makes of `exTreeRamp`: a root with one key over two leaves with one key
each. -/
def exTreePair : BTree :=
  ⟨2, mk false [20] [exLeaf [10], exLeaf [30]]⟩

/-- What `erase 20` makes of `exTreePair`: the old root, internal and without keys, over the
merged leaf. -/
def exTreeHollow : BTree :=
  ⟨2, mk false [] [exLeaf [10, 30]]⟩

/-- What `normalizeNodeForErasing` at child 1 makes of the root of `exTreeSix`. -/
def exNodeSixBorrow : BTreeNode :=
  mk false [50, 40] [exLeaf [10], exLeaf [30, 20], exLeaf [60]]

/-! ## Further observations used by the specification -/

mutual
/-- Number of keys stored in the subtree of a node, counted node by node. -/
def BTreeNode.keyCount : BTreeNode → Nat
  | mk _ ks cs => ks.length + BTreeNode.keyCountList cs
/-- Number of keys stored behind a vector of child pointers. -/
def BTreeNode.keyCountList : List (Option BTreeNode) → Nat
  | [] => 0
  | c :: cs => BTreeNode.keyCountOpt c + BTreeNode.keyCountList cs
/-- Number of keys stored behind a pointer; a null pointer stores none. -/
def BTreeNode.keyCountOpt : Option BTreeNode → Nat
  | none => 0
  | some c => BTreeNode.keyCount c
end

/-- The pointer `p` leads from `n` to a leaf by taking the last child at every node on the
way. -/
def BTreeNode.LastWalk : BTreeNode → NodePath → Prop
  | n, [] => n.leaf = true
  | n, j :: p => n.leaf = false ∧ j + 1 = (n.children.length : Int) ∧
      ∃ c, n.children.getLast? = some (some c) ∧ BTreeNode.LastWalk c p

/-- The pointer `p` leads from `n` to a leaf by taking the first child at every node on the
way. -/
def BTreeNode.FirstWalk : BTreeNode → NodePath → Prop
  | n, [] => n.leaf = true
  | n, j :: p => n.leaf = false ∧ j = 0 ∧
      ∃ c, n.children.head? = some (some c) ∧ BTreeNode.FirstWalk c p

/-- The tree built with minimum degree 2 from the keys 1 to 10 in increasing order. -/
def exTreeTen : BTree :=
  ⟨2, mk false [4]
    [some (mk false [2] [exLeaf [1], exLeaf [3]]),
     some (mk false [6, 8] [exLeaf [5], exLeaf [7], exLeaf [9, 10]])]⟩

/-! ## Auxiliary notions of the proofs -/

/-- Keys kept to the left of the insertion point: what remains after dropping the trailing
keys greater than `key`. -/
def keysBefore (key : Int) (ks : List Int) : List Int :=
  ks.rdropWhile (fun k => decide (key < k))

/-- Keys to the right of the insertion point: the trailing keys greater than `key`. -/
def keysAfter (key : Int) (ks : List Int) : List Int :=
  ks.rtakeWhile (fun k => decide (key < k))

/-- The B-tree invariants of a tree of height `h`: shape, root not over-full, and a
non-decreasing in-order traversal. -/
def TreeInv (h : Nat) (T : BTree) : Prop :=
  Shaped T.minDegree h T.root ∧ T.root.size ≤ 2 * T.minDegree - 1 ∧
    List.Pairwise (· ≤ ·) (inorder T.root)

/-- What a shaped subtree guarantees for one node: its child count and non-null children. -/
def NodeOk (x : BTreeNode) : Prop :=
  x.leaf = false → x.children.length = x.keys.length + 1 ∧ ∀ p ∈ x.children, p ≠ none

end BTreeExamples

/-! # Proofs about the B-tree -/

section BTreeProofs

open BTreeNode BTree

/-! ## The `Except` monad -/

theorem ok_bind {α β : Type} (a : α) (f : α → Except Fault β) : (Except.ok a >>= f) = f a := rfl

theorem error_bind {α β : Type} (e : Fault) (f : α → Except Fault β) :
    ((Except.error e : Except Fault α) >>= f) = Except.error e := rfl

theorem pure_eq_ok {α : Type} (a : α) : (pure a : Except Fault α) = Except.ok a := rfl

/-! ## Vector primitives on indices known to be in range -/

theorem vecGet_eq_ok {α : Type} (v : List α) (i : Int) (a : α) :
    vecGet v i = .ok a ↔ 0 ≤ i ∧ v[i.toNat]? = some a := by
  unfold vecGet
  by_cases h : i < 0
  · simp [h]
  · simp only [h, if_false]
    cases hv : v[i.toNat]? with
    | none => simp
    | some b => simp; omega

theorem vecGet_nat {α : Type} (v : List α) (i : Nat) (h : i < v.length) :
    vecGet v (i : Int) = .ok v[i] := by
  rw [vecGet_eq_ok]; simp [h]

theorem vecGet_of_getElem? {α : Type} (v : List α) (i : Nat) (a : α) (h : v[i]? = some a) :
    vecGet v (i : Int) = .ok a := by
  rw [vecGet_eq_ok]; simp [h]

theorem vecSet_nat {α : Type} (v : List α) (i : Nat) (a : α) (h : i < v.length) :
    vecSet v (i : Int) a = .ok (v.set i a) := by
  unfold vecSet
  have : (0 : Int) ≤ i ∧ (i : Int) < v.length := ⟨by omega, by omega⟩
  simp [this]

theorem vecResize_nat {α : Type} (v : List α) (n : Nat) (d : α) :
    vecResize v (n : Int) d = .ok (v.take n ++ List.replicate (n - v.length) d) := by
  unfold vecResize
  have : ¬ ((n : Int) < 0) := by omega
  simp [this]

theorem vecGet_mid {α : Type} (pre suf : List α) (x : α) :
    vecGet (pre ++ x :: suf) (pre.length : Int) = .ok x := by
  apply vecGet_of_getElem?
  induction pre with
  | nil => simp
  | cons a pre ih => simpa using ih

theorem vecSet_mid {α : Type} (pre suf : List α) (x v : α) :
    vecSet (pre ++ x :: suf) (pre.length : Int) v = .ok (pre ++ v :: suf) := by
  rw [vecSet_nat _ _ _ (by simp)]
  simp

/-! ## Loops over a vector -/

/-- Copy loop `for (j = a; j < a + n; ++j) d[j] = src[j + off]`. -/
theorem forUp_copy {α : Type} (src : List α) (off : Nat) :
    ∀ (n : Nat) (pre mid suf : List α), mid.length = n → pre.length + off + n ≤ src.length →
      forUp (fun j d => do vecSet d j (← vecGet src (j + (off : Int)))) n (pre.length : Int)
          (pre ++ mid ++ suf)
        = .ok (pre ++ (src.drop (pre.length + off)).take n ++ suf) := by
  intro n
  induction n with
  | zero => intro pre mid suf hm _; simp [forUp, List.length_eq_zero.mp hm]
  | succ n ih =>
    intro pre mid suf hm hs
    obtain ⟨x, mid1, rfl⟩ : ∃ x mid1, mid = x :: mid1 := by
      cases mid with
      | nil => simp at hm
      | cons x m => exact ⟨x, m, rfl⟩
    have hlt : pre.length + off < src.length := by omega
    have h1 : vecGet src ((pre.length : Int) + (off : Int)) = .ok src[pre.length + off] := by
      have := vecGet_nat src (pre.length + off) hlt
      simpa using this
    have h2 : vecSet (pre ++ (x :: mid1) ++ suf) (pre.length : Int) src[pre.length + off]
        = .ok (pre ++ src[pre.length + off] :: (mid1 ++ suf)) := by
      have := vecSet_mid pre (mid1 ++ suf) x src[pre.length + off]
      simpa using this
    have ih1 := ih (pre ++ [src[pre.length + off]]) mid1 suf (by simpa using hm)
      (by simp; omega)
    have e : ((pre.length : Int) + 1) = ((pre ++ [src[pre.length + off]]).length : Int) := by
      simp
    simp only [forUp, h1, h2, ok_bind]
    rw [e]
    have e2 : pre ++ src[pre.length + off] :: (mid1 ++ suf)
        = (pre ++ [src[pre.length + off]]) ++ mid1 ++ suf := by simp
    rw [e2, ih1]
    congr 1
    have e3 : List.take (n + 1) (List.drop (pre.length + off) src)
        = src[pre.length + off] :: List.take n (List.drop (pre.length + off + 1) src) := by
      rw [List.drop_eq_getElem_cons hlt, List.take_succ_cons]
    rw [e3]
    simp [Nat.add_right_comm]

/-- Shift loop `for (j = lo + n - 1; j >= lo; --j) d[j + 1] = d[j]`. -/
theorem forDown_shift {α : Type} :
    ∀ (n : Nat) (pre mid suf : List α) (x : α), mid.length = n →
      forDown (fun j d => do vecSet d (j + 1) (← vecGet d j)) n
          ((pre.length : Int) + (n : Int) - 1) (pre ++ mid ++ x :: suf)
        = .ok (pre ++ (mid.head?.getD x) :: mid ++ suf) := by
  intro n
  induction n with
  | zero =>
    intro pre mid suf x hm
    simp [forDown, List.length_eq_zero.mp hm]
  | succ n ih =>
    intro pre mid suf x hm
    obtain ⟨mid1, m, rfl⟩ : ∃ mid1 m, mid = mid1 ++ [m] := by
      rcases List.eq_nil_or_concat mid with h | ⟨l, a, h⟩
      · simp [h] at hm
      · exact ⟨l, a, by simpa using h⟩
    have hm1 : mid1.length = n := by simpa using hm
    have e : ((pre.length : Int) + ((n + 1 : Nat) : Int) - 1) = ((pre ++ mid1).length : Int) := by
      rw [List.length_append, hm1]; push_cast; omega
    have h1 : vecGet (pre ++ (mid1 ++ [m]) ++ x :: suf) ((pre ++ mid1).length : Int) = .ok m := by
      have := vecGet_mid (pre ++ mid1) (x :: suf) m
      simpa using this
    have h2 : vecSet (pre ++ (mid1 ++ [m]) ++ x :: suf) (((pre ++ mid1).length : Int) + 1) m
        = .ok (pre ++ mid1 ++ m :: m :: suf) := by
      have := vecSet_mid (pre ++ mid1 ++ [m]) suf x m
      simpa using this
    have ih1 := ih pre mid1 (m :: suf) m hm1
    simp only [forDown]
    rw [e, h1]
    simp only [ok_bind, h2]
    have e4 : (((pre ++ mid1).length : Int) - 1) = (pre.length : Int) + (n : Int) - 1 := by
      rw [List.length_append, hm1]; push_cast; omega
    rw [e4, ih1]
    cases mid1 <;> simp

/-! ## Node primitives on explicit nodes -/

theorem getChild_mid (l : Bool) (ks : List Int) (pre suf : List (Option BTreeNode))
    (c : Option BTreeNode) :
    (mk l ks (pre ++ c :: suf)).getChild (pre.length : Int) = .ok c :=
  vecGet_mid pre suf c

theorem setChild_mid (l : Bool) (ks : List Int) (pre suf : List (Option BTreeNode))
    (c c1 : Option BTreeNode) :
    (mk l ks (pre ++ c :: suf)).setChild (pre.length : Int) c1
      = .ok (mk l ks (pre ++ c1 :: suf)) := by
  simp only [setChild, children, vecSet_mid, ok_bind, pure_eq_ok, leaf, keys]

theorem key_mid (l : Bool) (pre suf : List Int) (k : Int) (cs : List (Option BTreeNode)) :
    (mk l (pre ++ k :: suf) cs).key (pre.length : Int) = .ok k :=
  vecGet_mid pre suf k

theorem setKey_mid (l : Bool) (pre suf : List Int) (k k1 : Int) (cs : List (Option BTreeNode)) :
    (mk l (pre ++ k :: suf) cs).setKey (pre.length : Int) k1
      = .ok (mk l (pre ++ k1 :: suf) cs) := by
  simp only [setKey, keys, vecSet_mid, ok_bind, pure_eq_ok, leaf, children]

theorem resize_nat (l : Bool) (ks : List Int) (cs : List (Option BTreeNode)) (n : Nat) :
    (mk l ks cs).resizeKeysAndChildren (n : Int)
      = .ok (mk l (ks.take n ++ List.replicate (n - ks.length) 0)
          (cs.take (n + 1) ++ List.replicate (n + 1 - cs.length) none)) := by
  have e : ((n : Int) + 1) = ((n + 1 : Nat) : Int) := by push_cast; rfl
  simp only [resizeKeysAndChildren, keys, children, leaf, vecResize_nat, e, ok_bind, pure_eq_ok]

/-! ## Loops over the keys or the children of a node -/

theorem forUp_onKeys (g : Int → List Int → Except Fault (List Int))
    (body : Int → BTreeNode → Except Fault BTreeNode) (l : Bool) (cs : List (Option BTreeNode))
    (hbody : ∀ j ks, body j (mk l ks cs) = (g j ks >>= fun ks1 => .ok (mk l ks1 cs))) :
    ∀ (n : Nat) (j : Int) (ks : List Int),
      forUp body n j (mk l ks cs) = (forUp g n j ks >>= fun ks1 => .ok (mk l ks1 cs)) := by
  intro n
  induction n with
  | zero => intro j ks; rfl
  | succ n ih =>
    intro j ks
    simp only [forUp, hbody]
    cases h : g j ks with
    | error e => rfl
    | ok ks1 => simp only [ok_bind, ih]

theorem forUp_onChildren (g : Int → List (Option BTreeNode) → Except Fault (List (Option BTreeNode)))
    (body : Int → BTreeNode → Except Fault BTreeNode) (l : Bool) (ks : List Int)
    (hbody : ∀ j cs, body j (mk l ks cs) = (g j cs >>= fun cs1 => .ok (mk l ks cs1))) :
    ∀ (n : Nat) (j : Int) (cs : List (Option BTreeNode)),
      forUp body n j (mk l ks cs) = (forUp g n j cs >>= fun cs1 => .ok (mk l ks cs1)) := by
  intro n
  induction n with
  | zero => intro j cs; rfl
  | succ n ih =>
    intro j cs
    simp only [forUp, hbody]
    cases h : g j cs with
    | error e => rfl
    | ok cs1 => simp only [ok_bind, ih]

theorem forDown_onKeys (g : Int → List Int → Except Fault (List Int))
    (body : Int → BTreeNode → Except Fault BTreeNode) (l : Bool) (cs : List (Option BTreeNode))
    (hbody : ∀ j ks, body j (mk l ks cs) = (g j ks >>= fun ks1 => .ok (mk l ks1 cs))) :
    ∀ (n : Nat) (j : Int) (ks : List Int),
      forDown body n j (mk l ks cs) = (forDown g n j ks >>= fun ks1 => .ok (mk l ks1 cs)) := by
  intro n
  induction n with
  | zero => intro j ks; rfl
  | succ n ih =>
    intro j ks
    simp only [forDown, hbody]
    cases h : g j ks with
    | error e => rfl
    | ok ks1 => simp only [ok_bind, ih]

theorem forDown_onChildren
    (g : Int → List (Option BTreeNode) → Except Fault (List (Option BTreeNode)))
    (body : Int → BTreeNode → Except Fault BTreeNode) (l : Bool) (ks : List Int)
    (hbody : ∀ j cs, body j (mk l ks cs) = (g j cs >>= fun cs1 => .ok (mk l ks cs1))) :
    ∀ (n : Nat) (j : Int) (cs : List (Option BTreeNode)),
      forDown body n j (mk l ks cs) = (forDown g n j cs >>= fun cs1 => .ok (mk l ks cs1)) := by
  intro n
  induction n with
  | zero => intro j cs; rfl
  | succ n ih =>
    intro j cs
    simp only [forDown, hbody]
    cases h : g j cs with
    | error e => rfl
    | ok cs1 => simp only [ok_bind, ih]

/-- Key copy loop of `splitChild`. -/
theorem splitChild_copyKeys (y : BTreeNode) (l : Bool) (cs : List (Option BTreeNode))
    (off n : Nat) (mid : List Int) (hm : mid.length = n) (hs : off + n ≤ y.keys.length) :
    forUp (fun j z => do z.setKey j (← y.key (j + (off : Int)))) n 0 (mk l mid cs)
      = .ok (mk l ((y.keys.drop off).take n) cs) := by
  rw [forUp_onKeys (fun j d => do vecSet d j (← vecGet y.keys (j + (off : Int))))]
  · have := forUp_copy y.keys off n [] mid [] hm (by simpa using hs)
    simp only [List.nil_append, List.append_nil, List.length_nil, Nat.zero_add] at this
    simp only [Nat.cast_zero] at this
    rw [this]; rfl
  · intro j ks
    cases y with | mk yl yks ycs => ?_
    simp only [BTreeNode.key, setKey, keys, leaf, children]
    cases vecGet yks (j + ↑off) with
    | error e => rfl
    | ok v =>
      simp only [ok_bind]
      cases vecSet ks j v <;> rfl

/-- Child copy loop of `splitChild`. -/
theorem splitChild_copyChildren (y : BTreeNode) (l : Bool) (ks : List Int)
    (off n : Nat) (mid : List (Option BTreeNode)) (hm : mid.length = n)
    (hs : off + n ≤ y.children.length) :
    forUp (fun j z => do z.setChild j (← y.getChild (j + (off : Int)))) n 0 (mk l ks mid)
      = .ok (mk l ks ((y.children.drop off).take n)) := by
  rw [forUp_onChildren (fun j d => do vecSet d j (← vecGet y.children (j + (off : Int))))]
  · have := forUp_copy y.children off n [] mid [] hm (by simpa using hs)
    simp only [List.nil_append, List.append_nil, List.length_nil, Nat.zero_add] at this
    simp only [Nat.cast_zero] at this
    rw [this]; rfl
  · intro j cs
    cases y with | mk yl yks ycs => ?_
    simp only [getChild, setChild, keys, leaf, children]
    cases vecGet ycs (j + ↑off) with
    | error e => rfl
    | ok v =>
      simp only [ok_bind]
      cases vecSet cs j v <;> rfl

/-- Child shift loop of `splitChild`. -/
theorem splitChild_shiftChildren (l : Bool) (ks : List Int) (n : Nat)
    (pre mid suf : List (Option BTreeNode)) (x : Option BTreeNode) (hm : mid.length = n) :
    forDown (fun j x => do x.setChild (j + 1) (← x.getChild j)) n
        ((pre.length : Int) + (n : Int) - 1) (mk l ks (pre ++ mid ++ x :: suf))
      = .ok (mk l ks (pre ++ (mid.head?.getD x) :: mid ++ suf)) := by
  have h := forDown_shift n pre mid suf x hm
  rw [forDown_onChildren (fun j d => do vecSet d (j + 1) (← vecGet d j))]
  · rw [h]; rfl
  · intro j cs
    simp only [getChild, setChild, keys, leaf, children]
    cases vecGet cs j with
    | error e => rfl
    | ok v =>
      simp only [ok_bind]
      cases vecSet cs (j + 1) v <;> rfl

/-- Key shift loop of `splitChild`. -/
theorem splitChild_shiftKeys (l : Bool) (cs : List (Option BTreeNode)) (n : Nat)
    (pre mid suf : List Int) (x : Int) (hm : mid.length = n) :
    forDown (fun j x => do x.setKey (j + 1) (← x.key j)) n
        ((pre.length : Int) + (n : Int) - 1) (mk l (pre ++ mid ++ x :: suf) cs)
      = .ok (mk l (pre ++ (mid.head?.getD x) :: mid ++ suf) cs) := by
  have h := forDown_shift n pre mid suf x hm
  rw [forDown_onKeys (fun j d => do vecSet d (j + 1) (← vecGet d j))]
  · rw [h]; rfl
  · intro j ks
    simp only [BTreeNode.key, setKey, keys, leaf, children]
    cases vecGet ks j with
    | error e => rfl
    | ok v =>
      simp only [ok_bind]
      cases vecSet ks (j + 1) v <;> rfl

/-! ## The same facts with the index and the vector given by equations -/

theorem getChild_at (n : BTreeNode) (pre suf : List (Option BTreeNode)) (c : Option BTreeNode)
    (i : Int) (hn : n.children = pre ++ c :: suf) (hi : i = (pre.length : Int)) :
    n.getChild i = .ok c := by
  cases n with | mk l ks cs => ?_
  simp only [children] at hn
  subst hn hi
  exact getChild_mid l ks pre suf c

theorem setChild_at (n : BTreeNode) (pre suf : List (Option BTreeNode)) (c c1 : Option BTreeNode)
    (i : Int) (hn : n.children = pre ++ c :: suf) (hi : i = (pre.length : Int)) :
    n.setChild i c1 = .ok (mk n.leaf n.keys (pre ++ c1 :: suf)) := by
  cases n with | mk l ks cs => ?_
  simp only [children] at hn
  subst hn hi
  exact setChild_mid l ks pre suf c c1

theorem key_at (n : BTreeNode) (pre suf : List Int) (k : Int)
    (i : Int) (hn : n.keys = pre ++ k :: suf) (hi : i = (pre.length : Int)) :
    n.key i = .ok k := by
  cases n with | mk l ks cs => ?_
  simp only [keys] at hn
  subst hn hi
  exact key_mid l pre suf k cs

theorem setKey_at (n : BTreeNode) (pre suf : List Int) (k k1 : Int)
    (i : Int) (hn : n.keys = pre ++ k :: suf) (hi : i = (pre.length : Int)) :
    n.setKey i k1 = .ok (mk n.leaf (pre ++ k1 :: suf) n.children) := by
  cases n with | mk l ks cs => ?_
  simp only [keys] at hn
  subst hn hi
  exact setKey_mid l pre suf k k1 cs

theorem resize_at (n : BTreeNode) (k : Nat) (sz : Int) (h : sz = (k : Int)) :
    n.resizeKeysAndChildren sz
      = .ok (mk n.leaf (n.keys.take k ++ List.replicate (k - n.keys.length) 0)
          (n.children.take (k + 1) ++ List.replicate (k + 1 - n.children.length) none)) := by
  cases n with | mk l ks cs => ?_
  subst h
  exact resize_nat l ks cs k

theorem shiftChildren_at (x : BTreeNode) (n : Nat) (hi : Int)
    (pre mid suf : List (Option BTreeNode)) (c : Option BTreeNode)
    (hx : x.children = pre ++ mid ++ c :: suf) (hm : n = mid.length)
    (hhi : hi = (pre.length : Int) + (mid.length : Int) - 1) :
    forDown (fun j x => do x.setChild (j + 1) (← x.getChild j)) n hi x
      = .ok (mk x.leaf x.keys (pre ++ (mid.head?.getD c) :: mid ++ suf)) := by
  cases x with | mk l ks cs => ?_
  simp only [children] at hx
  subst hx hhi hm
  exact splitChild_shiftChildren l ks mid.length pre mid suf c rfl

theorem shiftKeys_at (x : BTreeNode) (n : Nat) (hi : Int)
    (pre mid suf : List Int) (c : Int)
    (hx : x.keys = pre ++ mid ++ c :: suf) (hm : n = mid.length)
    (hhi : hi = (pre.length : Int) + (mid.length : Int) - 1) :
    forDown (fun j x => do x.setKey (j + 1) (← x.key j)) n hi x
      = .ok (mk x.leaf (pre ++ (mid.head?.getD c) :: mid ++ suf) x.children) := by
  cases x with | mk l ks cs => ?_
  simp only [keys] at hx
  subst hx hhi hm
  exact splitChild_shiftKeys l cs mid.length pre mid suf c rfl

theorem copyKeys_at (y z : BTreeNode) (off n : Nat) (t : Int) (cnt : Nat)
    (ht : t = (off : Int)) (hc : cnt = n) (hm : z.keys.length = n)
    (hs : off + n ≤ y.keys.length) :
    forUp (fun j z => do z.setKey j (← y.key (j + t))) cnt 0 z
      = .ok (mk z.leaf ((y.keys.drop off).take n) z.children) := by
  cases z with | mk l ks cs => ?_
  rw [ht, hc]
  exact splitChild_copyKeys y l cs off n ks hm hs

theorem copyChildren_at (y z : BTreeNode) (off n : Nat) (t : Int) (cnt : Nat)
    (ht : t = (off : Int)) (hc : cnt = n) (hm : z.children.length = n)
    (hs : off + n ≤ y.children.length) :
    forUp (fun j z => do z.setChild j (← y.getChild (j + t))) cnt 0 z
      = .ok (mk z.leaf z.keys ((y.children.drop off).take n)) := by
  cases z with | mk l ks cs => ?_
  rw [ht, hc]
  exact splitChild_copyChildren y l ks off n cs hm hs

theorem size_mk (l : Bool) (ks : List Int) (cs : List (Option BTreeNode)) :
    (mk l ks cs).size = (ks.length : Int) := rfl

theorem splitChild_rest (t : Int) (l : Bool) (ka kb : List Int)
    (pre suf : List (Option BTreeNode)) (y : BTreeNode) (ya yb : List Int) (m : Int)
    (z : BTreeNode)
    (hka : ka.length = pre.length) (hkb : kb.length = suf.length)
    (hy : y.keys = ya ++ m :: yb)
    (ht : t = (ya.length : Int) + 1) :
    (do
      let keyGoingUp ← y.key (t - 1)
      let y1 ← y.resizeKeysAndChildren (t - 1)
      let x ← (mk l (ka ++ kb) (pre ++ some y :: suf)).setChild
        (pre.length : Int) (some y1)
      let x ← x.resizeKeysAndChildren (x.size + 1)
      let x ← forDown (fun j (x : BTreeNode) => do x.setChild (j + 1) (← x.getChild j))
        (x.size - 1 - ((pre.length : Int) + 1) + 1).toNat (x.size - 1) x
      let x ← x.setChild ((pre.length : Int) + 1) (some z)
      let x ← forDown (fun j (x : BTreeNode) => do x.setKey (j + 1) (← x.key j))
        (x.size - 2 - (pre.length : Int) + 1).toNat (x.size - 2) x
      x.setKey (pre.length : Int) keyGoingUp)
      = .ok (mk l (ka ++ m :: kb)
          (pre ++ some (mk y.leaf ya
              (y.children.take (ya.length + 1)
                ++ List.replicate (ya.length + 1 - y.children.length) none))
            :: some z :: suf)) := by
  obtain ⟨y1, hy1⟩ : ∃ y1, y1 = mk y.leaf ya
      (y.children.take (ya.length + 1)
        ++ List.replicate (ya.length + 1 - y.children.length) none) := ⟨_, rfl⟩
  have s1 : y.key (t - 1) = .ok m := key_at y ya yb m _ hy (by omega)
  have s2 : y.resizeKeysAndChildren (t - 1) = .ok y1 := by
    rw [resize_at y ya.length _ (by omega), hy1, hy]
    simp
  have s3 : (mk l (ka ++ kb) (pre ++ some y :: suf)).setChild (pre.length : Int) (some y1)
      = .ok (mk l (ka ++ kb) (pre ++ some y1 :: suf)) := setChild_mid _ _ _ _ _ _
  have s4 : (mk l (ka ++ kb) (pre ++ some y1 :: suf)).resizeKeysAndChildren
      ((mk l (ka ++ kb) (pre ++ some y1 :: suf)).size + 1)
      = .ok (mk l (ka ++ kb ++ [0]) ((pre ++ [some y1]) ++ suf ++ none :: [])) := by
    rw [resize_at _ ((ka ++ kb).length + 1) _ (by simp [size_mk])]
    simp only [leaf, keys, children]
    have : (pre ++ some y1 :: suf).length = (ka ++ kb).length + 1 := by
      simp [hka, hkb]; omega
    rw [List.take_of_length_le (by omega), List.take_of_length_le (by omega), this]
    simp
  have s5 : forDown (fun j (x : BTreeNode) => do x.setChild (j + 1) (← x.getChild j))
      ((mk l (ka ++ kb ++ [0]) ((pre ++ [some y1]) ++ suf ++ none :: [])).size - 1
        - ((pre.length : Int) + 1) + 1).toNat
      ((mk l (ka ++ kb ++ [0]) ((pre ++ [some y1]) ++ suf ++ none :: [])).size - 1)
      (mk l (ka ++ kb ++ [0]) ((pre ++ [some y1]) ++ suf ++ none :: []))
      = .ok (mk l (ka ++ kb ++ [0]) ((pre ++ [some y1]) ++ (suf.head?.getD none) :: suf)) := by
    refine (shiftChildren_at _ _ _ (pre ++ [some y1]) suf [] none ?_ ?_ ?_).trans ?_
    · rfl
    · simp [size_mk, hka, hkb]; omega
    · simp [size_mk, hka, hkb]; omega
    · simp [leaf, keys]
  have s6 : (mk l (ka ++ kb ++ [0]) ((pre ++ [some y1]) ++ (suf.head?.getD none) :: suf)).setChild
      ((pre.length : Int) + 1) (some z)
      = .ok (mk l (ka ++ kb ++ [0]) ((pre ++ [some y1]) ++ some z :: suf)) :=
    setChild_at _ (pre ++ [some y1]) suf _ _ _ rfl (by simp)
  have s7 : forDown (fun j (x : BTreeNode) => do x.setKey (j + 1) (← x.key j))
      ((mk l (ka ++ kb ++ [0]) ((pre ++ [some y1]) ++ some z :: suf)).size - 2
        - (pre.length : Int) + 1).toNat
      ((mk l (ka ++ kb ++ [0]) ((pre ++ [some y1]) ++ some z :: suf)).size - 2)
      (mk l (ka ++ kb ++ [0]) ((pre ++ [some y1]) ++ some z :: suf))
      = .ok (mk l (ka ++ (kb.head?.getD 0) :: kb) ((pre ++ [some y1]) ++ some z :: suf)) := by
    refine (shiftKeys_at _ _ _ ka kb [] 0 ?_ ?_ ?_).trans ?_
    · rfl
    · simp [size_mk, hka, hkb]; omega
    · simp [size_mk, hka, hkb]; omega
    · simp [leaf, children]
  have s8 : (mk l (ka ++ (kb.head?.getD 0) :: kb) ((pre ++ [some y1]) ++ some z :: suf)).setKey
      (pre.length : Int) m
      = .ok (mk l (ka ++ m :: kb) ((pre ++ [some y1]) ++ some z :: suf)) :=
    setKey_at _ ka kb _ _ _ rfl (by simp [hka])
  simp only [s1, s2, s3, s4, s5, s6, s7, s8, ok_bind]
  simp [hy1]

theorem splitChild_ok (tm : Nat) (l : Bool) (ka kb : List Int)
    (pre suf : List (Option BTreeNode)) (yl : Bool) (ya yb : List Int) (m : Int)
    (ycs : List (Option BTreeNode))
    (hka : ka.length = pre.length) (hkb : kb.length = suf.length)
    (hya : ya.length = tm) (hyb : yb.length = tm)
    (hyc : yl = false → ycs.length = 2 * (tm + 1)) :
    splitChild ((tm : Int) + 1) (mk l (ka ++ kb) (pre ++ some (mk yl (ya ++ m :: yb) ycs) :: suf))
        (pre.length : Int)
      = .ok (mk l (ka ++ m :: kb)
          (pre ++ some (mk yl ya (ycs.take (tm + 1) ++ List.replicate (tm + 1 - ycs.length) none))
            :: some (mk yl yb (if yl then List.replicate (tm + 1) none else ycs.drop (tm + 1)))
            :: suf)) := by
  unfold splitChild
  simp only [getChild_mid, ok_bind, deref, allocateNode, BTreeNode.new, setLeaf, leaf, keys,
    children]
  rw [resize_at _ tm _ (by omega)]
  simp only [ok_bind, leaf, keys, children, List.take_nil, List.nil_append, List.length_nil,
    Nat.sub_zero]
  rw [copyKeys_at _ _ (tm + 1) tm _ _ (by push_cast; rfl) (by omega) (by simp [keys])
    (by simp [keys, hya, hyb]; omega)]
  simp only [ok_bind, leaf, keys, children]
  have hz : List.take tm (List.drop (tm + 1) (ya ++ m :: yb)) = yb := by
    have e : ya ++ m :: yb = (ya ++ [m]) ++ yb := by simp
    rw [e, List.drop_left' (by simp [hya]), List.take_of_length_le (by omega)]
  rw [hz]
  have hr := fun z => splitChild_rest ((tm : Int) + 1) l ka kb pre suf (mk yl (ya ++ m :: yb) ycs)
    ya yb m z hka hkb rfl (by omega)
  simp only [leaf, children, hya] at hr
  cases yl with
  | true =>
    simp only [Bool.not_true, Bool.false_eq_true, if_false, if_true, pure_eq_ok, ok_bind]
    exact hr _
  | false =>
    simp only [Bool.not_false, if_true, Bool.false_eq_true, if_false]
    rw [copyChildren_at _ _ (tm + 1) (tm + 1) _ _ (by push_cast; rfl) (by omega)
      (by simp [children]) (by simp [children, hyc rfl]; omega)]
    simp only [ok_bind, leaf, keys, children]
    have hz2 : List.take (tm + 1) (List.drop (tm + 1) ycs) = List.drop (tm + 1) ycs := by
      apply List.take_of_length_le
      simp [hyc rfl]; omega
    rw [hz2]
    exact hr _

/-! ## In-order merge -/

theorem interleave_append : ∀ (C : List (List Int)) (K : List Int) (D : List (List Int))
    (L : List Int), C.length = K.length →
    interleave (C ++ D) (K ++ L) = interleave C K ++ interleave D L := by
  intro C
  induction C with
  | nil =>
    intro K D L h
    have : K = [] := List.length_eq_zero.mp h.symm
    subst this
    simp [interleave]
  | cons c C ih =>
    intro K D L h
    cases K with
    | nil => simp at h
    | cons k K =>
      have e := ih K D L (by simpa using h)
      show c ++ k :: interleave (C ++ D) (K ++ L) = (c ++ k :: interleave C K) ++ interleave D L
      rw [e]
      simp

theorem interleave_cons (c : List Int) (C : List (List Int)) (K : List Int) :
    interleave (c :: C) K = c ++ interleave ([] :: C) K := by
  cases K <;> simp [interleave]

/-- A node's traversal around the child at position `C.length`. -/
theorem interleave_split (C : List (List Int)) (K : List Int) (c : List Int)
    (D : List (List Int)) (L : List Int) (h : C.length = K.length) :
    interleave (C ++ c :: D) (K ++ L) = interleave C K ++ c ++ interleave ([] :: D) L := by
  rw [interleave_append C K (c :: D) L h, interleave_cons, List.append_assoc]

theorem interleave_le_key : ∀ (C : List (List Int)) (K : List Int), C.length = K.length →
    List.Pairwise (· ≤ ·) (interleave C K) → ∀ x ∈ interleave C K, ∃ k ∈ K, x ≤ k := by
  intro C
  induction C with
  | nil =>
    intro K h _ x hx
    have : K = [] := List.length_eq_zero.mp h.symm
    subst this
    simp [interleave] at hx
  | cons c C ih =>
    intro K h hp x hx
    cases K with
    | nil => simp at h
    | cons k K =>
      simp only [interleave] at hp hx
      rw [List.pairwise_append] at hp
      obtain ⟨_, hp2, hp3⟩ := hp
      rw [List.mem_append, List.mem_cons] at hx
      rcases hx with hx | hx | hx
      · exact ⟨k, by simp, hp3 x hx k (by simp)⟩
      · exact ⟨k, by simp, by omega⟩
      · obtain ⟨k1, hk1, hle⟩ := ih K (by simpa using h) (List.Pairwise.of_cons hp2) x hx
        exact ⟨k1, by simp [hk1], hle⟩

theorem interleave_key_le : ∀ (C : List (List Int)) (K : List Int), C.length = K.length →
    List.Pairwise (· ≤ ·) (interleave ([] :: C) K) →
    ∀ x ∈ interleave ([] :: C) K, ∃ k ∈ K, k ≤ x := by
  intro C
  induction C with
  | nil =>
    intro K h _ x hx
    have : K = [] := List.length_eq_zero.mp h.symm
    subst this
    simp [interleave] at hx
  | cons c C ih =>
    intro K h hp x hx
    cases K with
    | nil => simp at h
    | cons k K =>
      simp only [interleave, List.nil_append] at hp hx
      rw [interleave_cons] at hp hx
      rw [List.pairwise_cons] at hp
      obtain ⟨hp1, hp2⟩ := hp
      rw [List.mem_cons] at hx
      rcases hx with hx | hx
      · exact ⟨k, by simp, by omega⟩
      · have hkx := hp1 x hx
        rw [List.mem_append] at hx
        rcases hx with hx | hx
        · exact ⟨k, by simp, hkx⟩
        · rw [List.pairwise_append] at hp2
          obtain ⟨k1, hk1, hle⟩ := ih K (by simpa using h) hp2.2.1 x hx
          exact ⟨k1, by simp [hk1], hle⟩

/-! ## Sorted lists with one element more -/

theorem sorted_replace_mid (P B B1 Q : List Int) (key : Int)
    (hs : List.Pairwise (· ≤ ·) (P ++ B ++ Q)) (hb : List.Pairwise (· ≤ ·) B1)
    (hmem : ∀ x ∈ B1, x = key ∨ x ∈ B)
    (hP : ∀ x ∈ P, x ≤ key) (hQ : ∀ x ∈ Q, key ≤ x) :
    List.Pairwise (· ≤ ·) (P ++ B1 ++ Q) := by
  simp only [List.pairwise_append, List.mem_append] at hs ⊢
  obtain ⟨⟨hPs, hBs, hPB⟩, hQs, hPBQ⟩ := hs
  refine ⟨⟨hPs, hb, ?_⟩, hQs, ?_⟩
  · intro a ha b hb1
    rcases hmem b hb1 with h | h
    · rw [h]; exact hP a ha
    · exact hPB a ha b h
  · intro a ha b hbq
    rcases ha with ha | ha
    · have := hP a ha
      have := hQ b hbq
      omega
    · rcases hmem a ha with h | h
      · rw [h]; exact hQ b hbq
      · exact hPBQ a (Or.inr h) b hbq

theorem perm_replace_mid (P B B1 Q : List Int) (key : Int) (h : B1.Perm (key :: B)) :
    (P ++ B1 ++ Q).Perm (key :: (P ++ B ++ Q)) := by
  have h1 : (P ++ B1 ++ Q).Perm (P ++ (key :: B) ++ Q) :=
    (List.Perm.append_left P h).append_right Q
  refine h1.trans ?_
  simp only [List.append_assoc, List.cons_append]
  exact List.perm_middle

/-! ## The right-to-left scans of `insertNonfull` -/

theorem keysBefore_append_keysAfter (key : Int) (ks : List Int) :
    keysBefore key ks ++ keysAfter key ks = ks := by
  unfold keysBefore keysAfter
  induction ks using List.reverseRecOn with
  | nil => simp
  | append_singleton ks a ih =>
    by_cases h : key < a
    · rw [List.rdropWhile_concat_pos _ _ _ (by simpa using h),
        List.rtakeWhile_concat_pos _ _ _ (by simpa using h), ← List.append_assoc, ih]
    · rw [List.rdropWhile_concat_neg _ _ _ (by simpa using h),
        List.rtakeWhile_concat_neg _ _ _ (by simpa using h)]
      simp

theorem keysAfter_gt (key : Int) (ks : List Int) : ∀ k ∈ keysAfter key ks, key < k := by
  intro k hk
  have := List.mem_rtakeWhile_imp hk
  simpa using this

theorem keysBefore_le (key : Int) (ks : List Int) (hs : List.Pairwise (· ≤ ·) ks) :
    ∀ k ∈ keysBefore key ks, k ≤ key := by
  unfold keysBefore
  induction ks using List.reverseRecOn with
  | nil => simp
  | append_singleton ks a ih =>
    rw [List.pairwise_append] at hs
    by_cases h : key < a
    · rw [List.rdropWhile_concat_pos _ _ _ (by simpa using h)]
      exact ih hs.1
    · rw [List.rdropWhile_concat_neg _ _ _ (by simpa using h)]
      intro k hk
      rw [List.mem_append, List.mem_singleton] at hk
      rcases hk with hk | hk
      · have := hs.2.2 k hk a (by simp)
        omega
      · omega

theorem keysBefore_length_le (key : Int) (ks : List Int) :
    (keysBefore key ks).length ≤ ks.length := by
  conv_rhs => rw [← keysBefore_append_keysAfter key ks]
  simp

theorem scanDown_spec (key : Int) (l : Bool) (cs : List (Option BTreeNode)) :
    ∀ (ks suf : List Int),
      scanDown key (mk l (ks ++ suf) cs) ks.length
        = .ok (((keysBefore key ks).length : Int) - 1) := by
  intro ks
  induction ks using List.reverseRecOn with
  | nil => intro suf; simp [scanDown, keysBefore]
  | append_singleton ks a ih =>
    intro suf
    have hl : (ks ++ [a]).length = ks.length + 1 := by simp
    rw [hl]
    simp only [scanDown]
    rw [key_at _ ks suf a _ (by simp [keys]) rfl]
    simp only [ok_bind]
    by_cases h : key < a
    · simp only [h, if_true]
      have := ih (a :: suf)
      simp only [List.append_assoc, List.singleton_append] at this ⊢
      rw [this]
      unfold keysBefore
      rw [List.rdropWhile_concat_pos _ _ _ (by simpa using h)]
    · simp only [h, if_false, pure_eq_ok]
      unfold keysBefore
      rw [List.rdropWhile_concat_neg _ _ _ (by simpa using h)]
      simp

theorem shiftKeys_spec (key : Int) (l : Bool) (cs : List (Option BTreeNode)) :
    ∀ (ks suf : List Int) (x : Int),
      ∃ y0, shiftKeys key ks.length (mk l (ks ++ x :: suf) cs)
        = .ok (mk l (keysBefore key ks ++ y0 :: keysAfter key ks ++ suf) cs,
            ((keysBefore key ks).length : Int) - 1) := by
  intro ks
  induction ks using List.reverseRecOn with
  | nil => intro suf x; exact ⟨x, by simp [shiftKeys, keysBefore, keysAfter]⟩
  | append_singleton ks a ih =>
    intro suf x
    have hl : (ks ++ [a]).length = ks.length + 1 := by simp
    rw [hl]
    simp only [shiftKeys]
    rw [key_at _ ks (x :: suf) a _ (by simp [keys]) rfl]
    simp only [ok_bind]
    by_cases h : key < a
    · simp only [h, if_true]
      rw [setKey_at _ (ks ++ [a]) suf x a _ (by simp [keys]) (by simp)]
      simp only [ok_bind, leaf, children]
      obtain ⟨y0, hy0⟩ := ih (a :: suf) a
      refine ⟨y0, ?_⟩
      simp only [List.append_assoc, List.singleton_append] at hy0 ⊢
      rw [hy0]
      unfold keysBefore keysAfter
      rw [List.rdropWhile_concat_pos _ _ _ (by simpa using h),
        List.rtakeWhile_concat_pos _ _ _ (by simpa using h)]
      simp
    · refine ⟨x, ?_⟩
      simp only [h, if_false, pure_eq_ok]
      unfold keysBefore keysAfter
      rw [List.rdropWhile_concat_neg _ _ _ (by simpa using h),
        List.rtakeWhile_concat_neg _ _ _ (by simpa using h)]
      simp

theorem getChild_mid1 (l : Bool) (ks : List Int) (pre suf : List (Option BTreeNode))
    (c0 c : Option BTreeNode) :
    (mk l ks (pre ++ c0 :: c :: suf)).getChild ((pre.length : Int) + 1) = .ok c :=
  getChild_at _ (pre ++ [c0]) suf c _ (by simp [children]) (by simp)

theorem setChild_mid1 (l : Bool) (ks : List Int) (pre suf : List (Option BTreeNode))
    (c0 c c1 : Option BTreeNode) :
    (mk l ks (pre ++ c0 :: c :: suf)).setChild ((pre.length : Int) + 1) c1
      = .ok (mk l ks (pre ++ c0 :: c1 :: suf)) := by
  rw [setChild_at _ (pre ++ [c0]) suf c c1 _ (by simp [children]) (by simp)]
  simp [leaf, keys]

/-! ## One unfolding of `insertNonfull` -/

theorem insertNonfull_leaf (t key : Int) (fuel : Nat) (ks : List Int)
    (cs : List (Option BTreeNode)) :
    insertNonfull t key (fuel + 1) (mk true ks cs)
      = .ok (mk true (keysBefore key ks ++ key :: keysAfter key ks)
          (cs.take (ks.length + 1 + 1) ++ List.replicate (ks.length + 1 + 1 - cs.length) none)) := by
  simp only [insertNonfull, leaf, if_true]
  rw [resize_at _ (ks.length + 1) _ (by simp [size_mk])]
  simp only [ok_bind, leaf, keys, children]
  have e1 : List.take (ks.length + 1) ks ++ List.replicate (ks.length + 1 - ks.length) (0 : Int)
      = ks ++ 0 :: [] := by
    rw [List.take_of_length_le (by omega)]
    simp
  have e2 : ((mk true ks cs).size - 1 + 1).toNat = ks.length := by
    simp [size_mk]
  rw [e1, e2]
  obtain ⟨y0, hy0⟩ := shiftKeys_spec key true
    (cs.take (ks.length + 1 + 1) ++ List.replicate (ks.length + 1 + 1 - cs.length) none) ks [] 0
  rw [hy0]
  simp only [ok_bind]
  rw [setKey_at _ (keysBefore key ks) (keysAfter key ks ++ []) y0 key _ (by simp [keys])
    (by omega)]
  simp [leaf, children]

theorem insertNonfull_descend (t key : Int) (fuel : Nat) (ka kb : List Int)
    (pre suf : List (Option BTreeNode)) (c : BTreeNode)
    (hka : keysBefore key (ka ++ kb) = ka) (hpre : pre.length = ka.length)
    (hc : c.size ≠ 2 * t - 1) :
    insertNonfull t key (fuel + 1) (mk false (ka ++ kb) (pre ++ some c :: suf))
      = (insertNonfull t key fuel c >>= fun c1 =>
          .ok (mk false (ka ++ kb) (pre ++ some c1 :: suf))) := by
  simp only [insertNonfull, leaf, Bool.false_eq_true, if_false]
  have e2 : ((mk false (ka ++ kb) (pre ++ some c :: suf)).size - 1 + 1).toNat
      = (ka ++ kb).length := by
    simp [size_mk]; omega
  rw [e2]
  have hs := scanDown_spec key false (pre ++ some c :: suf) (ka ++ kb) []
  rw [List.append_nil] at hs
  rw [hs, hka]
  have e3 : ((ka.length : Int) - 1 + 1) = (pre.length : Int) := by omega
  simp only [ok_bind, e3, getChild_mid, deref, hc, if_false, pure_eq_ok]
  cases insertNonfull t key fuel c with
  | error e => rfl
  | ok c1 => simp only [ok_bind, setChild_mid]

theorem insertNonfull_split (tm : Nat) (key : Int) (fuel : Nat) (ka kb : List Int)
    (pre suf : List (Option BTreeNode)) (yl : Bool) (ya yb : List Int) (m : Int)
    (ycs : List (Option BTreeNode))
    (hka : keysBefore key (ka ++ kb) = ka) (hpre : pre.length = ka.length)
    (hsuf : suf.length = kb.length)
    (hya : ya.length = tm) (hyb : yb.length = tm)
    (hyc : yl = false → ycs.length = 2 * (tm + 1)) :
    insertNonfull ((tm : Int) + 1) key (fuel + 1)
        (mk false (ka ++ kb) (pre ++ some (mk yl (ya ++ m :: yb) ycs) :: suf))
      = if key > m then
          (insertNonfull ((tm : Int) + 1) key fuel
              (mk yl yb (if yl then List.replicate (tm + 1) none else ycs.drop (tm + 1)))
            >>= fun z1 => .ok (mk false (ka ++ m :: kb)
              (pre ++ some (mk yl ya
                  (ycs.take (tm + 1) ++ List.replicate (tm + 1 - ycs.length) none))
                :: some z1 :: suf)))
        else
          (insertNonfull ((tm : Int) + 1) key fuel
              (mk yl ya (ycs.take (tm + 1) ++ List.replicate (tm + 1 - ycs.length) none))
            >>= fun y1 => .ok (mk false (ka ++ m :: kb)
              (pre ++ some y1
                :: some (mk yl yb (if yl then List.replicate (tm + 1) none
                    else ycs.drop (tm + 1))) :: suf))) := by
  simp only [insertNonfull, leaf, Bool.false_eq_true, if_false]
  have e2 : ((mk false (ka ++ kb)
      (pre ++ some (mk yl (ya ++ m :: yb) ycs) :: suf)).size - 1 + 1).toNat
      = (ka ++ kb).length := by
    simp [size_mk]; omega
  rw [e2]
  have hs := scanDown_spec key false (pre ++ some (mk yl (ya ++ m :: yb) ycs) :: suf)
    (ka ++ kb) []
  rw [List.append_nil] at hs
  rw [hs, hka]
  have e3 : ((ka.length : Int) - 1 + 1) = (pre.length : Int) := by omega
  have hfull : (mk yl (ya ++ m :: yb) ycs).size = 2 * ((tm : Int) + 1) - 1 := by
    simp [size_mk, hya, hyb]; omega
  simp only [ok_bind, e3, getChild_mid, deref, hfull, if_true]
  rw [splitChild_ok tm false ka kb pre suf yl ya yb m ycs hpre.symm hsuf.symm hya hyb hyc]
  have e4 : (pre.length : Int) = (ka.length : Int) := by omega
  simp only [ok_bind, e4, key_mid, pure_eq_ok]
  simp only [← e4]
  by_cases hgt : key > m
  · simp only [hgt, if_true, getChild_mid1, ok_bind, deref]
    cases insertNonfull ((tm : Int) + 1) key fuel
        (mk yl yb (if yl then List.replicate (tm + 1) none else ycs.drop (tm + 1))) with
    | error e => rfl
    | ok c1 => simp only [ok_bind, setChild_mid1]
  · simp only [hgt, if_false, getChild_mid, ok_bind, deref]
    cases insertNonfull ((tm : Int) + 1) key fuel
        (mk yl ya (ycs.take (tm + 1) ++ List.replicate (tm + 1 - ycs.length) none)) with
    | error e => rfl
    | ok c1 => simp only [ok_bind, setChild_mid]

/-! ## Traversal and shape of explicit nodes -/

theorem inorderList_eq_map (cs : List (Option BTreeNode)) :
    inorderList cs = cs.map inorderOpt := by
  induction cs with
  | nil => simp [inorderList]
  | cons c cs ih => simp [inorderList, ih]

theorem inorder_leaf (ks : List Int) (cs : List (Option BTreeNode)) :
    inorder (mk true ks cs) = ks := by
  simp [inorder]

theorem inorder_internal (ks : List Int) (cs : List (Option BTreeNode)) :
    inorder (mk false ks cs) = interleave (cs.map inorderOpt) ks := by
  simp [inorder, inorderList_eq_map]

theorem interleave_split_key : ∀ (K1 : List Int) (C1 C2 : List (List Int)) (m : Int)
    (K2 : List Int), C1.length = K1.length + 1 →
    interleave (C1 ++ C2) (K1 ++ m :: K2) = interleave C1 K1 ++ m :: interleave C2 K2 := by
  intro K1 C1 C2 m K2 h
  obtain ⟨C0, c, rfl⟩ : ∃ C0 c, C1 = C0 ++ [c] := by
    rcases List.eq_nil_or_concat C1 with h1 | ⟨l, a, h1⟩
    · simp [h1] at h
    · exact ⟨l, a, by simpa using h1⟩
  have hl : C0.length = K1.length := by simpa using h
  have e1 := interleave_split C0 K1 c C2 (m :: K2) hl
  have e2 := interleave_split C0 K1 c [] [] hl
  simp only [List.append_nil] at e2
  rw [List.append_assoc, List.singleton_append, e1, e2]
  simp [interleave]

theorem keys_sublist_interleave : ∀ (C : List (List Int)) (K : List Int),
    List.Sublist K (interleave C K) := by
  intro C
  induction C with
  | nil => intro K; simp [interleave]
  | cons c C ih =>
    intro K
    cases K with
    | nil => simp
    | cons k K =>
      simp only [interleave]
      exact List.Sublist.trans ((ih K).cons₂ k) (List.sublist_append_right c _)

theorem shaped_zero (t : Int) (n : BTreeNode) :
    Shaped t 0 n ↔ n.leaf = true ∧ ∀ p ∈ n.children, p = none := by
  simp [Shaped]

theorem shaped_succ (t : Int) (h : Nat) (n : BTreeNode) :
    Shaped t (h + 1) n ↔ n.leaf = false ∧ n.children.length = n.keys.length + 1 ∧
      ∀ p ∈ n.children, ∃ c, p = some c ∧ t - 1 ≤ c.size ∧ c.size ≤ 2 * t - 1 ∧ Shaped t h c := by
  simp [Shaped]

/-- The two halves a full node is split into keep its traversal. -/
theorem inorder_halves (tm : Nat) (yl : Bool) (ya yb : List Int) (m : Int)
    (ycs : List (Option BTreeNode)) (hya : ya.length = tm)
    (hyc : yl = false → ycs.length = 2 * (tm + 1)) :
    inorder (mk yl (ya ++ m :: yb) ycs)
      = inorder (mk yl ya (ycs.take (tm + 1) ++ List.replicate (tm + 1 - ycs.length) none))
        ++ m :: inorder (mk yl yb (if yl then List.replicate (tm + 1) none
            else ycs.drop (tm + 1))) := by
  cases yl with
  | true => simp [inorder_leaf]
  | false =>
    have hl := hyc rfl
    simp only [inorder_internal, Bool.false_eq_true, if_false]
    have e : tm + 1 - ycs.length = 0 := by omega
    rw [e, List.replicate_zero, List.append_nil]
    conv_lhs => rw [← List.take_append_drop (tm + 1) ycs]
    rw [List.map_append]
    apply interleave_split_key
    simp [hl, hya]

/-- The two halves a full node is split into have the shape of the node. -/
theorem shaped_halves (tm : Nat) (h : Nat) (yl : Bool) (ya yb : List Int) (m : Int)
    (ycs : List (Option BTreeNode)) (hya : ya.length = tm) (hyb : yb.length = tm)
    (hs : Shaped ((tm : Int) + 1) h (mk yl (ya ++ m :: yb) ycs)) :
    (yl = false → ycs.length = 2 * (tm + 1)) ∧
    Shaped ((tm : Int) + 1) h
      (mk yl ya (ycs.take (tm + 1) ++ List.replicate (tm + 1 - ycs.length) none)) ∧
    Shaped ((tm : Int) + 1) h
      (mk yl yb (if yl then List.replicate (tm + 1) none else ycs.drop (tm + 1))) := by
  cases h with
  | zero =>
    rw [shaped_zero] at hs
    simp only [leaf, children] at hs
    obtain ⟨hl, hnone⟩ := hs
    subst hl
    simp only [shaped_zero, leaf, children, if_true]
    refine ⟨by simp, ⟨trivial, ?_⟩, ⟨trivial, ?_⟩⟩
    · intro p hp
      rw [List.mem_append] at hp
      rcases hp with hp | hp
      · exact hnone p (List.mem_of_mem_take hp)
      · exact (List.mem_replicate.mp hp).2
    · intro p hp
      exact (List.mem_replicate.mp hp).2
  | succ h =>
    rw [shaped_succ] at hs
    simp only [leaf, children, keys] at hs
    obtain ⟨hl, hlen, hch⟩ := hs
    subst hl
    have hl2 : ycs.length = 2 * (tm + 1) := by
      simp [hya, hyb] at hlen; omega
    refine ⟨fun _ => hl2, ?_, ?_⟩
    · rw [shaped_succ]
      simp only [leaf, children, keys]
      have e : tm + 1 - ycs.length = 0 := by omega
      rw [e, List.replicate_zero, List.append_nil]
      refine ⟨trivial, by simp [hya, hl2], ?_⟩
      intro p hp
      exact hch p (List.mem_of_mem_take hp)
    · rw [shaped_succ]
      simp only [leaf, children, keys, Bool.false_eq_true, if_false]
      refine ⟨trivial, by simp [hyb, hl2]; omega, ?_⟩
      intro p hp
      exact hch p (List.mem_of_mem_drop hp)

theorem insert_assemble (P B B1 Q : List Int) (key : Int)
    (hs : List.Pairwise (· ≤ ·) (P ++ B ++ Q)) (hperm : B1.Perm (key :: B))
    (hb : List.Pairwise (· ≤ ·) B1)
    (hP : ∀ x ∈ P, x ≤ key) (hQ : ∀ x ∈ Q, key ≤ x) :
    (P ++ B1 ++ Q).Perm (key :: (P ++ B ++ Q)) ∧ List.Pairwise (· ≤ ·) (P ++ B1 ++ Q) := by
  refine ⟨perm_replace_mid P B B1 Q key hperm, sorted_replace_mid P B B1 Q key hs hb ?_ hP hQ⟩
  intro x hx
  have := hperm.subset hx
  simpa using this

theorem split_at_index {α : Type} (cs : List α) (p : Nat) (hp : p < cs.length) :
    ∃ pre c suf, cs = pre ++ c :: suf ∧ pre.length = p ∧ suf.length = cs.length - p - 1 := by
  refine ⟨cs.take p, cs[p], cs.drop (p + 1), ?_, ?_, ?_⟩
  · rw [← List.drop_eq_getElem_cons hp, List.take_append_drop]
  · simp; omega
  · simp; omega

theorem insertNonfull_spec (tm : Nat) (key : Int) :
    ∀ (h : Nat) (node : BTreeNode) (fuel : Nat),
      Shaped ((tm : Int) + 1) h node → node.size < 2 * ((tm : Int) + 1) - 1 →
      List.Pairwise (· ≤ ·) (inorder node) → h + 1 ≤ fuel →
      ∃ node1, insertNonfull ((tm : Int) + 1) key fuel node = .ok node1 ∧
        Shaped ((tm : Int) + 1) h node1 ∧ node1.size ≤ node.size + 1 ∧
        node.size ≤ node1.size ∧
        (inorder node1).Perm (key :: inorder node) ∧
        List.Pairwise (· ≤ ·) (inorder node1) := by
  intro h
  induction h with
  | zero =>
    intro node fuel hs hsz hsorted hf
    cases node with | mk l ks cs => ?_
    rw [shaped_zero] at hs
    simp only [leaf, children] at hs
    obtain ⟨hl, hnone⟩ := hs
    subst hl
    obtain ⟨f, rfl⟩ : ∃ f, fuel = f + 1 := ⟨fuel - 1, by omega⟩
    rw [inorder_leaf] at hsorted
    have hab := keysBefore_append_keysAfter key ks
    have hlen : (keysBefore key ks).length + (keysAfter key ks).length = ks.length := by
      rw [← List.length_append, hab]
    refine ⟨_, insertNonfull_leaf _ key f ks cs, ?_, ?_, ?_, ?_, ?_⟩
    · rw [shaped_zero]
      simp only [leaf, children]
      refine ⟨trivial, ?_⟩
      intro p hp
      rw [List.mem_append] at hp
      rcases hp with hp | hp
      · exact hnone p (List.mem_of_mem_take hp)
      · exact (List.mem_replicate.mp hp).2
    · simp [size_mk]; omega
    · simp [size_mk]; omega
    · rw [inorder_leaf, inorder_leaf]
      conv_rhs => rw [← hab]
      exact List.perm_middle
    · rw [inorder_leaf]
      have := sorted_replace_mid (keysBefore key ks) [] [key] (keysAfter key ks) key
        (by simpa [hab] using hsorted) (by simp) (by simp)
        (keysBefore_le key ks hsorted)
        (fun x hx => le_of_lt (keysAfter_gt key ks x hx))
      simpa using this
  | succ h ih =>
    intro node fuel hs hsz hsorted hf
    cases node with | mk l ks cs => ?_
    rw [shaped_succ] at hs
    simp only [leaf, keys, children] at hs
    obtain ⟨hl, hlen, hch⟩ := hs
    subst hl
    obtain ⟨f, rfl⟩ : ∃ f, fuel = f + 1 := ⟨fuel - 1, by omega⟩
    have hf1 : h + 1 ≤ f := by omega
    -- the keys around the insertion point
    obtain ⟨ka, kb, rfl, hka, hkb⟩ : ∃ ka kb, ks = ka ++ kb ∧ keysBefore key ks = ka ∧
        keysAfter key ks = kb :=
      ⟨_, _, (keysBefore_append_keysAfter key ks).symm, rfl, rfl⟩
    -- the children around the child to descend into
    obtain ⟨pre, c0, suf, rfl, hpre, hsuf⟩ := split_at_index cs ka.length
      (by rw [hlen]; simp; omega)
    have hsuf1 : suf.length = kb.length := by
      simp at hlen hsuf; omega
    obtain ⟨c, rfl, hcmin, hcmax, hcs⟩ := hch c0 (by simp)
    -- the traversal around that child
    have hio : inorder (mk false (ka ++ kb) (pre ++ some c :: suf))
        = interleave (pre.map inorderOpt) ka ++ inorder c
          ++ interleave ([] :: suf.map inorderOpt) kb := by
      rw [inorder_internal, List.map_append, List.map_cons]
      exact interleave_split _ _ _ _ _ (by simp [hpre])
    rw [hio] at hsorted
    have hkeys : List.Pairwise (· ≤ ·) (ka ++ kb) := by
      have h1 : List.Pairwise (· ≤ ·) (inorder (mk false (ka ++ kb) (pre ++ some c :: suf))) := by
        rw [hio]; exact hsorted
      rw [inorder_internal] at h1
      exact h1.sublist (keys_sublist_interleave _ _)
    have hkaLe : ∀ k ∈ ka, k ≤ key := by
      have := keysBefore_le key (ka ++ kb) hkeys
      rwa [hka] at this
    have hkbGt : ∀ k ∈ kb, key < k := by
      have := keysAfter_gt key (ka ++ kb)
      rwa [hkb] at this
    have hsP : List.Pairwise (· ≤ ·) (interleave (pre.map inorderOpt) ka) :=
      hsorted.sublist ((List.sublist_append_left _ _).trans (List.sublist_append_left _ _))
    have hsB : List.Pairwise (· ≤ ·) (inorder c) :=
      hsorted.sublist ((List.sublist_append_right _ _).trans (List.sublist_append_left _ _))
    have hsQ : List.Pairwise (· ≤ ·) (interleave ([] :: suf.map inorderOpt) kb) :=
      hsorted.sublist (List.sublist_append_right _ _)
    have hP : ∀ x ∈ interleave (pre.map inorderOpt) ka, x ≤ key := by
      intro x hx
      obtain ⟨k, hk, hle⟩ := interleave_le_key _ _ (by simp [hpre]) hsP x hx
      have := hkaLe k hk
      omega
    have hQ : ∀ x ∈ interleave ([] :: suf.map inorderOpt) kb, key ≤ x := by
      intro x hx
      obtain ⟨k, hk, hle⟩ := interleave_key_le _ _ (by simp [hsuf1]) hsQ x hx
      have := hkbGt k hk
      omega
    have hchPre : ∀ p ∈ pre, ∃ c, p = some c ∧ (tm : Int) + 1 - 1 ≤ c.size ∧
        c.size ≤ 2 * ((tm : Int) + 1) - 1 ∧ Shaped ((tm : Int) + 1) h c :=
      fun p hp => hch p (by simp [hp])
    have hchSuf : ∀ p ∈ suf, ∃ c, p = some c ∧ (tm : Int) + 1 - 1 ≤ c.size ∧
        c.size ≤ 2 * ((tm : Int) + 1) - 1 ∧ Shaped ((tm : Int) + 1) h c :=
      fun p hp => hch p (by simp [hp])
    by_cases hfull : c.size = 2 * ((tm : Int) + 1) - 1
    · -- the child is full: split it, then descend into one half
      cases c with | mk yl yks ycs => ?_
      simp only [size_mk] at hfull
      obtain ⟨ya, m, yb, rfl, hya, hyb⟩ := split_at_index yks tm (by omega)
      have hyb1 : yb.length = tm := by
        simp at hfull hyb; omega
      obtain ⟨hyc, hsy, hsz1⟩ := shaped_halves tm h yl ya yb m ycs hya hyb1 hcs
      have hhalf := inorder_halves tm yl ya yb m ycs hya hyc
      obtain ⟨y1, hy1⟩ : ∃ y1, y1 = mk yl ya
        (ycs.take (tm + 1) ++ List.replicate (tm + 1 - ycs.length) none) := ⟨_, rfl⟩
      obtain ⟨z, hz⟩ : ∃ z, z = mk yl yb
        (if yl then List.replicate (tm + 1) none else ycs.drop (tm + 1)) := ⟨_, rfl⟩
      rw [← hy1, ← hz] at hhalf
      rw [← hy1] at hsy
      rw [← hz] at hsz1
      have hy1size : y1.size = (tm : Int) := by rw [hy1]; simp [size_mk, hya]
      have hzsize : z.size = (tm : Int) := by rw [hz]; simp [size_mk, hyb1]
      rw [hhalf] at hsB hsorted
      have hsY : List.Pairwise (· ≤ ·) (inorder y1) :=
        hsB.sublist (List.sublist_append_left _ _)
      have hsZ : List.Pairwise (· ≤ ·) (inorder z) :=
        (hsB.sublist (List.sublist_append_right _ _)).of_cons
      have hYm : ∀ x ∈ inorder y1, x ≤ m := by
        intro x hx
        exact (List.pairwise_append.mp hsB).2.2 x hx m (by simp)
      have hmZ : ∀ x ∈ inorder z, m ≤ x := by
        intro x hx
        exact List.rel_of_pairwise_cons ((List.pairwise_append.mp hsB).2.1) hx
      have hstep := insertNonfull_split tm key f ka kb pre suf yl ya yb m ycs hka hpre hsuf1
        hya hyb1 hyc
      rw [← hy1, ← hz] at hstep
      by_cases hgt : key > m
      · simp only [hgt, if_true] at hstep
        obtain ⟨z1, hz1, hz1s, hz1le, hz1ge, hz1p, hz1sorted⟩ :=
          ih z f hsz1 (by omega) hsZ hf1
        refine ⟨mk false (ka ++ m :: kb) (pre ++ some y1 :: some z1 :: suf), ?_, ?_, ?_, ?_, ?_⟩
        · rw [hstep, hz1]; rfl
        · rw [shaped_succ]
          simp only [leaf, keys, children]
          refine ⟨trivial, by simp [hpre, hsuf1]; omega, ?_⟩
          intro p hp
          rw [List.mem_append, List.mem_cons, List.mem_cons] at hp
          rcases hp with hp | hp | hp | hp
          · exact hchPre p hp
          · exact ⟨y1, hp, by omega, by omega, hsy⟩
          · exact ⟨z1, hp, by omega, by omega, hz1s⟩
          · exact hchSuf p hp
        · simp [size_mk]; omega
        · simp [size_mk]
        · have hio1 : inorder (mk false (ka ++ m :: kb) (pre ++ some y1 :: some z1 :: suf))
              = (interleave (pre.map inorderOpt) ka ++ inorder y1 ++ [m]) ++ inorder z1
                ++ interleave ([] :: suf.map inorderOpt) kb := by
            rw [inorder_internal]
            have e1 : ka ++ m :: kb = (ka ++ [m]) ++ kb := by simp
            have e2 : List.map inorderOpt (pre ++ some y1 :: some z1 :: suf)
                = (pre.map inorderOpt ++ [inorder y1]) ++ inorder z1 :: suf.map inorderOpt := by
              simp [inorderOpt]
            rw [e1, e2, interleave_split _ _ _ _ _ (by simp [hpre]),
              interleave_append _ _ _ _ (by simp [hpre])]
            simp [interleave]
          have e3 : interleave (pre.map inorderOpt) ka ++ (inorder y1 ++ m :: inorder z)
                ++ interleave ([] :: suf.map inorderOpt) kb
              = (interleave (pre.map inorderOpt) ka ++ inorder y1 ++ [m]) ++ inorder z
                ++ interleave ([] :: suf.map inorderOpt) kb := by simp
          rw [hio1, hio, hhalf, e3]
          rw [e3] at hsorted
          refine insert_assemble _ _ _ _ key hsorted hz1p hz1sorted ?_ hQ
          intro x hx
          simp only [List.mem_append, List.mem_singleton] at hx
          rcases hx with (hx | hx) | hx
          · exact hP x hx
          · have := hYm x hx
            omega
          · omega
      · simp only [hgt, if_false] at hstep
        obtain ⟨y2, hy2, hy2s, hy2le, hy2ge, hy2p, hy2sorted⟩ :=
          ih y1 f hsy (by omega) hsY hf1
        refine ⟨mk false (ka ++ m :: kb) (pre ++ some y2 :: some z :: suf), ?_, ?_, ?_, ?_, ?_⟩
        · rw [hstep, hy2]; rfl
        · rw [shaped_succ]
          simp only [leaf, keys, children]
          refine ⟨trivial, by simp [hpre, hsuf1]; omega, ?_⟩
          intro p hp
          rw [List.mem_append, List.mem_cons, List.mem_cons] at hp
          rcases hp with hp | hp | hp | hp
          · exact hchPre p hp
          · exact ⟨y2, hp, by omega, by omega, hy2s⟩
          · exact ⟨z, hp, by omega, by omega, hsz1⟩
          · exact hchSuf p hp
        · simp [size_mk]; omega
        · simp [size_mk]
        · have hio1 : inorder (mk false (ka ++ m :: kb) (pre ++ some y2 :: some z :: suf))
              = interleave (pre.map inorderOpt) ka ++ inorder y2
                ++ (m :: inorder z ++ interleave ([] :: suf.map inorderOpt) kb) := by
            rw [inorder_internal]
            have e2 : List.map inorderOpt (pre ++ some y2 :: some z :: suf)
                = pre.map inorderOpt ++ inorder y2 :: (inorder z :: suf.map inorderOpt) := by
              simp [inorderOpt]
            rw [e2, interleave_split _ _ _ _ _ (by simp [hpre])]
            simp only [interleave, List.nil_append]
            rw [interleave_cons]
            simp
          have e3 : interleave (pre.map inorderOpt) ka ++ (inorder y1 ++ m :: inorder z)
                ++ interleave ([] :: suf.map inorderOpt) kb
              = interleave (pre.map inorderOpt) ka ++ inorder y1
                ++ (m :: inorder z ++ interleave ([] :: suf.map inorderOpt) kb) := by simp
          rw [hio1, hio, hhalf, e3]
          rw [e3] at hsorted
          refine insert_assemble _ _ _ _ key hsorted hy2p hy2sorted hP ?_
          intro x hx
          simp only [List.cons_append, List.mem_cons, List.mem_append] at hx
          rcases hx with hx | hx | hx
          · omega
          · have := hmZ x hx
            omega
          · exact hQ x hx
    · -- the child has room: descend
      obtain ⟨c1, hc1, hc1s, hc1le, hc1ge, hc1p, hc1sorted⟩ :=
        ih c f hcs (by omega) hsB hf1
      refine ⟨mk false (ka ++ kb) (pre ++ some c1 :: suf), ?_, ?_, ?_, ?_, ?_⟩
      · rw [insertNonfull_descend _ key f ka kb pre suf c hka hpre hfull, hc1]; rfl
      · rw [shaped_succ]
        simp only [leaf, keys, children]
        refine ⟨trivial, by simp [hpre, hsuf1]; omega, ?_⟩
        intro p hp
        rw [List.mem_append, List.mem_cons] at hp
        rcases hp with hp | hp | hp
        · exact hchPre p hp
        · exact ⟨c1, hp, by omega, by omega, hc1s⟩
        · exact hchSuf p hp
      · simp [size_mk]
      · simp [size_mk]
      · have hio1 : inorder (mk false (ka ++ kb) (pre ++ some c1 :: suf))
            = interleave (pre.map inorderOpt) ka ++ inorder c1
              ++ interleave ([] :: suf.map inorderOpt) kb := by
          rw [inorder_internal, List.map_append, List.map_cons]
          exact interleave_split _ _ _ _ _ (by simp [hpre])
        rw [hio1, hio]
        exact insert_assemble _ _ _ _ key hsorted hc1p hc1sorted hP hQ

/-! ## Height of a shaped subtree -/

theorem heightOpt_le_heightList (cs : List (Option BTreeNode)) (p : Option BTreeNode)
    (hp : p ∈ cs) : heightOpt p ≤ heightList cs := by
  induction cs with
  | nil => simp at hp
  | cons c cs ih =>
    simp only [heightList]
    rw [List.mem_cons] at hp
    rcases hp with hp | hp
    · subst hp; exact le_max_left _ _
    · exact le_trans (ih hp) (le_max_right _ _)

theorem height_mk (l : Bool) (ks : List Int) (cs : List (Option BTreeNode)) :
    (mk l ks cs).height = heightList cs + 1 := by
  simp [height]

theorem shaped_height (t : Int) : ∀ (h : Nat) (n : BTreeNode), Shaped t h n → h + 1 ≤ n.height := by
  intro h
  induction h with
  | zero =>
    intro n _
    cases n with | mk l ks cs => ?_
    rw [height_mk]; omega
  | succ h ih =>
    intro n hs
    cases n with | mk l ks cs => ?_
    rw [shaped_succ] at hs
    simp only [leaf, keys, children] at hs
    obtain ⟨_, hlen, hch⟩ := hs
    cases cs with
    | nil => simp at hlen
    | cons p cs =>
      obtain ⟨c, rfl, _, _, hc⟩ := hch p (by simp)
      have h1 := ih c hc
      have h2 := heightOpt_le_heightList (some c :: cs) (some c) (by simp)
      simp only [heightOpt] at h2
      rw [height_mk]
      omega

/-! ## The invariant of the whole tree -/

theorem insert_spec (tm : Nat) (htm : 1 ≤ tm) (T : BTree) (key : Int) (h : Nat)
    (ht : T.minDegree = (tm : Int) + 1) (hinv : TreeInv h T) :
    ∃ T1, BTree.insert T key = .ok T1 ∧ T1.minDegree = T.minDegree ∧
      (TreeInv h T1 ∨ TreeInv (h + 1) T1) ∧
      (inorder T1.root).Perm (key :: inorder T.root) := by
  obtain ⟨hs, hsz, hsorted⟩ := hinv
  cases T with | mk t root => ?_
  simp only at ht hs hsz hsorted
  subst ht
  by_cases hfull : root.size = 2 * ((tm : Int) + 1) - 1
  · cases root with | mk yl yks ycs => ?_
    simp only [size_mk] at hfull
    obtain ⟨ya, m, yb, rfl, hya, hyb⟩ := split_at_index yks tm (by omega)
    have hyb1 : yb.length = tm := by
      simp at hfull hyb; omega
    obtain ⟨hyc, hsy, hsz1⟩ := shaped_halves tm h yl ya yb m ycs hya hyb1 hs
    have hhalf := inorder_halves tm yl ya yb m ycs hya hyc
    have hsplit := splitChild_ok tm false [] [] [] [] yl ya yb m ycs rfl rfl hya hyb1 hyc
    simp only [List.append_nil, List.nil_append, List.length_nil, Nat.cast_zero] at hsplit
    obtain ⟨y1, hy1⟩ : ∃ y1, y1 = mk yl ya
      (ycs.take (tm + 1) ++ List.replicate (tm + 1 - ycs.length) none) := ⟨_, rfl⟩
    obtain ⟨z, hz⟩ : ∃ z, z = mk yl yb
      (if yl then List.replicate (tm + 1) none else ycs.drop (tm + 1)) := ⟨_, rfl⟩
    rw [← hy1, ← hz] at hhalf hsplit
    rw [← hy1] at hsy
    rw [← hz] at hsz1
    have hy1size : y1.size = (tm : Int) := by rw [hy1]; simp [size_mk, hya]
    have hzsize : z.size = (tm : Int) := by rw [hz]; simp [size_mk, hyb1]
    have hnew : Shaped ((tm : Int) + 1) (h + 1) (mk false [m] [some y1, some z]) := by
      rw [shaped_succ]
      simp only [leaf, keys, children]
      refine ⟨trivial, by simp, ?_⟩
      intro p hp
      simp only [List.mem_cons, List.mem_singleton, List.not_mem_nil, or_false] at hp
      rcases hp with hp | hp
      · exact ⟨y1, hp, by omega, by omega, hsy⟩
      · exact ⟨z, hp, by omega, by omega, hsz1⟩
    have hionew : inorder (mk false [m] [some y1, some z])
        = inorder (mk yl (ya ++ m :: yb) ycs) := by
      rw [hhalf, inorder_internal]
      simp [interleave, inorderOpt]
    obtain ⟨r, hr, hrs, hrle, hrge, hrp, hrsorted⟩ :=
      insertNonfull_spec tm key (h + 1) (mk false [m] [some y1, some z])
        (mk false [m] [some y1, some z]).height hnew (by simp [size_mk]; omega)
        (by rw [hionew]; exact hsorted) (shaped_height _ _ _ hnew)
    refine ⟨⟨(tm : Int) + 1, r⟩, ?_, rfl, Or.inr ⟨hrs, ?_, hrsorted⟩, ?_⟩
    · simp only [BTree.insert, size_mk, hfull, if_true, allocateNode, BTreeNode.new, setLeaf,
        appendChild, leaf, keys, children, List.nil_append]
      rw [hsplit]
      simp only [ok_bind, hr, pure_eq_ok]
    · simp only [size_mk] at hrle ⊢
      simp at hrle
      omega
    · simp only
      rw [← hionew]
      exact hrp
  · obtain ⟨r, hr, hrs, hrle, hrge, hrp, hrsorted⟩ :=
      insertNonfull_spec tm key h root root.height hs (by omega) hsorted
        (shaped_height _ _ _ hs)
    refine ⟨⟨(tm : Int) + 1, r⟩, ?_, rfl, Or.inl ⟨hrs, ?_, hrsorted⟩, hrp⟩
    · simp only [BTree.insert, hfull, if_false]
      rw [hr]
      rfl
    · simp only
      omega

/-! ## Trees built by inserts -/

theorem foldlM_insert_spec (tm : Nat) (htm : 1 ≤ tm) :
    ∀ (ks : List Int) (T0 : BTree) (h0 : Nat), T0.minDegree = (tm : Int) + 1 → TreeInv h0 T0 →
      ∃ T h, ks.foldlM BTree.insert T0 = .ok T ∧ T.minDegree = (tm : Int) + 1 ∧ TreeInv h T ∧
        (inorder T.root).Perm (ks ++ inorder T0.root) := by
  intro ks
  induction ks with
  | nil =>
    intro T0 h0 ht hinv
    exact ⟨T0, h0, rfl, ht, hinv, List.Perm.refl _⟩
  | cons k ks ih =>
    intro T0 h0 ht hinv
    obtain ⟨T1, hT1, hdeg, hinv1, hperm1⟩ := insert_spec tm htm T0 k h0 ht hinv
    have ht1 : T1.minDegree = (tm : Int) + 1 := by rw [hdeg, ht]
    have hstep : ∀ h1, TreeInv h1 T1 →
        ∃ T h, (k :: ks).foldlM BTree.insert T0 = .ok T ∧ T.minDegree = (tm : Int) + 1 ∧
          TreeInv h T ∧ (inorder T.root).Perm ((k :: ks) ++ inorder T0.root) := by
      intro h1 hinv2
      obtain ⟨T, h, hT, hd, hi, hp⟩ := ih T1 h1 ht1 hinv2
      refine ⟨T, h, ?_, hd, hi, ?_⟩
      · rw [List.foldlM_cons, hT1]
        exact hT
      · refine hp.trans ?_
        refine (List.Perm.append_left ks hperm1).trans ?_
        simp only [List.cons_append]
        exact List.perm_middle
    rcases hinv1 with hinv1 | hinv1
    · exact hstep _ hinv1
    · exact hstep _ hinv1

theorem build_spec (t : Int) (ht : 2 ≤ t) (ks : List Int) :
    ∃ T h, build t ks = .ok T ∧ T.minDegree = t ∧ TreeInv h T ∧ (inorder T.root).Perm ks := by
  obtain ⟨tm, rfl⟩ : ∃ tm : Nat, t = (tm : Int) + 1 := ⟨(t - 1).toNat, by omega⟩
  have htm : 1 ≤ tm := by omega
  have hinit : TreeInv 0 ⟨(tm : Int) + 1, mk true [] []⟩ := by
    refine ⟨?_, ?_, ?_⟩
    · rw [shaped_zero]; simp [leaf, children]
    · simp [size_mk]; omega
    · simp [inorder_leaf]
  obtain ⟨T, h, hT, hd, hi, hp⟩ := foldlM_insert_spec tm htm ks _ 0 rfl hinit
  refine ⟨T, h, ?_, hd, hi, ?_⟩
  · simp only [build, BTree.new, allocateNode, BTreeNode.new, setLeaf, keys, children, ok_bind]
    exact hT
  · simpa [inorder_leaf] using hp

/-! ## Nodes below a shaped node -/

theorem mem_nodesBelowList (x : BTreeNode) (cs : List (Option BTreeNode)) :
    x ∈ nodesBelowList cs ↔ ∃ c, some c ∈ cs ∧ (x = c ∨ x ∈ nodesBelow c) := by
  induction cs with
  | nil => simp [nodesBelowList]
  | cons p cs ih =>
    simp only [nodesBelowList, List.mem_append, ih, List.mem_cons]
    cases p with
    | none => simp [nodesBelowOpt]
    | some c0 =>
      simp only [nodesBelowOpt, List.mem_cons, Option.some.injEq]
      constructor
      · rintro (h | ⟨c, hc, h⟩)
        · exact ⟨c0, Or.inl rfl, h⟩
        · exact ⟨c, Or.inr hc, h⟩
      · rintro ⟨c, hc | hc, h⟩
        · subst hc; exact Or.inl h
        · exact Or.inr ⟨c, hc, h⟩

theorem nodesBelow_mk (l : Bool) (ks : List Int) (cs : List (Option BTreeNode)) :
    nodesBelow (mk l ks cs) = nodesBelowList cs := by
  simp [nodesBelow]

theorem shaped_nodeOk (t : Int) (h : Nat) (n : BTreeNode) (hs : Shaped t h n) : NodeOk n := by
  intro hl
  cases h with
  | zero =>
    rw [shaped_zero] at hs
    rw [hs.1] at hl
    exact absurd hl (by simp)
  | succ h =>
    rw [shaped_succ] at hs
    refine ⟨hs.2.1, ?_⟩
    intro p hp
    obtain ⟨c, hc, _⟩ := hs.2.2 p hp
    simp [hc]

theorem shaped_nodesBelow (t : Int) : ∀ (h : Nat) (n : BTreeNode), Shaped t h n →
    ∀ x ∈ nodesBelow n, t - 1 ≤ x.size ∧ x.size ≤ 2 * t - 1 ∧ NodeOk x := by
  intro h
  induction h with
  | zero =>
    intro n hs x hx
    cases n with | mk l ks cs => ?_
    rw [shaped_zero] at hs
    simp only [children] at hs
    rw [nodesBelow_mk, mem_nodesBelowList] at hx
    obtain ⟨c, hc, _⟩ := hx
    have := hs.2 _ hc
    simp at this
  | succ h ih =>
    intro n hs x hx
    cases n with | mk l ks cs => ?_
    rw [shaped_succ] at hs
    simp only [children] at hs
    rw [nodesBelow_mk, mem_nodesBelowList] at hx
    obtain ⟨c, hc, hx⟩ := hx
    obtain ⟨c1, hc1, hmin, hmax, hsc⟩ := hs.2.2 _ hc
    simp only [Option.some.injEq] at hc1
    subst hc1
    rcases hx with hx | hx
    · subst hx
      exact ⟨hmin, hmax, shaped_nodeOk t h x hsc⟩
    · exact ih c hsc x hx

theorem shaped_leavesAtDepth (t : Int) : ∀ (h : Nat) (n : BTreeNode), Shaped t h n →
    LeavesAtDepth h n := by
  intro h
  induction h with
  | zero =>
    intro n hs
    rw [shaped_zero] at hs
    simpa [LeavesAtDepth] using hs.1
  | succ h ih =>
    intro n hs
    rw [shaped_succ] at hs
    simp only [LeavesAtDepth]
    refine ⟨hs.1, ?_⟩
    intro p hp
    obtain ⟨c, hc, _, _, hsc⟩ := hs.2.2 p hp
    exact ⟨c, hc, ih c hsc⟩

/-! ## Claims about insertion -/

/-- Claim C1. For every minimum degree `t ≥ 2` and every sequence of pairwise distinct keys, after
each insert (that is, for every prefix of the sequence) into a tree that started empty, all
inserts return and the in-order traversal of the tree is exactly the sorted list of the keys
inserted so far, which is strictly increasing. -/
theorem insert_inorder_sorted (t : Int) (ht : 2 ≤ t) (ks : List Int) (hd : ks.Nodup) (n : Nat) :
    ∃ T, build t (ks.take n) = .ok T ∧
      inorder T.root = (ks.take n).insertionSort (· ≤ ·) ∧
      List.Sorted (· < ·) (inorder T.root) := by
  obtain ⟨T, h, hT, _, ⟨_, _, hsorted⟩, hperm⟩ := build_spec t ht (ks.take n)
  refine ⟨T, hT, ?_, ?_⟩
  · apply List.eq_of_perm_of_sorted (r := (· ≤ ·))
    · exact hperm.trans (List.perm_insertionSort _ _).symm
    · exact hsorted
    · exact List.sorted_insertionSort _ _
  · have hnd : (inorder T.root).Nodup :=
      hperm.nodup_iff.mpr (hd.sublist (List.take_sublist _ _))
    exact (List.Pairwise.and hsorted hnd).imp (fun ⟨h1, h2⟩ => lt_of_le_of_ne h1 h2)

theorem insert_inorder_sorted_witness :
    (2 : Int) ≤ 2 ∧ [10, 20, 5, 6].Nodup ∧
      ∃ T, build 2 ([10, 20, 5, 6].take 4) = .ok T ∧
        inorder T.root = ([10, 20, 5, 6].take 4).insertionSort (· ≤ ·) ∧
        List.Sorted (· < ·) (inorder T.root) :=
  ⟨by decide, by decide, insert_inorder_sorted 2 (by decide) [10, 20, 5, 6] (by decide) 4⟩

/-- Claim C6. For every `t ≥ 2` and every key sequence, after each completed insert into a tree that
started empty every non-root node holds between `t - 1` and `2t - 1` keys, the root holds at
most `2t - 1` keys, and every internal node with `k` keys has exactly `k + 1` children, none
of them null. -/
theorem insert_occupancy (t : Int) (ht : 2 ≤ t) (ks : List Int) (n : Nat) :
    ∃ T, build t (ks.take n) = .ok T ∧
      (∀ x ∈ nodesBelow T.root, t - 1 ≤ x.size ∧ x.size ≤ 2 * t - 1) ∧
      T.root.size ≤ 2 * t - 1 ∧
      (∀ x ∈ T.root :: nodesBelow T.root, x.leaf = false →
        x.children.length = x.keys.length + 1 ∧ ∀ p ∈ x.children, p ≠ none) := by
  obtain ⟨T, h, hT, hdeg, ⟨hs, hsz, _⟩, _⟩ := build_spec t ht (ks.take n)
  rw [hdeg] at hs hsz
  refine ⟨T, hT, ?_, hsz, ?_⟩
  · intro x hx
    obtain ⟨h1, h2, _⟩ := shaped_nodesBelow t h T.root hs x hx
    exact ⟨h1, h2⟩
  · intro x hx
    rw [List.mem_cons] at hx
    rcases hx with hx | hx
    · subst hx; exact shaped_nodeOk t h _ hs
    · exact (shaped_nodesBelow t h T.root hs x hx).2.2

theorem insert_occupancy_witness :
    (2 : Int) ≤ 2 ∧
      ∃ T, build 2 ([10, 20, 5, 6].take 4) = .ok T ∧
        (∀ x ∈ nodesBelow T.root, (2 : Int) - 1 ≤ x.size ∧ x.size ≤ 2 * 2 - 1) ∧
        T.root.size ≤ 2 * 2 - 1 ∧
        (∀ x ∈ T.root :: nodesBelow T.root, x.leaf = false →
          x.children.length = x.keys.length + 1 ∧ ∀ p ∈ x.children, p ≠ none) :=
  ⟨by decide, insert_occupancy 2 (by decide) [10, 20, 5, 6] 4⟩

/-- Claim C7. For every `t ≥ 2` and every key sequence, after each completed insert into a tree that
started empty all leaves are at the same depth. -/
theorem insert_balanced (t : Int) (ht : 2 ≤ t) (ks : List Int) (n : Nat) :
    ∃ T, build t (ks.take n) = .ok T ∧ ∃ h, LeavesAtDepth h T.root := by
  obtain ⟨T, h, hT, hdeg, ⟨hs, _, _⟩, _⟩ := build_spec t ht (ks.take n)
  exact ⟨T, hT, h, shaped_leavesAtDepth _ h _ hs⟩

theorem insert_balanced_witness :
    (2 : Int) ≤ 2 ∧ ∃ T, build 2 ([10, 20, 5, 6].take 4) = .ok T ∧ ∃ h, LeavesAtDepth h T.root :=
  ⟨by decide, insert_balanced 2 (by decide) [10, 20, 5, 6] 4⟩

/-! ## Search -/

theorem searchScan_at (key : Int) (n : BTreeNode) :
    ∀ (ka pre kb : List Int) (cnt : Nat) (idx : Int), n.keys = pre ++ (ka ++ kb) →
      cnt = (ka ++ kb).length → idx = (pre.length : Int) →
      (∀ k ∈ ka, k < key) → (∀ b ∈ kb.head?, key ≤ b) →
      searchScan key n cnt idx = .ok ((pre.length : Int) + (ka.length : Int)) := by
  intro ka
  induction ka with
  | nil =>
    intro pre kb cnt idx hn hcnt hidx _ hb
    subst hcnt hidx
    cases kb with
    | nil => simp [searchScan]
    | cons b kb =>
      have hb1 : key ≤ b := hb b (by simp)
      have hb2 : ¬ key > b := by omega
      simp only [List.nil_append, List.length_cons, searchScan]
      rw [key_at n pre kb b _ (by simpa using hn) rfl]
      simp [ok_bind, hb2, pure_eq_ok]
  | cons a ka ih =>
    intro pre kb cnt idx hn hcnt hidx ha hb
    subst hcnt hidx
    have ha1 : key > a := ha a (by simp)
    simp only [List.cons_append, List.length_cons, searchScan]
    rw [key_at n pre (ka ++ kb) a _ (by simpa using hn) rfl]
    simp only [ok_bind, ha1, if_true]
    refine (ih (pre ++ [a]) kb _ _ ?_ ?_ ?_ (fun k hk => ha k (by simp [hk])) hb).trans ?_
    · simpa using hn
    · rfl
    · simp
    · congr 1
      simp
      omega

theorem searchScan_spec (key : Int) (l : Bool) (cs : List (Option BTreeNode))
    (ka kb : List Int) (hka : ∀ k ∈ ka, k < key) (hkb : ∀ b ∈ kb.head?, key ≤ b) :
    searchScan key (mk l (ka ++ kb) cs) (mk l (ka ++ kb) cs).size.toNat 0
      = .ok (ka.length : Int) := by
  rw [searchScan_at key _ ka [] kb _ _ (by simp [keys]) (by simp [size_mk]; omega) (by simp)
    hka hkb]
  simp

theorem dropWhile_head_not {α : Type} (p : α → Bool) :
    ∀ (ks : List α) (b : α) (kb : List α), ks.dropWhile p = b :: kb → p b = false := by
  intro ks
  induction ks with
  | nil => intro b kb h; simp at h
  | cons a ks ih =>
    intro b kb h
    by_cases ha : p a = true
    · rw [List.dropWhile_cons_of_pos ha] at h
      exact ih b kb h
    · rw [List.dropWhile_cons_of_neg ha] at h
      simp only [List.cons.injEq] at h
      rw [← h.1]
      simpa using ha

/-- The keys of a node around the position where the scan of `_search` stops. -/
theorem search_keys_split (key : Int) (ks : List Int) (hs : List.Pairwise (· ≤ ·) ks) :
    ∃ ka kb, ks = ka ++ kb ∧ (∀ k ∈ ka, k < key) ∧ (∀ b ∈ kb, key ≤ b) := by
  refine ⟨ks.takeWhile (fun k => decide (k < key)), ks.dropWhile (fun k => decide (k < key)),
    (List.takeWhile_append_dropWhile _ _).symm, ?_, ?_⟩
  · intro k hk
    simpa using List.mem_takeWhile_imp hk
  · intro b hb
    cases hkb : ks.dropWhile (fun k => decide (k < key)) with
    | nil => rw [hkb] at hb; simp at hb
    | cons b0 kb =>
      have h0 := dropWhile_head_not _ ks b0 kb hkb
      simp only [decide_eq_false_iff_not, not_lt] at h0
      rw [hkb] at hb
      rw [List.mem_cons] at hb
      rcases hb with hb | hb
      · omega
      · have hsub : List.Sublist (b0 :: kb) ks := by
          rw [← hkb]; exact List.dropWhile_sublist _
        have := List.rel_of_pairwise_cons (hs.sublist hsub) hb
        omega

theorem search_hit (key : Int) (fuel : Nat) (l : Bool) (ka kb : List Int)
    (cs : List (Option BTreeNode)) (hka : ∀ k ∈ ka, k < key) :
    _search key (fuel + 1) (mk l (ka ++ key :: kb) cs)
      = .ok (some (mk l (ka ++ key :: kb) cs, (ka.length : Int))) := by
  simp only [_search]
  rw [searchScan_spec key l cs ka (key :: kb) hka (by simp)]
  have hlt : (ka.length : Int) < (mk l (ka ++ key :: kb) cs).size := by
    simp [size_mk]
  simp only [ok_bind, hlt, if_true, key_mid, pure_eq_ok, decide_True]

theorem search_miss (key : Int) (fuel : Nat) (l : Bool) (ka kb : List Int)
    (cs : List (Option BTreeNode)) (hka : ∀ k ∈ ka, k < key) (hkb : ∀ b ∈ kb, key < b) :
    _search key (fuel + 1) (mk l (ka ++ kb) cs)
      = if l then .ok none
        else (do
          let c ← deref (← (mk l (ka ++ kb) cs).getChild (ka.length : Int))
          _search key fuel c) := by
  simp only [_search]
  rw [searchScan_spec key l cs ka kb hka (by
    intro b hb
    have : b ∈ kb := List.mem_of_mem_head? hb
    exact le_of_lt (hkb b this))]
  simp only [ok_bind]
  cases kb with
  | nil =>
    have hlt : ¬ (ka.length : Int) < (mk l (ka ++ []) cs).size := by
      simp [size_mk]
    simp only [hlt, if_false, pure_eq_ok, ok_bind, Bool.false_eq_true, leaf]
  | cons b kb =>
    have hb : key < b := hkb b (by simp)
    have hne : ¬ key = b := by omega
    have hlt : (ka.length : Int) < (mk l (ka ++ b :: kb) cs).size := by
      simp [size_mk]
    simp only [hlt, if_true, key_mid, ok_bind, pure_eq_ok, hne, decide_False,
      Bool.false_eq_true, if_false, leaf]

theorem search_spec (t : Int) (key : Int) :
    ∀ (h : Nat) (node : BTreeNode) (fuel : Nat), Shaped t h node →
      List.Pairwise (· ≤ ·) (inorder node) → h + 1 ≤ fuel →
      (key ∈ inorder node → ∃ p n i, _search key fuel node = .ok (some (n, i)) ∧
          nodeAt node p = .ok n ∧ n.key i = .ok key) ∧
      (key ∉ inorder node → _search key fuel node = .ok none) := by
  intro h
  induction h with
  | zero =>
    intro node fuel hs hsorted hf
    cases node with | mk l ks cs => ?_
    rw [shaped_zero] at hs
    simp only [leaf] at hs
    obtain ⟨hl, _⟩ := hs
    subst hl
    obtain ⟨f, rfl⟩ : ∃ f, fuel = f + 1 := ⟨fuel - 1, by omega⟩
    rw [inorder_leaf] at hsorted ⊢
    obtain ⟨ka, kb, rfl, hka, hkb⟩ := search_keys_split key ks hsorted
    constructor
    · intro hmem
      rw [List.mem_append] at hmem
      have hmem2 : key ∈ kb := by
        rcases hmem with hm | hm
        · have := hka key hm; omega
        · exact hm
      cases kb with
      | nil => simp at hmem2
      | cons b kb =>
        have hb : b = key := by
          have h1 := hkb b (by simp)
          rw [List.mem_cons] at hmem2
          rcases hmem2 with hm | hm
          · exact hm.symm
          · have := List.rel_of_pairwise_cons (List.pairwise_append.mp hsorted).2.1 hm
            omega
        subst hb
        exact ⟨[], _, _, search_hit b f true ka kb cs hka, rfl, key_mid _ _ _ _ _⟩
    · intro hmem
      rw [List.mem_append, not_or] at hmem
      rw [search_miss key f true ka kb cs hka]
      · rfl
      · intro b hb
        have h1 := hkb b hb
        have h2 : b ≠ key := fun e => hmem.2 (e ▸ hb)
        omega
  | succ h ih =>
    intro node fuel hs hsorted hf
    cases node with | mk l ks cs => ?_
    rw [shaped_succ] at hs
    simp only [leaf, keys, children] at hs
    obtain ⟨hl, hlen, hch⟩ := hs
    subst hl
    obtain ⟨f, rfl⟩ : ∃ f, fuel = f + 1 := ⟨fuel - 1, by omega⟩
    have hf1 : h + 1 ≤ f := by omega
    have hkeys : List.Pairwise (· ≤ ·) ks := by
      rw [inorder_internal] at hsorted
      exact hsorted.sublist (keys_sublist_interleave _ _)
    have hksub : ∀ k ∈ ks, k ∈ inorder (mk false ks cs) := by
      intro k hk
      rw [inorder_internal]
      exact (keys_sublist_interleave _ _).subset hk
    obtain ⟨ka, kb, rfl, hka, hkb⟩ := search_keys_split key ks hkeys
    by_cases hin : key ∈ kb
    · -- the key is in this node
      cases kb with
      | nil => simp at hin
      | cons b kb =>
        have hb : b = key := by
          have h1 := hkb b (by simp)
          rw [List.mem_cons] at hin
          rcases hin with hm | hm
          · exact hm.symm
          · have := List.rel_of_pairwise_cons (List.pairwise_append.mp hkeys).2.1 hm
            omega
        subst hb
        constructor
        · intro _
          exact ⟨[], _, _, search_hit b f false ka kb cs hka, rfl, key_mid _ _ _ _ _⟩
        · intro hmem
          exact absurd (hksub b (by simp)) hmem
    · -- the key is not in this node: descend
      have hkbGt : ∀ b ∈ kb, key < b := by
        intro b hb
        have h1 := hkb b hb
        have h2 : b ≠ key := fun e => hin (e ▸ hb)
        omega
      obtain ⟨pre, c0, suf, rfl, hpre, hsuf⟩ := split_at_index cs ka.length
        (by rw [hlen]; simp; omega)
      have hsuf1 : suf.length = kb.length := by
        simp at hlen hsuf; omega
      obtain ⟨c, rfl, _, _, hcs⟩ := hch c0 (by simp)
      have hio : inorder (mk false (ka ++ kb) (pre ++ some c :: suf))
          = interleave (pre.map inorderOpt) ka ++ inorder c
            ++ interleave ([] :: suf.map inorderOpt) kb := by
        rw [inorder_internal, List.map_append, List.map_cons]
        exact interleave_split _ _ _ _ _ (by simp [hpre])
      rw [hio] at hsorted ⊢
      have hsP : List.Pairwise (· ≤ ·) (interleave (pre.map inorderOpt) ka) :=
        hsorted.sublist ((List.sublist_append_left _ _).trans (List.sublist_append_left _ _))
      have hsB : List.Pairwise (· ≤ ·) (inorder c) :=
        hsorted.sublist ((List.sublist_append_right _ _).trans (List.sublist_append_left _ _))
      have hsQ : List.Pairwise (· ≤ ·) (interleave ([] :: suf.map inorderOpt) kb) :=
        hsorted.sublist (List.sublist_append_right _ _)
      have hP : key ∉ interleave (pre.map inorderOpt) ka := by
        intro hx
        obtain ⟨k, hk, hle⟩ := interleave_le_key _ _ (by simp [hpre]) hsP key hx
        have := hka k hk
        omega
      have hQ : key ∉ interleave ([] :: suf.map inorderOpt) kb := by
        intro hx
        obtain ⟨k, hk, hle⟩ := interleave_key_le _ _ (by simp [hsuf1]) hsQ key hx
        have := hkbGt k hk
        omega
      have hstep : _search key (f + 1) (mk false (ka ++ kb) (pre ++ some c :: suf))
          = _search key f c := by
        rw [search_miss key f false ka kb _ hka hkbGt]
        simp only [Bool.false_eq_true, if_false, ← hpre, getChild_mid, ok_bind, deref]
      obtain ⟨ih1, ih2⟩ := ih c f hcs hsB hf1
      constructor
      · intro hmem
        simp only [List.mem_append] at hmem
        have hmc : key ∈ inorder c := by
          rcases hmem with (hm | hm) | hm
          · exact absurd hm hP
          · exact hm
          · exact absurd hm hQ
        obtain ⟨p, n, i, hs1, hn, hk⟩ := ih1 hmc
        refine ⟨(pre.length : Int) :: p, n, i, by rw [hstep, hs1], ?_, hk⟩
        simp only [nodeAt, getChild_mid, ok_bind, deref, hn]
      · intro hmem
        simp only [List.mem_append, not_or] at hmem
        rw [hstep]
        exact ih2 hmem.1.2

/-- Claim C2. For every `t ≥ 2` and every tree built from the empty tree by inserting a key sequence,
`search k` returns a position exactly when `k` is one of the inserted keys; the position is a
node of the tree and an index at which that node stores `k`; for any other key the result is
the explicit not-found value. -/
theorem search_finds_inserted (t : Int) (ht : 2 ≤ t) (ks : List Int) (k : Int) :
    ∃ T, build t ks = .ok T ∧
      ((∃ n i, search T k = .ok (some (n, i))) ↔ k ∈ ks) ∧
      (∀ n i, search T k = .ok (some (n, i)) →
        n.key i = .ok k ∧ ∃ p, nodeAt T.root p = .ok n) ∧
      (k ∉ ks → search T k = .ok none) := by
  obtain ⟨T, h, hT, hdeg, ⟨hs, _, hsorted⟩, hperm⟩ := build_spec t ht ks
  obtain ⟨h1, h2⟩ := search_spec T.minDegree k h T.root T.root.height hs hsorted
    (shaped_height _ _ _ hs)
  have hmem : k ∈ inorder T.root ↔ k ∈ ks := hperm.mem_iff
  refine ⟨T, hT, ⟨?_, ?_⟩, ?_, ?_⟩
  · rintro ⟨n, i, hn⟩
    by_contra hk
    have := h2 (fun hx => hk (hmem.mp hx))
    unfold search at hn
    rw [this] at hn
    simp at hn
  · intro hk
    obtain ⟨p, n, i, hs1, _, _⟩ := h1 (hmem.mpr hk)
    exact ⟨n, i, hs1⟩
  · intro n i hn
    by_cases hk : k ∈ inorder T.root
    · obtain ⟨p, n1, i1, hs1, hp, hkey⟩ := h1 hk
      unfold search at hn
      rw [hs1] at hn
      simp only [Except.ok.injEq, Option.some.injEq, Prod.mk.injEq] at hn
      obtain ⟨rfl, rfl⟩ := hn
      exact ⟨hkey, p, hp⟩
    · have := h2 hk
      unfold search at hn
      rw [this] at hn
      simp at hn
  · intro hk
    exact h2 (fun hx => hk (hmem.mp hx))

theorem search_finds_inserted_witness :
    (2 : Int) ≤ 2 ∧
      ∃ T, build 2 [10, 20, 5, 6] = .ok T ∧
        ((∃ n i, search T 6 = .ok (some (n, i))) ↔ (6 : Int) ∈ [10, 20, 5, 6]) ∧
        (∀ n i, search T 6 = .ok (some (n, i)) →
          n.key i = .ok 6 ∧ ∃ p, nodeAt T.root p = .ok n) ∧
        ((6 : Int) ∉ [10, 20, 5, 6] → search T 6 = .ok none) :=
  ⟨by decide, search_finds_inserted 2 (by decide) [10, 20, 5, 6] 6⟩

/-! ## Erasing a key that is not stored, on a path that needs no rebalancing -/

theorem getElem?_mid {α : Type} (pre suf : List α) (x : α) :
    (pre ++ x :: suf)[pre.length]? = some x := by
  induction pre with
  | nil => simp
  | cons a pre ih => simpa using ih

theorem eraseScan_at (key : Int) (n : BTreeNode) :
    ∀ (ka pre kb : List Int) (cnt : Nat) (idx : Int), n.keys = pre ++ (ka ++ kb) →
      cnt = (ka ++ kb).length → idx = (pre.length : Int) →
      (∀ k ∈ ka, k < key) → (∀ b ∈ kb.head?, key < b) →
      eraseScan key n cnt idx
        = .ok (if kb = [] then EraseScan.passed
            else EraseScan.descend ((pre.length : Int) + (ka.length : Int))) := by
  intro ka
  induction ka with
  | nil =>
    intro pre kb cnt idx hn hcnt hidx _ hb
    subst hcnt hidx
    cases kb with
    | nil => simp [eraseScan]
    | cons b kb =>
      have hb1 : key < b := hb b (by simp)
      have hb2 : ¬ b = key := by omega
      have hb3 : b > key := by omega
      simp only [List.nil_append, List.length_cons, eraseScan]
      rw [key_at n pre kb b _ (by simpa using hn) rfl]
      simp [ok_bind, hb2, hb3, pure_eq_ok]
  | cons a ka ih =>
    intro pre kb cnt idx hn hcnt hidx ha hb
    subst hcnt hidx
    have ha1 : a < key := ha a (by simp)
    have ha2 : ¬ a = key := by omega
    have ha3 : ¬ a > key := by omega
    simp only [List.cons_append, List.length_cons, eraseScan]
    rw [key_at n pre (ka ++ kb) a _ (by simpa using hn) rfl]
    simp only [ok_bind, ha2, ha3, if_false]
    refine (ih (pre ++ [a]) kb _ _ ?_ ?_ ?_ (fun k hk => ha k (by simp [hk])) hb).trans ?_
    · simpa using hn
    · rfl
    · simp
    · congr 1
      by_cases hkb : kb = []
      · simp [hkb]
      · simp only [hkb, if_false]
        congr 1
        simp
        omega

theorem leafScan_absent (key : Int) (n : BTreeNode) (keyIndex : Int) :
    ∀ (ks pre : List Int) (cnt : Nat) (idx : Int), n.keys = pre ++ ks →
      cnt = ks.length → idx = (pre.length : Int) → key ∉ ks →
      leafScan key n keyIndex cnt idx = .ok keyIndex := by
  intro ks
  induction ks with
  | nil =>
    intro pre cnt idx _ hcnt _ _
    subst hcnt
    simp [leafScan]
  | cons a ks ih =>
    intro pre cnt idx hn hcnt hidx hk
    subst hcnt hidx
    have ha : ¬ a = key := fun e => hk (by simp [e])
    simp only [List.length_cons, leafScan]
    rw [key_at n pre ks a _ hn rfl]
    simp only [ok_bind, ha, if_false]
    exact ih (pre ++ [a]) _ _ (by simpa using hn) rfl (by simp)
      (fun hm => hk (by simp [hm]))

theorem eraseTail_leaf_absent (self : BTreeNode → Int → Except Fault BTreeNode) (fuel : Nat)
    (t key : Int) (ks : List Int) (cs : List (Option BTreeNode)) (hk : key ∉ ks) :
    eraseTail self fuel t (mk true ks cs) key (-1) = .ok (mk true ks cs) := by
  simp only [eraseTail, leaf, if_true]
  rw [leafScan_absent key _ (-1) ks [] _ _ (by simp [keys]) (by simp [size_mk]) (by simp) hk]
  simp [ok_bind, pure_eq_ok]

/-- The keys of a node that does not store `key`, around the position where the scan of
`_erase` stops. -/
theorem erase_keys_split (key : Int) (ks : List Int) (hk : key ∉ ks) :
    ∃ ka kb, ks = ka ++ kb ∧ ka = ks.takeWhile (fun x => decide (x < key)) ∧
      (∀ k ∈ ka, k < key) ∧ (∀ b ∈ kb.head?, key < b) := by
  refine ⟨ks.takeWhile (fun k => decide (k < key)), ks.dropWhile (fun k => decide (k < key)),
    (List.takeWhile_append_dropWhile _ _).symm, rfl, ?_, ?_⟩
  · intro k hk1
    simpa using List.mem_takeWhile_imp hk1
  · intro b hb
    cases hkb : ks.dropWhile (fun k => decide (k < key)) with
    | nil => rw [hkb] at hb; simp at hb
    | cons b0 kb =>
      have h0 := dropWhile_head_not _ ks b0 kb hkb
      simp only [decide_eq_false_iff_not, not_lt] at h0
      rw [hkb] at hb
      simp only [List.head?_cons, Option.mem_def, Option.some.injEq] at hb
      subst hb
      have hmem : b0 ∈ ks := by
        have hsub : List.Sublist (b0 :: kb) ks := by
          rw [← hkb]; exact List.dropWhile_sublist _
        exact hsub.subset (by simp)
      have hne : b0 ≠ key := fun e => hk (e ▸ hmem)
      omega

theorem normalize_roomy (t : Int) (n : BTreeNode) (i : Int) (c : BTreeNode)
    (hc : n.getChild i = .ok (some c)) (hsz : t ≤ c.size) :
    normalizeNodeForErasing t n i = .ok (n, 0) := by
  have hge : c.size ≥ t := hsz
  simp only [normalizeNodeForErasing, hc, ok_bind, deref, hge, if_true, pure_eq_ok]

theorem erase_step_roomy (t key : Int) (fuel : Nat) (ka kb : List Int)
    (pre suf : List (Option BTreeNode)) (c : BTreeNode)
    (hpre : pre.length = ka.length)
    (hka : ∀ k ∈ ka, k < key) (hkb : ∀ b ∈ kb.head?, key < b)
    (hroom : kb ≠ [] → t ≤ c.size)
    (hchild : (if c.leaf then
        eraseTail (fun n k => _erase t fuel n k) fuel t c key (-1)
      else _erase t fuel c key) = .ok c) :
    _erase t (fuel + 1) (mk false (ka ++ kb) (pre ++ some c :: suf)) key
      = .ok (mk false (ka ++ kb) (pre ++ some c :: suf)) := by
  simp only [_erase]
  rw [eraseScan_at key _ ka [] kb _ _ (by simp [keys]) (by simp [size_mk]; omega) (by simp)
    hka hkb]
  simp only [ok_bind, List.length_nil, Nat.cast_zero, zero_add]
  by_cases hkbe : kb = []
  · subst hkbe
    simp only [if_true, size_mk, List.append_nil, ← hpre, getChild_mid, ok_bind, deref]
    cases hl : c.leaf with
    | true =>
      simp only [hl, if_true] at hchild
      simp only [if_true, hchild, ok_bind, setChild_mid]
    | false =>
      simp only [hl, Bool.false_eq_true, if_false] at hchild
      simp only [Bool.false_eq_true, if_false, hchild, ok_bind, setChild_mid]
  · simp only [hkbe, if_false]
    rw [normalize_roomy t _ _ c (by rw [← hpre]; exact getChild_mid _ _ _ _ _) (hroom hkbe)]
    simp only [ok_bind, sub_zero, ← hpre, getChild_mid, deref]
    cases hl : c.leaf with
    | true =>
      simp only [hl, if_true] at hchild
      simp only [if_true, hchild, ok_bind, setChild_mid]
    | false =>
      simp only [hl, Bool.false_eq_true, if_false] at hchild
      simp only [Bool.false_eq_true, if_false, hchild, ok_bind, setChild_mid]

theorem child_inorder_subset (ks : List Int) (pre suf : List (Option BTreeNode)) (c : BTreeNode)
    (hpre : pre.length ≤ ks.length) :
    ∀ x ∈ inorder c, x ∈ inorder (mk false ks (pre ++ some c :: suf)) := by
  intro x hx
  rw [inorder_internal, List.map_append, List.map_cons]
  have e : ks = ks.take pre.length ++ ks.drop pre.length := (List.take_append_drop _ _).symm
  rw [e, interleave_split _ _ _ _ _ (by simp; omega)]
  simp only [List.mem_append, inorderOpt]
  exact Or.inl (Or.inr hx)

theorem split_at_getElem? {α : Type} (cs : List α) (i : Nat) (x : α) (h : cs[i]? = some x) :
    ∃ pre suf, cs = pre ++ x :: suf ∧ pre.length = i := by
  obtain ⟨hi, hx⟩ := List.getElem?_eq_some.mp h
  obtain ⟨pre, c, suf, hcs, hpre, _⟩ := split_at_index cs i hi
  refine ⟨pre, suf, ?_, hpre⟩
  have h2 : cs[i]? = some c := by
    rw [hcs, ← hpre]; exact getElem?_mid pre suf c
  rw [h] at h2
  simp only [Option.some.injEq] at h2
  rw [h2]; exact hcs

theorem erase_absent_roomy (t key : Int) :
    ∀ (F : Nat) (n : BTreeNode) (fuel : Nat), n.leaf = false → key ∉ inorder n →
      roomyPath t key F n = true → n.height ≤ F → n.height ≤ fuel →
      _erase t fuel n key = .ok n := by
  intro F
  induction F with
  | zero =>
    intro n fuel _ _ _ hF _
    cases n with | mk l ks cs => ?_
    rw [height_mk] at hF
    omega
  | succ F ih =>
    intro n fuel hl hk hroomy hF hfuel
    cases n with | mk l ks cs => ?_
    simp only [leaf] at hl
    subst hl
    rw [height_mk] at hF hfuel
    obtain ⟨f, rfl⟩ : ∃ f, fuel = f + 1 := ⟨fuel - 1, by omega⟩
    have hkk : key ∉ ks := fun hm => hk (by
      rw [inorder_internal]; exact (keys_sublist_interleave _ _).subset hm)
    obtain ⟨ka, kb, rfl, hkaeq, hka, hkb⟩ := erase_keys_split key ks hkk
    simp only [roomyPath, leaf, Bool.false_eq_true, if_false, keys, children, ← hkaeq]
      at hroomy
    cases hget : cs[ka.length]? with
    | none => rw [hget] at hroomy; simp at hroomy
    | some p =>
      cases p with
      | none => rw [hget] at hroomy; simp at hroomy
      | some c =>
        rw [hget] at hroomy
        simp only [Bool.and_eq_true, Bool.or_eq_true, decide_eq_true_eq] at hroomy
        obtain ⟨pre, suf, rfl, hpre⟩ := split_at_getElem? cs ka.length (some c) hget
        have hkc : key ∉ inorder c := fun hm =>
          hk (child_inorder_subset _ pre suf c (by simp [hpre]) key hm)
        have hhc : c.height ≤ heightList (pre ++ some c :: suf) := by
          have := heightOpt_le_heightList (pre ++ some c :: suf) (some c) (by simp)
          simpa [heightOpt] using this
        apply erase_step_roomy t key f ka kb pre suf _ hpre hka hkb
        · intro hne
          rcases hroomy.1 with h1 | h1
          · cases kb with
            | nil => exact absurd rfl hne
            | cons b kb => simp at h1
          · exact h1
        · cases hcl : c.leaf with
          | true =>
            cases c with | mk cl cks ccs => ?_
            simp only [leaf] at hcl
            subst hcl
            rw [inorder_leaf] at hkc
            simp only [if_true]
            exact eraseTail_leaf_absent _ f t key cks ccs hkc
          | false =>
            simp only [Bool.false_eq_true, if_false]
            exact ih c f hcl hkc hroomy.2 (by omega) (by omega)

/-- Erasing a key that is not stored from a tree with an internal root returns the tree
itself when the descent needs no rebalancing. -/
theorem erase_absent_spec (T : BTree) (key : Int)
    (hl : T.root.leaf = false) (hk : key ∉ inorder T.root)
    (hroomy : roomyPath T.minDegree key T.root.height T.root = true) :
    erase T key = .ok T := by
  unfold erase
  by_cases h0 : T.root.size = 0
  · simp [h0]
  · simp only [h0, if_false]
    rw [erase_absent_roomy T.minDegree key T.root.height T.root T.root.height hl hk hroomy
      (le_refl _) (le_refl _)]
    rfl

/-! ## Claims about erasing -/

/-- Claim C3, evaluated where the code departs from it: with `t = 2`, after inserting 10, 20,
30, 40, 50, 60 the call `erase 30` borrows from the right sibling through the separator on the
wrong side of the child. The stored keys are then 10, 20, 40, 50, 60 but the in-order
traversal is 10, 50, 20, 40, 60 and `search` no longer finds 20 or 40. -/
theorem erase_stored_key_breaks_order :
    build 2 [10, 20, 30, 40, 50, 60] = .ok exTreeSix ∧
      erase exTreeSix 30 = .ok exTreeSixErase30 ∧
      inorder exTreeSixErase30.root = [10, 50, 20, 40, 60] ∧
      search exTreeSixErase30 20 = .ok none ∧
      search exTreeSixErase30 40 = .ok none := by
  decide!

/-- Counterexample to claim C4: with `t = 2`, in the tree built from 10, 20, 30, 40, 50, 60, 5
the key 35 is not stored, yet `erase 35` returns a different tree: on its way down it borrows
a key from the left sibling of the child it enters (root keys 20, 40 become 10, 40). -/
theorem erase_absent_restructures :
    (35 : Int) ∉ [10, 20, 30, 40, 50, 60, 5] ∧
      build 2 [10, 20, 30, 40, 50, 60, 5] = .ok exTreeSeven ∧
      erase exTreeSeven 35 = .ok exTreeSevenErase35 ∧
      exTreeSevenErase35 ≠ exTreeSeven ∧
      exTreeSeven.root.keys = [20, 40] ∧ exTreeSevenErase35.root.keys = [10, 40] := by
  decide!

/-- Claim C4, amended. For every `t ≥ 2`, every tree built from the empty tree by inserts whose
root is internal, and every key `k` that was not inserted: if on the descent of `erase k`
every child entered through a separator greater than `k` already holds at least `t` keys, then
`erase k` completes and returns the very same tree. -/
theorem erase_absent_unchanged (t : Int) (ht : 2 ≤ t) (ks : List Int) (k : Int) (T : BTree)
    (hT : build t ks = .ok T) (hk : k ∉ ks) (hroot : T.root.leaf = false)
    (hroomy : roomyPath t k T.root.height T.root = true) :
    erase T k = .ok T := by
  obtain ⟨T1, h, hT1, hdeg, _, hperm⟩ := build_spec t ht ks
  rw [hT] at hT1
  simp only [Except.ok.injEq] at hT1
  subst hT1
  apply erase_absent_spec T k hroot
  · exact fun hm => hk (hperm.mem_iff.mp hm)
  · rw [hdeg]; exact hroomy

theorem erase_absent_unchanged_witness :
    (2 : Int) ≤ 2 ∧ build 2 [10, 20, 30, 40, 50, 60, 5] = .ok exTreeSeven ∧
      (7 : Int) ∉ [10, 20, 30, 40, 50, 60, 5] ∧ exTreeSeven.root.leaf = false ∧
      roomyPath 2 7 exTreeSeven.root.height exTreeSeven.root = true ∧
      erase exTreeSeven 7 = .ok exTreeSeven :=
  ⟨by decide, by decide!, by decide, by decide!, by decide!,
    erase_absent_unchanged 2 (by decide) [10, 20, 30, 40, 50, 60, 5] 7 exTreeSeven
      (by decide!) (by decide) (by decide!) (by decide!)⟩

/-- Counterexample to claim C5: with `t = 2`, in the tree built from 10, 20, 30, 40, 50, 35 a
first `erase 35` removes the key from its leaf, and a second `erase 35` returns a different
tree: it merges that leaf with its left sibling on the way down (root keys 20, 40 become 40). -/
theorem erase_twice_restructures :
    build 2 [10, 20, 30, 40, 50, 35] = .ok exTreeMid ∧
      erase exTreeMid 35 = .ok exTreeMidErase35 ∧
      erase exTreeMidErase35 35 = .ok exTreeMidErase35Twice ∧
      exTreeMidErase35Twice ≠ exTreeMidErase35 ∧
      exTreeMidErase35.root.keys = [20, 40] ∧ exTreeMidErase35Twice.root.keys = [40] := by
  decide!

/-- Claim C5, amended. For every tree `T` and key `k`: if `erase k` returns a tree `T1` that no
longer stores `k` and is either empty (its root holds no key) or has an internal root from
which the descent of `erase k` needs no rebalancing (every child entered through a separator
greater than `k` holds at least `t` keys), then a second `erase k` returns `T1` again, so that
erasing twice is erasing once. -/
theorem erase_twice_unchanged (T T1 : BTree) (k : Int) (h1 : erase T k = .ok T1)
    (hk : k ∉ inorder T1.root)
    (h2 : T1.root.size = 0 ∨
      (T1.root.leaf = false ∧ roomyPath T1.minDegree k T1.root.height T1.root = true)) :
    (erase T k >>= fun T2 => erase T2 k) = erase T k := by
  rw [h1]
  simp only [ok_bind]
  rcases h2 with h0 | ⟨hl, hroomy⟩
  · unfold erase
    simp [h0]
  · exact erase_absent_spec T1 k hl hk hroomy

theorem erase_twice_unchanged_witness :
    erase exTreeSix 60 = .ok exTreeSixErase60 ∧
      (60 : Int) ∉ inorder exTreeSixErase60.root ∧
      (erase exTreeSix 60 >>= fun T2 => erase T2 60) = erase exTreeSix 60 :=
  ⟨by decide!, by decide!,
    erase_twice_unchanged exTreeSix exTreeSixErase60 60 (by decide!) (by decide!)
      (Or.inr ⟨by decide!, by decide!⟩)⟩

/-- Claim C8, evaluated where the code departs from it: with `t = 2`, after inserting 10, 20,
30, 5 the call `erase 30` enters the rightmost child of the root without normalizing it and
removes the only key of that leaf, which is left with 0 keys, fewer than `t - 1 = 1`. -/
theorem erase_rightmost_underflows :
    build 2 [10, 20, 30, 5] = .ok exTreeFour ∧
      erase exTreeFour 30 = .ok exTreeFourErase30 ∧
      ∃ x ∈ nodesBelow exTreeFourErase30.root, x.size < 2 - 1 := by
  decide!

/-! ## Claims about construction and the worked insertion example -/

/-- Counterexample to claim C9: constructing a tree with minimum degree 1, which is below 2,
reports no error and yields a tree. -/
theorem new_accepts_degree_one :
    BTree.new 1 = .ok ⟨1, mk true [] []⟩ ∧ (1 : Int) < 2 := by
  decide!

/-- Claim C9, amended. For every integer `t`, below 2 or not, the constructor reports no error
and yields a tree of minimum degree `t` whose root is a single empty leaf. -/
theorem new_always_succeeds (t : Int) :
    ∃ T, BTree.new t = .ok T ∧ T.minDegree = t ∧ T.root.leaf = true ∧ T.root.keys = [] ∧
      T.root.children = [] :=
  ⟨⟨t, mk true [] []⟩, rfl, rfl, rfl, rfl, rfl⟩

/-- Counterexample to claim C10: with `t = 2`, inserting 10, 20, 5, 6, 12, 30, 7, 17 in that
order yields a tree whose root does not hold the keys 6 and 17. -/
theorem clrs_example_root_differs :
    build 2 [10, 20, 5, 6, 12, 30, 7, 17] = .ok exTreeClrs ∧
      exTreeClrs.root.keys ≠ [6, 17] := by
  decide!

/-- Claim C10, amended. With `t = 2`, inserting 10, 20, 5, 6, 12, 30, 7, 17 in that order
yields a tree whose root holds exactly the keys 10 and 20, whose in-order traversal is 5, 6,
7, 10, 12, 17, 20, 30 and in which every non-root node holds between 1 and 3 keys. -/
theorem clrs_example_tree :
    ∃ T, build 2 [10, 20, 5, 6, 12, 30, 7, 17] = .ok T ∧ T.root.keys = [10, 20] ∧
      inorder T.root = [5, 6, 7, 10, 12, 17, 20, 30] ∧
      ∀ x ∈ nodesBelow T.root, 1 ≤ x.size ∧ x.size ≤ 3 :=
  ⟨exTreeClrs, by decide!, by decide!, by decide!, by decide!⟩

/-! ## The split of a full child, stated on whole nodes -/

theorem splitChild_take_drop (tm : Nat) (x y : BTreeNode) (i : Nat)
    (hlen : x.children.length = x.keys.length + 1)
    (hy : x.children[i]? = some (some y)) (hfull : y.size = 2 * ((tm : Int) + 1) - 1)
    (hyc : y.leaf = false → y.children.length = y.keys.length + 1) :
    ∃ x1 y1 z m, splitChild ((tm : Int) + 1) x (i : Int) = .ok x1 ∧
      y.keys[tm]? = some m ∧
      x1.leaf = x.leaf ∧
      x1.keys = x.keys.take i ++ m :: x.keys.drop i ∧
      x1.children = x.children.take i ++ some y1 :: some z :: x.children.drop (i + 1) ∧
      y1.leaf = y.leaf ∧ z.leaf = y.leaf ∧
      y1.keys = y.keys.take tm ∧ z.keys = y.keys.drop (tm + 1) ∧
      y1.keys.length = tm ∧ z.keys.length = tm ∧
      (y.leaf = false →
        y1.children = y.children.take (tm + 1) ∧ z.children = y.children.drop (tm + 1) ∧
        y1.children.length = tm + 1 ∧ z.children.length = tm + 1) := by
  cases x with | mk l ks cs => ?_
  cases y with | mk yl yks ycs => ?_
  simp only [leaf, keys, children, size_mk] at hlen hy hfull hyc ⊢
  have hi : i < cs.length := by
    by_contra hn
    rw [List.getElem?_eq_none (by omega)] at hy
    exact absurd hy (by simp)
  obtain ⟨pre, c, suf, rfl, hpre, hsuf⟩ := split_at_index cs i hi
  have hc : c = some (mk yl yks ycs) := by
    rw [← hpre, getElem?_mid] at hy
    exact Option.some.inj hy
  subst hc
  obtain ⟨ya, m, yb, rfl, hya, hyb⟩ := split_at_index yks tm (by omega)
  have hyb1 : yb.length = tm := by
    simp at hfull hyb; omega
  have hks : ks = ks.take i ++ ks.drop i := (List.take_append_drop i ks).symm
  have hka : (ks.take i).length = pre.length := by
    simp at hlen ⊢; omega
  have hkb : (ks.drop i).length = suf.length := by
    simp at hlen ⊢; omega
  have hyc1 : yl = false → ycs.length = 2 * (tm + 1) := by
    intro h
    have := hyc h
    simp at this; omega
  have hsplit := splitChild_ok tm l (ks.take i) (ks.drop i) pre suf yl ya yb m ycs hka hkb hya
    hyb1 hyc1
  rw [← hks, hpre] at hsplit
  refine ⟨_, mk yl ya (ycs.take (tm + 1) ++ List.replicate (tm + 1 - ycs.length) none),
    mk yl yb (if yl then List.replicate (tm + 1) none else ycs.drop (tm + 1)), m, hsplit,
    ?_, rfl, rfl, ?_, rfl, rfl, ?_, ?_, hya, hyb1, ?_⟩
  · rw [← hya, getElem?_mid]
  · simp only [children]
    rw [← hpre]
    simp
  · simp only [keys]
    rw [← hya]
    simp
  · simp only [keys]
    rw [← hya]
    have e : ya ++ m :: yb = (ya ++ [m]) ++ yb := by simp
    rw [e, List.drop_left' (by simp)]
  · intro hl
    have hlen2 := hyc1 hl
    subst hl
    simp only [children, Bool.false_eq_true, if_false]
    refine ⟨?_, trivial, ?_, ?_⟩
    · rw [hlen2]
      have : tm + 1 - 2 * (tm + 1) = 0 := by omega
      simp [this]
    · simp; omega
    · simp; omega

/-- Claim C16: for every minimum degree `t >= 2`, every parent `x` with one more child than
keys and every index `i` whose child `y` is full, `splitChild t x i` succeeds and returns a
parent with the same leaf flag in which `y`'s key at index `t - 1` stands at index `i` between
the keys of `x` before and from `i`, and in which two nodes `y1`, `z` stand at the child
indices `i` and `i + 1` between the other children of `x`; `y1` holds the first `t - 1` keys of
`y`, `z` the last `t - 1`, both have the leaf flag of `y`, and when `y` is internal `y1` holds
its first `t` children and `z` its last `t` children. -/
theorem splitChild_spec (t : Int) (ht : 2 ≤ t) (x y : BTreeNode) (i : Nat)
    (hlen : x.children.length = x.keys.length + 1)
    (hy : x.children[i]? = some (some y)) (hfull : y.size = 2 * t - 1)
    (hyc : y.leaf = false → y.children.length = y.keys.length + 1) :
    ∃ x1 y1 z m, splitChild t x (i : Int) = .ok x1 ∧
      y.keys[(t - 1).toNat]? = some m ∧
      x1.leaf = x.leaf ∧
      x1.keys = x.keys.take i ++ m :: x.keys.drop i ∧
      x1.children = x.children.take i ++ some y1 :: some z :: x.children.drop (i + 1) ∧
      y1.leaf = y.leaf ∧ z.leaf = y.leaf ∧
      y1.keys = y.keys.take (t - 1).toNat ∧ z.keys = y.keys.drop t.toNat ∧
      (y1.keys.length : Int) = t - 1 ∧ (z.keys.length : Int) = t - 1 ∧
      (y.leaf = false →
        y1.children = y.children.take t.toNat ∧ z.children = y.children.drop t.toNat ∧
        (y1.children.length : Int) = t ∧ (z.children.length : Int) = t) := by
  obtain ⟨tm, rfl⟩ : ∃ tm : Nat, t = (tm : Int) + 1 := ⟨(t - 1).toNat, by omega⟩
  have e1 : ((tm : Int) + 1 - 1).toNat = tm := by simp
  have e2 : ((tm : Int) + 1).toNat = tm + 1 := by omega
  rw [e1, e2]
  obtain ⟨x1, y1, z, m, h1, h2, h3, h4, h5, h6, h7, h8, h9, h10, h11, h12⟩ :=
    splitChild_take_drop tm x y i hlen hy hfull hyc
  refine ⟨x1, y1, z, m, h1, h2, h3, h4, h5, h6, h7, h8, h9, by omega, by omega, ?_⟩
  intro hl
  obtain ⟨a, b, c, d⟩ := h12 hl
  exact ⟨a, b, by omega, by omega⟩

theorem splitChild_spec_witness :
    (2 : Int) ≤ 2 ∧
    ∃ x1 y1 z m, splitChild 2 (mk false [] [some (mk true [10, 20, 30] [none, none, none, none])])
        ((0 : Nat) : Int) = .ok x1 ∧
      (mk true [10, 20, 30] [none, none, none, none]).keys[((2 : Int) - 1).toNat]? = some m ∧
      x1.leaf = (mk false [] [some (mk true [10, 20, 30] [none, none, none, none])]).leaf ∧
      x1.keys = (mk false [] [some (mk true [10, 20, 30] [none, none, none, none])]).keys.take 0
        ++ m :: (mk false [] [some (mk true [10, 20, 30] [none, none, none, none])]).keys.drop 0 ∧
      x1.children
        = (mk false [] [some (mk true [10, 20, 30] [none, none, none, none])]).children.take 0
          ++ some y1 :: some z
          :: (mk false [] [some (mk true [10, 20, 30] [none, none, none, none])]).children.drop
            (0 + 1) ∧
      y1.leaf = (mk true [10, 20, 30] [none, none, none, none]).leaf ∧
      z.leaf = (mk true [10, 20, 30] [none, none, none, none]).leaf ∧
      y1.keys = (mk true [10, 20, 30] [none, none, none, none]).keys.take ((2 : Int) - 1).toNat ∧
      z.keys = (mk true [10, 20, 30] [none, none, none, none]).keys.drop (2 : Int).toNat ∧
      (y1.keys.length : Int) = 2 - 1 ∧ (z.keys.length : Int) = 2 - 1 ∧
      ((mk true [10, 20, 30] [none, none, none, none]).leaf = false →
        y1.children
          = (mk true [10, 20, 30] [none, none, none, none]).children.take (2 : Int).toNat ∧
        z.children
          = (mk true [10, 20, 30] [none, none, none, none]).children.drop (2 : Int).toNat ∧
        (y1.children.length : Int) = 2 ∧ (z.children.length : Int) = 2) :=
  ⟨by decide, splitChild_spec 2 (by decide) (mk false [] [some (mk true [10, 20, 30]
    [none, none, none, none])]) (mk true [10, 20, 30] [none, none, none, none]) 0 (by decide)
    (by decide!) (by decide) (by decide)⟩

/-! ## The height of a shaped tree and how `insert` changes it -/

theorem heightList_none (cs : List (Option BTreeNode)) (h : ∀ p ∈ cs, p = none) :
    heightList cs = 0 := by
  induction cs with
  | nil => rfl
  | cons p cs ih =>
    have hp := h p (by simp)
    subst hp
    simp only [heightList, heightOpt]
    rw [ih (fun q hq => h q (by simp [hq]))]
    rfl

theorem heightList_const (cs : List (Option BTreeNode)) (k : Nat) (hne : cs ≠ [])
    (h : ∀ p ∈ cs, heightOpt p = k) : heightList cs = k := by
  induction cs with
  | nil => exact absurd rfl hne
  | cons p cs ih =>
    simp only [heightList]
    rw [h p (by simp)]
    cases cs with
    | nil => simp [heightList]
    | cons q cs =>
      rw [ih (by simp) (fun r hr => h r (by simp [hr]))]
      simp

theorem shaped_height_eq (t : Int) : ∀ (h : Nat) (n : BTreeNode), Shaped t h n →
    n.height = h + 1 := by
  intro h
  induction h with
  | zero =>
    intro n hs
    cases n with | mk l ks cs => ?_
    rw [shaped_zero] at hs
    rw [height_mk, heightList_none cs hs.2]
  | succ h ih =>
    intro n hs
    cases n with | mk l ks cs => ?_
    rw [shaped_succ] at hs
    simp only [leaf, keys, children] at hs
    obtain ⟨_, hlen, hch⟩ := hs
    rw [height_mk, heightList_const cs (h + 1)]
    · intro hn
      subst hn
      simp at hlen
    · intro p hp
      obtain ⟨c, rfl, _, _, hc⟩ := hch p hp
      simp only [heightOpt]
      exact ih c hc

/-- What `insert` does to the root: a full root is split under a new root that keeps exactly
the median key and two children, a root with room stays at its level. -/
theorem insert_root_spec (tm : Nat) (htm : 1 ≤ tm) (T : BTree) (key : Int) (h : Nat)
    (ht : T.minDegree = (tm : Int) + 1) (hinv : TreeInv h T) :
    ∃ T1, BTree.insert T key = .ok T1 ∧
      (T.root.size = 2 * T.minDegree - 1 →
        Shaped T.minDegree (h + 1) T1.root ∧
        ∃ m, T.root.keys[tm]? = some m ∧ T1.root.keys = [m] ∧ T1.root.children.length = 2) ∧
      (T.root.size ≠ 2 * T.minDegree - 1 → Shaped T.minDegree h T1.root) := by
  obtain ⟨hs, hsz, hsorted⟩ := hinv
  cases T with | mk t root => ?_
  simp only at ht hs hsz hsorted ⊢
  subst ht
  by_cases hfull : root.size = 2 * ((tm : Int) + 1) - 1
  · cases root with | mk yl yks ycs => ?_
    simp only [size_mk] at hfull
    obtain ⟨ya, m, yb, rfl, hya, hyb⟩ := split_at_index yks tm (by omega)
    have hyb1 : yb.length = tm := by
      simp at hfull hyb; omega
    obtain ⟨hyc, hsy, hsz1⟩ := shaped_halves tm h yl ya yb m ycs hya hyb1 hs
    have hhalf := inorder_halves tm yl ya yb m ycs hya hyc
    have hsplit := splitChild_ok tm false [] [] [] [] yl ya yb m ycs rfl rfl hya hyb1 hyc
    simp only [List.append_nil, List.nil_append, List.length_nil, Nat.cast_zero] at hsplit
    obtain ⟨y1, hy1⟩ : ∃ y1, y1 = mk yl ya
      (ycs.take (tm + 1) ++ List.replicate (tm + 1 - ycs.length) none) := ⟨_, rfl⟩
    obtain ⟨z, hz⟩ : ∃ z, z = mk yl yb
      (if yl then List.replicate (tm + 1) none else ycs.drop (tm + 1)) := ⟨_, rfl⟩
    rw [← hy1, ← hz] at hhalf hsplit
    rw [← hy1] at hsy
    rw [← hz] at hsz1
    have hy1size : y1.size = (tm : Int) := by rw [hy1]; simp [size_mk, hya]
    have hzsize : z.size = (tm : Int) := by rw [hz]; simp [size_mk, hyb1]
    have hnew : Shaped ((tm : Int) + 1) (h + 1) (mk false [m] [some y1, some z]) := by
      rw [shaped_succ]
      simp only [leaf, keys, children]
      refine ⟨trivial, by simp, ?_⟩
      intro p hp
      simp only [List.mem_cons, List.mem_singleton, List.not_mem_nil, or_false] at hp
      rcases hp with hp | hp
      · exact ⟨y1, hp, by omega, by omega, hsy⟩
      · exact ⟨z, hp, by omega, by omega, hsz1⟩
    have hionew : inorder (mk false [m] [some y1, some z])
        = inorder (mk yl (ya ++ m :: yb) ycs) := by
      rw [hhalf, inorder_internal]
      simp [interleave, inorderOpt]
    obtain ⟨r, hr, hrs, hrle, hrge, hrp, hrsorted⟩ :=
      insertNonfull_spec tm key (h + 1) (mk false [m] [some y1, some z])
        (mk false [m] [some y1, some z]).height hnew (by simp [size_mk]; omega)
        (by rw [hionew]; exact hsorted) (shaped_height _ _ _ hnew)
    have hins : BTree.insert ⟨(tm : Int) + 1, mk yl (ya ++ m :: yb) ycs⟩ key
        = .ok ⟨(tm : Int) + 1, r⟩ := by
      simp only [BTree.insert, size_mk, hfull, if_true, allocateNode, BTreeNode.new, setLeaf,
        appendChild, leaf, keys, children, List.nil_append]
      rw [hsplit]
      simp only [ok_bind, hr, pure_eq_ok]
    -- the shape of the new root: the descent touches one child only
    have hfuel : (mk false [m] [some y1, some z]).height = h + 1 + 1 :=
      shaped_height_eq _ _ _ hnew
    rw [hfuel] at hr
    have hroot : r.keys = [m] ∧ r.children.length = 2 := by
      by_cases hk : key < m
      · have hka : keysBefore key ([] ++ [m]) = [] := by
          simp [keysBefore, List.rdropWhile, hk]
        have hd := insertNonfull_descend ((tm : Int) + 1) key (h + 1) [] [m] [] [some z] y1
          hka rfl (by omega)
        simp only [List.nil_append] at hd
        rw [hd] at hr
        cases hc : insertNonfull ((tm : Int) + 1) key (h + 1) y1 with
        | error e => rw [hc] at hr; simp [error_bind] at hr
        | ok c1 =>
          rw [hc, ok_bind] at hr
          have := Except.ok.inj hr
          subst this
          simp [keys, children]
      · have hka : keysBefore key ([m] ++ []) = [m] := by
          simp [keysBefore, List.rdropWhile, hk]
        have hd := insertNonfull_descend ((tm : Int) + 1) key (h + 1) [m] [] [some y1] [] z
          hka rfl (by omega)
        simp only [List.append_nil, List.singleton_append] at hd
        rw [hd] at hr
        cases hc : insertNonfull ((tm : Int) + 1) key (h + 1) z with
        | error e => rw [hc] at hr; simp [error_bind] at hr
        | ok c1 =>
          rw [hc, ok_bind] at hr
          have := Except.ok.inj hr
          subst this
          simp [keys, children]
    refine ⟨⟨(tm : Int) + 1, r⟩, hins, ?_, ?_⟩
    · intro _
      refine ⟨hrs, m, ?_, hroot.1, hroot.2⟩
      simp only [keys]
      rw [← hya, getElem?_mid]
    · intro hn
      simp only [size_mk] at hn
      exact absurd hfull hn
  · obtain ⟨r, hr, hrs, hrle, hrge, hrp, hrsorted⟩ :=
      insertNonfull_spec tm key h root root.height hs (by omega) hsorted
        (shaped_height _ _ _ hs)
    refine ⟨⟨(tm : Int) + 1, r⟩, ?_, ?_, ?_⟩
    · simp only [BTree.insert, hfull, if_false]
      rw [hr]
      rfl
    · intro hf
      exact absurd hf hfull
    · intro _
      exact hrs

/-- Claim C17: for every minimum degree `t >= 2` and every tree built by inserts, `insert k`
succeeds; if the root held `2t - 1` keys the height grows by exactly one and the new root has
exactly one key, the old root's key at index `t - 1`, and two children; otherwise the height
is unchanged. -/
theorem insert_height (t : Int) (ht : 2 ≤ t) (ks : List Int) (k : Int) :
    ∃ T T1, build t ks = .ok T ∧ BTree.insert T k = .ok T1 ∧
      (T.root.size = 2 * t - 1 →
        T1.root.height = T.root.height + 1 ∧
        ∃ m, T.root.keys[(t - 1).toNat]? = some m ∧ T1.root.keys = [m] ∧
          T1.root.children.length = 2) ∧
      (T.root.size ≠ 2 * t - 1 → T1.root.height = T.root.height) := by
  obtain ⟨T, h, hT, hdeg, hinv, _⟩ := build_spec t ht ks
  obtain ⟨tm, rfl⟩ : ∃ tm : Nat, t = (tm : Int) + 1 := ⟨(t - 1).toNat, by omega⟩
  obtain ⟨T1, hT1, hfull, hroom⟩ := insert_root_spec tm (by omega) T k h hdeg hinv
  rw [hdeg] at hfull hroom
  have e1 : ((tm : Int) + 1 - 1).toNat = tm := by simp
  rw [e1]
  refine ⟨T, T1, hT, hT1, ?_, ?_⟩
  · intro hf
    obtain ⟨hs1, hm⟩ := hfull hf
    refine ⟨?_, hm⟩
    rw [shaped_height_eq _ _ _ hs1, shaped_height_eq _ _ _ (hdeg ▸ hinv.1)]
  · intro hf
    rw [shaped_height_eq _ _ _ (hroom hf), shaped_height_eq _ _ _ (hdeg ▸ hinv.1)]

theorem insert_height_witness :
    (2 : Int) ≤ 2 ∧
    ∃ T T1, build 2 [10, 20, 30] = .ok T ∧ BTree.insert T 40 = .ok T1 ∧
      (T.root.size = 2 * 2 - 1 →
        T1.root.height = T.root.height + 1 ∧
        ∃ m, T.root.keys[((2 : Int) - 1).toNat]? = some m ∧ T1.root.keys = [m] ∧
          T1.root.children.length = 2) ∧
      (T.root.size ≠ 2 * 2 - 1 → T1.root.height = T.root.height) :=
  ⟨by decide, insert_height 2 (by decide) [10, 20, 30] 40⟩

/-! ## Claims about the restructuring steps of erase -/

/-- Claim C11, evaluated where the code departs from it: with `t = 3`, inserting 1 to 20 in
increasing order builds a root with key 9 over two internal nodes with two keys each. The
first call `erase 1` asks `normalizeNodeForErasing` to fix child 0 of the root, which has
`t - 1` keys, and that function reads the child at index `0 - 1`: the call does not return a
tree storing 2 to 20. -/
theorem erase_ascending_faults :
    build 3 [1, 2, 3, 4, 5, 6, 7, 8, 9, 10, 11, 12, 13, 14, 15, 16, 17, 18, 19, 20]
        = .ok exTreeTwenty ∧
      exTreeTwenty.root.getChild 0
        = .ok (some (mk false [3, 6] [exLeaf [1, 2], exLeaf [4, 5], exLeaf [7, 8]])) ∧
      erase exTreeTwenty 1 = .error .outOfRange := by
  decide!

/-- Claim C12, evaluated where the code departs from it: with `t = 2`, inserting 10, 20, 30, 40
and erasing 40 gives a root with the one key 20 over two leaves with one key each. `erase 20`
merges the two leaves but keeps the old root, now an internal node without keys, as the root.
The key 10 is still found by `search`, yet `erase 10` returns the tree unchanged. -/
theorem erase_keeps_hollow_root :
    build 2 [10, 20, 30, 40] = .ok exTreeRamp ∧
      erase exTreeRamp 40 = .ok exTreePair ∧
      erase exTreePair 20 = .ok exTreeHollow ∧
      exTreeHollow.root.leaf = false ∧ exTreeHollow.root.size = 0 ∧
      exTreeHollow.root.height = exTreePair.root.height ∧
      search exTreeHollow 10 = .ok (some (mk true [10, 30] [none, none, none], 0)) ∧
      erase exTreeHollow 10 = .ok exTreeHollow := by
  decide!

/-- Claim C18, evaluated where the code departs from it: with `t = 2`, the root with keys 20, 40
over the leaves 10 / 30 / 50, 60 is normalized at child 1, whose left sibling has `t - 1` keys
and whose right sibling has `t` keys. The code moves the separator 20 on the left of child 1
down and writes 50 over it: the child holds 30, 20 and the in-order traversal changes from
10, 20, 30, 40, 50, 60 to 10, 50, 30, 20, 40, 60. -/
theorem normalize_right_borrow_wrong_separator :
    normalizeNodeForErasing 2 exTreeSix.root 1 = .ok (exNodeSixBorrow, 0) ∧
      inorder exTreeSix.root = [10, 20, 30, 40, 50, 60] ∧
      inorder exNodeSixBorrow = [10, 50, 30, 20, 40, 60] ∧
      exNodeSixBorrow.keys = [50, 40] ∧
      exNodeSixBorrow.getChild 1 = .ok (exLeaf [30, 20]) := by
  decide!

/-- Claim C19, evaluated where the code departs from it: with `t = 2`, inserting 10, 20, 30, 40,
50, 35 and erasing 35 gives the root 20, 40 over three leaves with one key each. Normalizing
child 0 reads the child at index `0 - 1`, outside the vector, so neither
`normalizeNodeForErasing` nor `erase 10` returns a tree with a merged node at index 0. -/
theorem normalize_first_child_out_of_range :
    build 2 [10, 20, 30, 40, 50, 35] = .ok exTreeMid ∧
      erase exTreeMid 35 = .ok exTreeMidErase35 ∧
      exTreeMidErase35.root.getChild (0 - 1) = .error .outOfRange ∧
      normalizeNodeForErasing 2 exTreeMidErase35.root 0 = .error .outOfRange ∧
      erase exTreeMidErase35 10 = .error .outOfRange := by
  decide!

/-- Claim C20, evaluated where the code departs from it: with `t = 3`, in the tree built from
1 to 20 the key 9 is found in the root between two internal children with `t - 1 = 2` keys and
three children each. `erase 9` moves only the first two children of the right node into the
merged node: the leaf 16 to 20 is dropped, the traversal afterwards is 1 to 8 and 10 to 15, and
`search 16` runs past the last child of the merged node. -/
theorem erase_merge_drops_child :
    build 3 [1, 2, 3, 4, 5, 6, 7, 8, 9, 10, 11, 12, 13, 14, 15, 16, 17, 18, 19, 20]
        = .ok exTreeTwenty ∧
      erase exTreeTwenty 9 = .ok exTreeTwentyErase9 ∧
      inorder exTreeTwenty.root
        = [1, 2, 3, 4, 5, 6, 7, 8, 9, 10, 11, 12, 13, 14, 15, 16, 17, 18, 19, 20] ∧
      inorder exTreeTwentyErase9.root = [1, 2, 3, 4, 5, 6, 7, 8, 10, 11, 12, 13, 14, 15] ∧
      search exTreeTwentyErase9 16 = .error .outOfRange := by
  decide!

/-! ## Counting the stored keys -/

theorem interleave_length : ∀ (C : List (List Int)) (K : List Int), K.length ≤ C.length →
    (interleave C K).length = (C.map List.length).sum + K.length := by
  intro C
  induction C with
  | nil =>
    intro K h
    have : K = [] := List.length_eq_zero.mp (by simpa using h)
    subst this
    simp [interleave]
  | cons c C ih =>
    intro K h
    cases K with
    | nil =>
      simp only [interleave, List.length_append, List.map_cons, List.sum_cons, List.length_nil]
      rw [ih [] (by simp)]
      simp
    | cons k K =>
      simp only [interleave, List.length_append, List.length_cons, List.map_cons, List.sum_cons]
      rw [ih K (by simpa using h)]
      omega

theorem keyCountList_none (cs : List (Option BTreeNode)) (h : ∀ p ∈ cs, p = none) :
    keyCountList cs = 0 := by
  induction cs with
  | nil => rfl
  | cons p cs ih =>
    have hp := h p (by simp)
    subst hp
    simp only [keyCountList, keyCountOpt]
    rw [ih (fun q hq => h q (by simp [hq]))]

theorem keyCountList_eq (cs : List (Option BTreeNode))
    (h : ∀ p ∈ cs, keyCountOpt p = (inorderOpt p).length) :
    keyCountList cs = ((cs.map inorderOpt).map List.length).sum := by
  induction cs with
  | nil => rfl
  | cons p cs ih =>
    simp only [keyCountList, List.map_cons, List.sum_cons]
    rw [h p (by simp), ih (fun q hq => h q (by simp [hq]))]

theorem shaped_keyCount (t : Int) : ∀ (h : Nat) (n : BTreeNode), Shaped t h n →
    keyCount n = (inorder n).length := by
  intro h
  induction h with
  | zero =>
    intro n hs
    cases n with | mk l ks cs => ?_
    rw [shaped_zero] at hs
    simp only [leaf, children] at hs
    obtain ⟨hl, hnone⟩ := hs
    subst hl
    rw [inorder_leaf]
    simp only [keyCount]
    rw [keyCountList_none cs hnone]
    rfl
  | succ h ih =>
    intro n hs
    cases n with | mk l ks cs => ?_
    rw [shaped_succ] at hs
    simp only [leaf, keys, children] at hs
    obtain ⟨hl, hlen, hch⟩ := hs
    subst hl
    rw [inorder_internal, interleave_length _ _ (by simp; omega)]
    simp only [keyCount]
    rw [keyCountList_eq cs]
    · omega
    · intro p hp
      obtain ⟨c, rfl, _, _, hc⟩ := hch p hp
      simp only [keyCountOpt, inorderOpt]
      exact ih c hc

theorem build_append (t : Int) (ks : List Int) (k : Int) :
    build t (ks ++ [k]) = (build t ks >>= fun T => BTree.insert T k) := by
  unfold build
  cases BTree.new t with
  | error e => rfl
  | ok T0 =>
    simp only [ok_bind, List.foldlM_append]
    cases List.foldlM BTree.insert T0 ks with
    | error e => rfl
    | ok T =>
      simp only [ok_bind, List.foldlM]
      cases BTree.insert T k <;> rfl

/-- Claim C23: for every minimum degree `t >= 2`, every tree built by inserts and every key
`k`, stored already or not, `insert k` returns; it is the tree built from the longer key
list, its number of stored keys is one more than before, its in-order traversal is the
non-decreasing sorted list of all inserted keys with their multiplicity, and `search` finds
every inserted key at a position that holds it. -/
theorem insert_keeps_every_key (t : Int) (ht : 2 ≤ t) (ks : List Int) (k : Int) :
    ∃ T T1, build t ks = .ok T ∧ BTree.insert T k = .ok T1 ∧ build t (ks ++ [k]) = .ok T1 ∧
      keyCount T1.root = keyCount T.root + 1 ∧
      keyCount T1.root = (ks ++ [k]).length ∧
      inorder T1.root = (ks ++ [k]).insertionSort (· ≤ ·) ∧
      ∀ x ∈ ks ++ [k], ∃ n i, search T1 x = .ok (some (n, i)) ∧ n.key i = .ok x := by
  obtain ⟨T, h, hT, hdeg, hinv, hperm⟩ := build_spec t ht ks
  obtain ⟨tm, rfl⟩ : ∃ tm : Nat, t = (tm : Int) + 1 := ⟨(t - 1).toNat, by omega⟩
  obtain ⟨T1, hT1, hdeg1, hinv1, hperm1⟩ := insert_spec tm (by omega) T k h hdeg hinv
  have hb : build ((tm : Int) + 1) (ks ++ [k]) = .ok T1 := by
    rw [build_append, hT, ok_bind, hT1]
  have hperm2 : (inorder T1.root).Perm (ks ++ [k]) :=
    hperm1.trans ((List.Perm.cons k hperm).trans (List.perm_append_singleton k ks).symm)
  have hc : keyCount T.root = (inorder T.root).length := shaped_keyCount _ _ _ hinv.1
  have hsorted1 : List.Pairwise (· ≤ ·) (inorder T1.root) := by
    rcases hinv1 with h1 | h1 <;> exact h1.2.2
  have hc1 : keyCount T1.root = (inorder T1.root).length := by
    rcases hinv1 with h1 | h1 <;> exact shaped_keyCount _ _ _ h1.1
  refine ⟨T, T1, hT, hT1, hb, ?_, ?_, ?_, ?_⟩
  · rw [hc, hc1, hperm1.length_eq]
    rfl
  · rw [hc1, hperm2.length_eq]
  · apply List.eq_of_perm_of_sorted (r := (· ≤ ·))
    · exact hperm2.trans (List.perm_insertionSort _ _).symm
    · exact hsorted1
    · exact List.sorted_insertionSort _ _
  · intro x hx
    have hmem : x ∈ inorder T1.root := hperm2.mem_iff.mpr hx
    have hsearch : ∀ (h1 : Nat), Shaped T1.minDegree h1 T1.root →
        ∃ n i, search T1 x = .ok (some (n, i)) ∧ n.key i = .ok x := by
      intro h1 hs1
      obtain ⟨hfound, _⟩ := search_spec T1.minDegree x h1 T1.root T1.root.height hs1 hsorted1
        (shaped_height _ _ _ hs1)
      obtain ⟨p, n, i, hn, _, hkey⟩ := hfound hmem
      exact ⟨n, i, hn, hkey⟩
    rcases hinv1 with h1 | h1
    · exact hsearch _ h1.1
    · exact hsearch _ h1.1

theorem insert_keeps_every_key_witness :
    (2 : Int) ≤ 2 ∧
    ∃ T T1, build 2 [10, 20, 10, 30] = .ok T ∧ BTree.insert T 20 = .ok T1 ∧
      build 2 ([10, 20, 10, 30] ++ [20]) = .ok T1 ∧
      keyCount T1.root = keyCount T.root + 1 ∧
      keyCount T1.root = ([10, 20, 10, 30] ++ [20]).length ∧
      inorder T1.root = ([10, 20, 10, 30] ++ [20]).insertionSort (· ≤ ·) ∧
      ∀ x ∈ [10, 20, 10, 30] ++ [20],
        ∃ n i, search T1 x = .ok (some (n, i)) ∧ n.key i = .ok x :=
  ⟨by decide, insert_keeps_every_key 2 (by decide) [10, 20, 10, 30] 20⟩

/-! ## The walks of `predecessor` and `successor` -/

theorem deref_some (c : BTreeNode) : deref (some c) = .ok c := rfl

theorem nodeAt_nil (n : BTreeNode) : nodeAt n [] = .ok n := rfl

theorem nodeAt_cons (n c : BTreeNode) (j : Int) (p : NodePath)
    (h : n.getChild j = .ok (some c)) : nodeAt n (j :: p) = nodeAt c p := by
  simp only [nodeAt, h, ok_bind, deref_some]

theorem modifyAt_cons (f : BTreeNode → Except Fault BTreeNode) (n c c1 : BTreeNode) (j : Int)
    (p : NodePath) (h : n.getChild j = .ok (some c)) (h1 : modifyAt f c p = .ok c1) :
    modifyAt f n (j :: p) = n.setChild j (some c1) := by
  simp only [modifyAt, h, ok_bind, deref_some, h1]

/-- The traversal of an internal node around the child at position `pre.length`. -/
theorem inorder_around_child (ks : List Int) (pre suf : List (Option BTreeNode))
    (c : BTreeNode) (hpre : pre.length ≤ ks.length) :
    inorder (mk false ks (pre ++ some c :: suf))
      = interleave (pre.map inorderOpt) (ks.take pre.length) ++ inorder c
        ++ interleave ([] :: suf.map inorderOpt) (ks.drop pre.length) := by
  rw [inorder_internal, List.map_append, List.map_cons]
  have e : ks = ks.take pre.length ++ ks.drop pre.length := (List.take_append_drop _ _).symm
  conv_lhs => rw [e]
  rw [interleave_split _ _ _ _ _ (by simp; omega)]
  rfl

theorem lastPath_spec (t : Int) (ht : 2 ≤ t) : ∀ (h : Nat) (c : BTreeNode) (fuel : Nat),
    Shaped t h c → 1 ≤ c.size → h + 1 ≤ fuel →
    ∃ p lf init, lastPath fuel c = .ok p ∧ LastWalk c p ∧ nodeAt c p = .ok lf ∧
      lf.leaf = true ∧ 1 ≤ lf.size ∧ inorder c = init ++ lf.keys := by
  intro h
  induction h with
  | zero =>
    intro c fuel hs hsz hf
    obtain ⟨f, rfl⟩ : ∃ f, fuel = f + 1 := ⟨fuel - 1, by omega⟩
    cases c with | mk l ks cs => ?_
    rw [shaped_zero] at hs
    simp only [leaf] at hs
    obtain ⟨hl, _⟩ := hs
    subst hl
    refine ⟨[], mk true ks cs, [], ?_, ?_, rfl, rfl, hsz, ?_⟩
    · simp [lastPath, leaf]
    · simp [LastWalk, leaf]
    · simp [inorder_leaf, keys]
  | succ h ih =>
    intro c fuel hs hsz hf
    obtain ⟨f, rfl⟩ : ∃ f, fuel = f + 1 := ⟨fuel - 1, by omega⟩
    cases c with | mk l ks cs => ?_
    have hs0 := hs
    rw [shaped_succ] at hs
    simp only [leaf, keys, children] at hs
    obtain ⟨hl, hlen, hch⟩ := hs
    subst hl
    obtain ⟨pre, p0, rfl⟩ : ∃ pre p0, cs = pre ++ [p0] := by
      rcases List.eq_nil_or_concat cs with h1 | ⟨l, a, h1⟩
      · simp [h1] at hlen
      · exact ⟨l, a, by simpa using h1⟩
    obtain ⟨cl, rfl, hcl1, _, hclS⟩ := hch p0 (by simp)
    have hpre : pre.length = ks.length := by simpa using hlen
    obtain ⟨p, lf, init, hp, hw, hn, hlf, hlfsz, hin⟩ := ih cl f hclS (by omega) (by omega)
    have hget : (mk false ks (pre ++ [some cl])).getChild (mk false ks (pre ++ [some cl])).size
        = .ok (some cl) := by
      rw [size_mk, ← hpre]
      exact getChild_mid false ks pre [] (some cl)
    rw [size_mk] at hget
    refine ⟨(ks.length : Int) :: p, lf,
      interleave (pre.map inorderOpt) (ks.take pre.length) ++ init, ?_, ?_, ?_, hlf, hlfsz, ?_⟩
    · simp only [lastPath, leaf, Bool.false_eq_true, if_false, hget, ok_bind, deref_some, hp,
        pure_eq_ok, size_mk]
    · simp only [LastWalk, leaf, children, List.length_append, List.length_singleton,
        List.getLast?_append, List.getLast?_singleton]
      refine ⟨trivial, by push_cast; omega, cl, by simp, hw⟩
    · rw [nodeAt_cons _ cl _ _ hget]
      exact hn
    · rw [inorder_around_child ks pre [] cl (by omega), hin]
      have : ks.drop pre.length = [] := by rw [hpre]; simp
      rw [this]
      simp only [List.map_nil, interleave, List.append_nil, List.nil_append, List.append_assoc]

theorem firstPath_spec (t : Int) (ht : 2 ≤ t) : ∀ (h : Nat) (c : BTreeNode) (fuel : Nat),
    Shaped t h c → 1 ≤ c.size → h + 1 ≤ fuel →
    ∃ p lf rest, firstPath fuel c = .ok p ∧ FirstWalk c p ∧ nodeAt c p = .ok lf ∧
      lf.leaf = true ∧ 1 ≤ lf.size ∧ inorder c = lf.keys ++ rest ∧
      ∀ (f : BTreeNode → Except Fault BTreeNode) (lf1 : BTreeNode), f lf = .ok lf1 →
        ∃ c1, modifyAt f c p = .ok c1 ∧ inorder c1 = inorder lf1 ++ rest := by
  intro h
  induction h with
  | zero =>
    intro c fuel hs hsz hf
    obtain ⟨f, rfl⟩ : ∃ f, fuel = f + 1 := ⟨fuel - 1, by omega⟩
    cases c with | mk l ks cs => ?_
    rw [shaped_zero] at hs
    simp only [leaf] at hs
    obtain ⟨hl, _⟩ := hs
    subst hl
    refine ⟨[], mk true ks cs, [], ?_, ?_, rfl, rfl, hsz, ?_, ?_⟩
    · simp [firstPath, leaf]
    · simp [FirstWalk, leaf]
    · simp [inorder_leaf, keys]
    · intro g lf1 hg
      exact ⟨lf1, by simpa [modifyAt] using hg, by simp⟩
  | succ h ih =>
    intro c fuel hs hsz hf
    obtain ⟨f, rfl⟩ : ∃ f, fuel = f + 1 := ⟨fuel - 1, by omega⟩
    cases c with | mk l ks cs => ?_
    rw [shaped_succ] at hs
    simp only [leaf, keys, children] at hs
    obtain ⟨hl, hlen, hch⟩ := hs
    subst hl
    cases cs with
    | nil => simp at hlen
    | cons p0 suf =>
      obtain ⟨cf, rfl, hcf1, _, hcfS⟩ := hch p0 (by simp)
      obtain ⟨p, lf, rest, hp, hw, hn, hlf, hlfsz, hin, hmod⟩ :=
        ih cf f hcfS (by omega) (by omega)
      have hget : (mk false ks (some cf :: suf)).getChild 0 = .ok (some cf) :=
        getChild_mid false ks [] suf (some cf)
      have hio : ∀ x : BTreeNode, inorder (mk false ks (some x :: suf))
          = inorder x ++ interleave ([] :: suf.map inorderOpt) ks := by
        intro x
        have := inorder_around_child ks [] suf x (by simp)
        simpa [interleave] using this
      refine ⟨0 :: p, lf, rest ++ interleave ([] :: suf.map inorderOpt) ks, ?_, ?_, ?_, hlf,
        hlfsz, ?_, ?_⟩
      · simp only [firstPath, leaf, Bool.false_eq_true, if_false, hget, ok_bind, deref_some, hp,
          pure_eq_ok]
      · simp only [FirstWalk, leaf, children, List.head?_cons]
        exact ⟨trivial, trivial, cf, rfl, hw⟩
      · rw [nodeAt_cons _ cf _ _ hget]
        exact hn
      · rw [hio, hin, List.append_assoc]
      · intro g lf1 hg
        obtain ⟨c1, hc1, hc1io⟩ := hmod g lf1 hg
        refine ⟨mk false ks (some c1 :: suf), ?_, ?_⟩
        · rw [modifyAt_cons g _ cf c1 0 p hget hc1]
          exact setChild_mid false ks [] suf (some cf) (some c1)
        · rw [hio, hc1io, List.append_assoc]

/-! ## A node inside a tree -/

theorem getChild_ok_split (n : BTreeNode) (j : Int) (pc : Option BTreeNode)
    (h : n.getChild j = .ok pc) :
    ∃ pre suf, n.children = pre ++ pc :: suf ∧ j = (pre.length : Int) := by
  unfold getChild at h
  rw [vecGet_eq_ok] at h
  obtain ⟨pre, suf, h1, h2⟩ := split_at_getElem? _ _ _ h.2
  exact ⟨pre, suf, h1, by omega⟩

/-- A node reached through a pointer from a shaped node is shaped, holds at least `t - 1` keys
unless it is the start node, and its traversal is a contiguous part of the traversal of the
start node. -/
theorem nodeAt_shaped (t : Int) : ∀ (q : NodePath) (H : Nat) (root node : BTreeNode),
    Shaped t H root → nodeAt root q = .ok node →
    ∃ h X Y, Shaped t h node ∧ inorder root = X ++ inorder node ++ Y ∧
      (q ≠ [] → t - 1 ≤ node.size) := by
  intro q
  induction q with
  | nil =>
    intro H root node hs hq
    rw [nodeAt_nil] at hq
    have := Except.ok.inj hq
    subst this
    exact ⟨H, [], [], hs, by simp, fun h => absurd rfl h⟩
  | cons j q ih =>
    intro H root node hs hq
    simp only [nodeAt] at hq
    cases hg : root.getChild j with
    | error e => rw [hg] at hq; simp [error_bind] at hq
    | ok pc =>
      rw [hg, ok_bind] at hq
      cases pc with
      | none => simp [deref, error_bind] at hq
      | some c =>
        rw [deref_some, ok_bind] at hq
        obtain ⟨pre, suf, hcs, hj⟩ := getChild_ok_split root j (some c) hg
        cases root with | mk l ks cs => ?_
        simp only [children] at hcs
        subst hcs
        cases H with
        | zero =>
          rw [shaped_zero] at hs
          have := hs.2 (some c) (by simp [children])
          exact absurd this (by simp)
        | succ H =>
          rw [shaped_succ] at hs
          simp only [leaf, keys, children] at hs
          obtain ⟨hl, hlen, hch⟩ := hs
          subst hl
          obtain ⟨c0, hc0, hc1, _, hcS⟩ := hch (some c) (by simp)
          have := Option.some.inj hc0
          subst this
          obtain ⟨h, X, Y, hnS, hio, hsz⟩ := ih H c node hcS hq
          refine ⟨h, interleave (pre.map inorderOpt) (ks.take pre.length) ++ X,
            Y ++ interleave ([] :: suf.map inorderOpt) (ks.drop pre.length), hnS, ?_, ?_⟩
          · rw [inorder_around_child ks pre suf c (by simp at hlen; omega), hio]
            simp only [List.append_assoc]
          · intro _
            by_cases hq0 : q = []
            · subst hq0
              rw [nodeAt_nil] at hq
              have := Except.ok.inj hq
              subst this
              exact hc1
            · exact hsz hq0

/-- In a strictly increasing list, two neighbours bound everything around them. -/
theorem sorted_neighbours (Lft Rgt : List Int) (a b : Int)
    (h : List.Pairwise (· < ·) (Lft ++ a :: b :: Rgt)) :
    a < b ∧ (∀ x ∈ Lft, x < a) ∧ (∀ x ∈ Rgt, b < x) ∧
      (∀ x ∈ Lft ++ a :: b :: Rgt, x < b → x ≤ a) ∧
      (∀ x ∈ Lft ++ a :: b :: Rgt, a < x → b ≤ x) := by
  rw [List.pairwise_append, List.pairwise_cons, List.pairwise_cons] at h
  obtain ⟨_, ⟨ha, hb, _⟩, hx⟩ := h
  have hab : a < b := ha b (by simp)
  have hL : ∀ x ∈ Lft, x < a := fun x hx1 => hx x hx1 a (by simp)
  have hR : ∀ x ∈ Rgt, b < x := fun x hx1 => hb x hx1
  refine ⟨hab, hL, hR, ?_, ?_⟩
  · intro x hxm hxb
    simp only [List.mem_append, List.mem_cons] at hxm
    rcases hxm with h1 | h1 | h1 | h1
    · exact le_of_lt (hL x h1)
    · omega
    · omega
    · have := hR x h1; omega
  · intro x hxm hxa
    simp only [List.mem_append, List.mem_cons] at hxm
    rcases hxm with h1 | h1 | h1 | h1
    · have := hL x h1; omega
    · omega
    · omega
    · exact le_of_lt (hR x h1)

/-- The keys and children of an internal shaped node around a key index, and its traversal
around that key. -/
theorem shaped_around_key (t : Int) (h : Nat) (ks : List Int) (cs : List (Option BTreeNode))
    (i : Nat) (k : Int) (hs : Shaped t (h + 1) (mk false ks cs)) (hk : ks[i]? = some k) :
    ∃ ka kb pre suf cl cr, ks = ka ++ k :: kb ∧ cs = pre ++ some cl :: some cr :: suf ∧
      ka.length = i ∧ pre.length = i ∧
      t - 1 ≤ cl.size ∧ t - 1 ≤ cr.size ∧ Shaped t h cl ∧ Shaped t h cr ∧
      inorder (mk false ks cs)
        = (interleave (pre.map inorderOpt) ka ++ inorder cl)
          ++ k :: (inorder cr ++ interleave ([] :: suf.map inorderOpt) kb) := by
  rw [shaped_succ] at hs
  simp only [leaf, keys, children] at hs
  obtain ⟨_, hlen, hch⟩ := hs
  obtain ⟨ka, kb, rfl, hka⟩ := split_at_getElem? ks i k hk
  obtain ⟨pre, pl, suf0, rfl, hpre, hsuf0⟩ := split_at_index cs i (by simp at hlen; omega)
  cases suf0 with
  | nil => simp at hlen hsuf0; omega
  | cons pr suf =>
    obtain ⟨cl, rfl, hcl1, _, hclS⟩ := hch pl (by simp)
    obtain ⟨cr, rfl, hcr1, _, hcrS⟩ := hch pr (by simp)
    refine ⟨ka, kb, pre, suf, cl, cr, rfl, rfl, hka, hpre, hcl1, hcr1, hclS, hcrS, ?_⟩
    rw [inorder_internal]
    have e : (pre ++ some cl :: some cr :: suf).map inorderOpt
        = (pre.map inorderOpt ++ [inorder cl]) ++ (inorder cr :: suf.map inorderOpt) := by
      simp [inorderOpt]
    rw [e, interleave_split_key ka _ _ k kb (by simp; omega)]
    have e2 : interleave (pre.map inorderOpt ++ [inorder cl]) ka
        = interleave (pre.map inorderOpt) ka ++ inorder cl := by
      have := interleave_split (pre.map inorderOpt) ka (inorder cl) [] [] (by simp; omega)
      simpa [interleave] using this
    rw [e2, interleave_cons (inorder cr)]

/-- Claim C22: in every tree of minimum degree `t >= 2` that satisfies the B-tree invariants
(shape, occupancy, strictly increasing traversal), for every internal node and every key
index `i` with key `k`: `predecessor(node, i)` returns the leaf reached from `children[i]` by
taking the last child at every node; the last key of that leaf is the greatest key of the
subtree of `children[i]` and the greatest stored key smaller than `k`. `successor(node, i)`
returns the leaf reached from `children[i + 1]` by taking the first child at every node; the
first key of that leaf is the least key of that subtree and the least stored key greater than
`k`. -/
theorem predecessor_successor_spec (t : Int) (ht : 2 ≤ t) (H : Nat) (root node : BTreeNode)
    (q : NodePath) (i : Nat) (k : Int)
    (hs : Shaped t H root) (hsorted : List.Pairwise (· < ·) (inorder root))
    (hq : nodeAt root q = .ok node) (hleaf : node.leaf = false)
    (hk : node.keys[i]? = some k) :
    (∃ c p lf m, node.children[i]? = some (some c) ∧
        predecessor node.height node i = .ok ((i : Int) :: p) ∧ LastWalk c p ∧
        nodeAt node ((i : Int) :: p) = .ok lf ∧ lf.leaf = true ∧ lf.keys.getLast? = some m ∧
        m ∈ inorder c ∧ (∀ x ∈ inorder c, x ≤ m) ∧ m < k ∧
        ∀ x ∈ inorder root, x < k → x ≤ m) ∧
    (∃ c p lf m, node.children[i + 1]? = some (some c) ∧
        successor node.height node i = .ok (((i : Int) + 1) :: p) ∧ FirstWalk c p ∧
        nodeAt node (((i : Int) + 1) :: p) = .ok lf ∧ lf.leaf = true ∧
        lf.keys.head? = some m ∧
        m ∈ inorder c ∧ (∀ x ∈ inorder c, m ≤ x) ∧ k < m ∧
        ∀ x ∈ inorder root, k < x → m ≤ x) := by
  obtain ⟨h0, X, Y, hnS, hio, _⟩ := nodeAt_shaped t q H root node hs hq
  cases node with | mk l ks cs => ?_
  simp only [leaf] at hleaf
  subst hleaf
  simp only [keys] at hk
  cases h0 with
  | zero =>
    rw [shaped_zero] at hnS
    exact absurd hnS.1 (by simp [leaf])
  | succ h =>
    have hheight := shaped_height_eq t _ _ hnS
    obtain ⟨ka, kb, pre, suf, cl, cr, rfl, rfl, hka, hpre, hcl1, hcr1, hclS, hcrS, hnio⟩ :=
      shaped_around_key t h ks cs i k hnS hk
    rw [hheight]
    rw [hnio] at hio
    constructor
    · obtain ⟨p, lf, init, hp, hw, hn, hlf, hlfsz, hin⟩ :=
        lastPath_spec t ht h cl (h + 1 + 1) hclS (by omega) (by omega)
      obtain ⟨front, m, hfm⟩ : ∃ front m, lf.keys = front ++ [m] := by
        rcases List.eq_nil_or_concat lf.keys with h1 | ⟨l, a, h1⟩
        · simp [size, h1] at hlfsz
        · exact ⟨l, a, by simpa using h1⟩
      have hroot : inorder root
          = (X ++ interleave (pre.map inorderOpt) ka ++ init ++ front)
            ++ m :: k :: (inorder cr ++ interleave ([] :: suf.map inorderOpt) kb ++ Y) := by
        rw [hio, hin, hfm]
        simp only [List.append_assoc, List.cons_append, List.nil_append]
      rw [hroot] at hsorted
      obtain ⟨hmk, hL, _, hbelow, _⟩ := sorted_neighbours _ _ m k hsorted
      have hget : (mk false (ka ++ k :: kb) (pre ++ some cl :: some cr :: suf)).getChild (i : Int)
          = .ok (some cl) := by
        rw [← hpre]
        exact getChild_mid _ _ pre _ (some cl)
      refine ⟨cl, p, lf, m, ?_, ?_, hw, ?_, hlf, ?_, ?_, ?_, hmk, ?_⟩
      · simp only [children]; rw [← hpre]; exact getElem?_mid pre _ (some cl)
      · simp only [predecessor, hget, ok_bind, deref_some, hp, pure_eq_ok]
      · rw [nodeAt_cons _ cl _ _ hget]; exact hn
      · rw [hfm]; simp
      · rw [hin, hfm]; simp
      · intro x hx
        rw [hin, hfm] at hx
        simp only [List.mem_append, List.mem_singleton] at hx
        rcases hx with h1 | h1 | h1
        · exact le_of_lt (hL x (by simp [h1]))
        · exact le_of_lt (hL x (by simp [h1]))
        · omega
      · intro x hx hxk
        rw [hroot] at hx
        exact hbelow x hx hxk
    · obtain ⟨p, lf, rest, hp, hw, hn, hlf, hlfsz, hin, _⟩ :=
        firstPath_spec t ht h cr (h + 1 + 1) hcrS (by omega) (by omega)
      obtain ⟨m, back, hmb⟩ : ∃ m back, lf.keys = m :: back := by
        cases hkeys : lf.keys with
        | nil => simp [size, hkeys] at hlfsz
        | cons a l => exact ⟨a, l, rfl⟩
      have hroot : inorder root
          = (X ++ interleave (pre.map inorderOpt) ka ++ inorder cl)
            ++ k :: m :: (back ++ rest ++ interleave ([] :: suf.map inorderOpt) kb ++ Y) := by
        rw [hio, hin, hmb]
        simp only [List.append_assoc, List.cons_append, List.nil_append]
      rw [hroot] at hsorted
      obtain ⟨hkm, _, hR, _, habove⟩ := sorted_neighbours _ _ k m hsorted
      have hcs : pre ++ some cl :: some cr :: suf = (pre ++ [some cl]) ++ some cr :: suf := by
        simp
      have hlen1 : (pre ++ [some cl]).length = i + 1 := by simp [hpre]
      have hget : (mk false (ka ++ k :: kb) (pre ++ some cl :: some cr :: suf)).getChild
          ((i : Int) + 1) = .ok (some cr) := by
        rw [hcs]
        have e : (i : Int) + 1 = (((pre ++ [some cl]).length : Nat) : Int) := by
          rw [hlen1]; push_cast; rfl
        rw [e]
        exact getChild_mid _ _ (pre ++ [some cl]) _ (some cr)
      refine ⟨cr, p, lf, m, ?_, ?_, hw, ?_, hlf, ?_, ?_, ?_, hkm, ?_⟩
      · simp only [children]; rw [hcs, ← hlen1]; exact getElem?_mid (pre ++ [some cl]) _ (some cr)
      · simp only [successor, hget, ok_bind, deref_some, hp, pure_eq_ok]
      · rw [nodeAt_cons _ cr _ _ hget]; exact hn
      · rw [hmb]; simp
      · rw [hin, hmb]; simp
      · intro x hx
        rw [hin, hmb] at hx
        simp only [List.cons_append, List.mem_cons, List.mem_append] at hx
        rcases hx with h1 | h1 | h1
        · omega
        · exact le_of_lt (hR x (by simp [h1]))
        · exact le_of_lt (hR x (by simp [h1]))
      · intro x hx hxk
        rw [hroot] at hx
        exact habove x hx hxk

theorem exTreeTwenty_shaped : Shaped 3 2 exTreeTwenty.root := by
  simp [exTreeTwenty, exLeaf, shaped_succ, shaped_zero, leaf, keys, children, size]

theorem predecessor_successor_spec_witness :
    (2 : Int) ≤ 3 ∧ Shaped 3 2 exTreeTwenty.root ∧
    List.Pairwise (· < ·) (inorder exTreeTwenty.root) ∧
    nodeAt exTreeTwenty.root [0]
      = .ok (mk false [3, 6] [exLeaf [1, 2], exLeaf [4, 5], exLeaf [7, 8]]) ∧
    (∃ c p lf m,
        (mk false [3, 6] [exLeaf [1, 2], exLeaf [4, 5], exLeaf [7, 8]]).children[1]?
          = some (some c) ∧
        predecessor (mk false [3, 6] [exLeaf [1, 2], exLeaf [4, 5], exLeaf [7, 8]]).height
          (mk false [3, 6] [exLeaf [1, 2], exLeaf [4, 5], exLeaf [7, 8]]) (1 : Nat)
          = .ok (((1 : Nat) : Int) :: p) ∧ LastWalk c p ∧
        nodeAt (mk false [3, 6] [exLeaf [1, 2], exLeaf [4, 5], exLeaf [7, 8]])
          (((1 : Nat) : Int) :: p) = .ok lf ∧ lf.leaf = true ∧ lf.keys.getLast? = some m ∧
        m ∈ inorder c ∧ (∀ x ∈ inorder c, x ≤ m) ∧ m < 6 ∧
        ∀ x ∈ inorder exTreeTwenty.root, x < 6 → x ≤ m) ∧
    (∃ c p lf m,
        (mk false [3, 6] [exLeaf [1, 2], exLeaf [4, 5], exLeaf [7, 8]]).children[1 + 1]?
          = some (some c) ∧
        successor (mk false [3, 6] [exLeaf [1, 2], exLeaf [4, 5], exLeaf [7, 8]]).height
          (mk false [3, 6] [exLeaf [1, 2], exLeaf [4, 5], exLeaf [7, 8]]) (1 : Nat)
          = .ok ((((1 : Nat) : Int) + 1) :: p) ∧ FirstWalk c p ∧
        nodeAt (mk false [3, 6] [exLeaf [1, 2], exLeaf [4, 5], exLeaf [7, 8]])
          ((((1 : Nat) : Int) + 1) :: p) = .ok lf ∧ lf.leaf = true ∧
        lf.keys.head? = some m ∧
        m ∈ inorder c ∧ (∀ x ∈ inorder c, m ≤ x) ∧ 6 < m ∧
        ∀ x ∈ inorder exTreeTwenty.root, 6 < x → m ≤ x) :=
  ⟨by decide, exTreeTwenty_shaped, by decide!, by decide!,
    predecessor_successor_spec 3 (by decide) 2 exTreeTwenty.root
      (mk false [3, 6] [exLeaf [1, 2], exLeaf [4, 5], exLeaf [7, 8]]) [0] 1 6
      exTreeTwenty_shaped (by decide!) (by decide!) rfl (by decide)⟩

/-! ## Erasing a key found in an internal node through its successor -/

theorem eraseScan_found (key : Int) (n : BTreeNode) :
    ∀ (ka pre kb : List Int) (cnt : Nat) (idx : Int), n.keys = pre ++ (ka ++ key :: kb) →
      cnt = (ka ++ key :: kb).length → idx = (pre.length : Int) →
      (∀ k ∈ ka, k < key) →
      eraseScan key n cnt idx = .ok (EraseScan.found ((pre.length : Int) + (ka.length : Int))) := by
  intro ka
  induction ka with
  | nil =>
    intro pre kb cnt idx hn hcnt hidx _
    subst hcnt hidx
    simp only [List.nil_append, List.length_cons, eraseScan]
    rw [key_at n pre kb key _ (by simpa using hn) rfl]
    simp [ok_bind, pure_eq_ok]
  | cons a ka ih =>
    intro pre kb cnt idx hn hcnt hidx ha
    subst hcnt hidx
    have ha1 : a < key := ha a (by simp)
    have ha2 : ¬ a = key := by omega
    have ha3 : ¬ a > key := by omega
    simp only [List.cons_append, List.length_cons, eraseScan]
    rw [key_at n pre (ka ++ key :: kb) a _ (by simpa using hn) rfl]
    simp only [ok_bind, ha2, ha3, if_false]
    refine (ih (pre ++ [a]) kb _ _ ?_ ?_ ?_ (fun k hk => ha k (by simp [hk]))).trans ?_
    · simpa using hn
    · rfl
    · simp
    · congr 2
      simp
      omega

/-- Erasing the first key of a leaf that is the start node of `_erase`. -/
theorem _erase_leaf_first (t : Int) (f : Nat) (m : Int) (ks : List Int)
    (cs : List (Option BTreeNode)) :
    _erase t (f + 1) (mk true (m :: ks) cs) m
      = .ok (mk true ks
          (cs.take (ks.length + 1) ++ List.replicate (ks.length + 1 - cs.length) none)) := by
  have hscan : eraseScan m (mk true (m :: ks) cs) (mk true (m :: ks) cs).size.toNat 0
      = .ok (EraseScan.found 0) := by
    have := eraseScan_found m (mk true (m :: ks) cs) [] [] ks (ks.length + 1) 0
      (by simp [keys]) (by simp) (by simp) (by simp)
    simpa [size_mk] using this
  have hleaf : leafScan m (mk true (m :: ks) cs) 0 (mk true (m :: ks) cs).size.toNat 0
      = .ok 0 := by
    have e : (mk true (m :: ks) cs).size.toNat = ks.length + 1 := by simp [size_mk]
    rw [e]
    simp only [leafScan]
    rw [key_at _ [] ks m 0 (by simp [keys]) (by simp)]
    simp [ok_bind, pure_eq_ok]
  have herase : (mk true (m :: ks) cs).eraseKey 0 = .ok (mk true ks cs) := by
    simp [eraseKey, vecErase, keys, leaf, children, ok_bind, pure_eq_ok]
  simp only [_erase, hscan, ok_bind, eraseTail, leaf, if_true, hleaf]
  simp only [ne_eq, show ¬ ((0 : Int) = -1) by decide, not_false_eq_true, if_true, herase,
    ok_bind]
  rw [resize_at _ ks.length _ (by simp [size_mk])]
  simp [leaf, keys, children]

/-- Claim C21: for every minimum degree `t >= 2`, in a node of a tree with the B-tree invariants
whose key at index `i` is the erased key, whose left child has exactly `t - 1` keys and whose
right child has at least `t` keys, the round of `_erase` that finds the key at this node
returns the node with the same number of keys and children; its key at index `i` is the
former least key of the right subtree, that key no longer occurs in the right subtree, whose
traversal has lost just it, the left child is the same, and the traversal of the node has lost
just the erased key. -/
theorem erase_successor_swap (t : Int) (ht : 2 ≤ t) (h : Nat) (node lc rc : BTreeNode) (i : Nat)
    (key : Int) (fuel : Nat)
    (hs : Shaped t (h + 1) node) (hsorted : List.Pairwise (· < ·) (inorder node))
    (hk : node.keys[i]? = some key)
    (hL : node.children[i]? = some (some lc)) (hR : node.children[i + 1]? = some (some rc))
    (hLsz : lc.size = t - 1) (hRsz : t ≤ rc.size) (hf : h + 1 ≤ fuel) :
    ∃ node1 rc1 m, _erase t (fuel + 1) node key = .ok node1 ∧
      node1.keys = node.keys.set i m ∧
      node1.children = node.children.set (i + 1) (some rc1) ∧
      node1.keys.length = node.keys.length ∧
      node1.children.length = node.children.length ∧
      node1.keys[i]? = some m ∧
      node1.children[i]? = some (some lc) ∧
      node1.children[i + 1]? = some (some rc1) ∧
      (inorder rc).head? = some m ∧ (∀ x ∈ inorder rc, m ≤ x) ∧
      inorder rc1 = (inorder rc).tail ∧ m ∉ inorder rc1 ∧
      inorder node1 = (inorder node).erase key := by
  cases node with | mk l ks cs => ?_
  have hl : l = false := by
    rw [shaped_succ] at hs
    exact hs.1
  subst hl
  simp only [keys, children] at hk hL hR
  obtain ⟨ka, kb, pre, suf, cl, cr, rfl, rfl, hka, hpre, hcl1, hcr1, hclS, hcrS, hnio⟩ :=
    shaped_around_key t h ks cs i key hs hk
  have hcs : pre ++ some cl :: some cr :: suf = (pre ++ [some cl]) ++ some cr :: suf := by simp
  have hlen1 : (pre ++ [some cl]).length = i + 1 := by simp [hpre]
  have e1 : cl = lc := by
    rw [← hpre, getElem?_mid] at hL
    exact Option.some.inj (Option.some.inj hL)
  have e2 : cr = rc := by
    rw [hcs, ← hlen1, getElem?_mid] at hR
    exact Option.some.inj (Option.some.inj hR)
  subst e1 e2
  obtain ⟨p, lf, rest, hp, hw, hn, hlf, hlfsz, hin, hmod⟩ :=
    firstPath_spec t ht h cr fuel hcrS (by omega) hf
  cases lf with | mk ll lks lcs => ?_
  simp only [leaf] at hlf
  subst hlf
  obtain ⟨m, back, hmb⟩ : ∃ m back, lks = m :: back := by
    cases lks with
    | nil => simp [size_mk] at hlfsz
    | cons a l => exact ⟨a, l, rfl⟩
  subst hmb
  have hleafErase : _erase t fuel (mk true (m :: back) lcs) m
      = .ok (mk true back
          (lcs.take (back.length + 1) ++ List.replicate (back.length + 1 - lcs.length) none)) := by
    obtain ⟨f, rfl⟩ : ∃ f, fuel = f + 1 := ⟨fuel - 1, by omega⟩
    exact _erase_leaf_first t f m back lcs
  obtain ⟨rc1, hrc1, hrc1io⟩ := hmod (fun n => _erase t fuel n m) _ hleafErase
  rw [inorder_leaf] at hrc1io
  simp only [keys] at hin
  -- the order around the erased key
  have hnode : inorder (mk false (ka ++ key :: kb) (pre ++ some cl :: some cr :: suf))
      = (interleave (pre.map inorderOpt) ka ++ inorder cl)
        ++ key :: m :: (back ++ rest ++ interleave ([] :: suf.map inorderOpt) kb) := by
    rw [hnio, hin]
    simp only [List.append_assoc, List.cons_append]
  rw [hnode] at hsorted
  obtain ⟨hkm, hbefore, hafter, _, _⟩ := sorted_neighbours _ _ key m hsorted
  have hka_lt : ∀ k ∈ ka, k < key := by
    intro k hkmem
    apply hbefore
    have := (keys_sublist_interleave (pre.map inorderOpt) ka).subset hkmem
    simp [this]
  -- the steps of the code
  have hscan : eraseScan key (mk false (ka ++ key :: kb) (pre ++ some cl :: some cr :: suf))
      (mk false (ka ++ key :: kb) (pre ++ some cl :: some cr :: suf)).size.toNat 0
      = .ok (EraseScan.found (i : Int)) := by
    have := eraseScan_found key (mk false (ka ++ key :: kb) (pre ++ some cl :: some cr :: suf))
      ka [] kb (ka ++ key :: kb).length 0 (by simp [keys]) rfl (by simp) hka_lt
    simpa [size_mk, hka] using this
  have hgetL : (mk false (ka ++ key :: kb) (pre ++ some cl :: some cr :: suf)).getChild (i : Int)
      = .ok (some cl) := by
    rw [← hpre]
    exact getChild_mid _ _ pre _ (some cl)
  have ecast : (i : Int) + 1 = (((pre ++ [some cl]).length : Nat) : Int) := by
    rw [hlen1]; push_cast; rfl
  have hgetR : (mk false (ka ++ key :: kb) (pre ++ some cl :: some cr :: suf)).getChild
      ((i : Int) + 1) = .ok (some cr) := by
    rw [hcs, ecast]
    exact getChild_mid _ _ (pre ++ [some cl]) _ (some cr)
  have hsucc : successor fuel (mk false (ka ++ key :: kb) (pre ++ some cl :: some cr :: suf))
      (i : Int) = .ok (((i : Int) + 1) :: p) := by
    simp only [successor, hgetR, ok_bind, deref_some, hp, pure_eq_ok]
  have hnodeAt : nodeAt (mk false (ka ++ key :: kb) (pre ++ some cl :: some cr :: suf))
      (((i : Int) + 1) :: p) = .ok (mk true (m :: back) lcs) := by
    rw [nodeAt_cons _ cr _ _ hgetR]; exact hn
  have hkey0 : (mk true (m :: back) lcs).key 0 = .ok m :=
    key_at _ [] back m 0 (by simp [keys]) (by simp)
  have hmodify : modifyAt (fun n => _erase t fuel n m)
      (mk false (ka ++ key :: kb) (pre ++ some cl :: some cr :: suf)) (((i : Int) + 1) :: p)
      = .ok (mk false (ka ++ key :: kb) (pre ++ some cl :: some rc1 :: suf)) := by
    rw [modifyAt_cons _ _ cr rc1 _ p hgetR hrc1, hcs, ecast,
      setChild_mid false _ (pre ++ [some cl]) suf (some cr) (some rc1)]
    simp
  have hsetKey : (mk false (ka ++ key :: kb) (pre ++ some cl :: some rc1 :: suf)).setKey (i : Int) m
      = .ok (mk false (ka ++ m :: kb) (pre ++ some cl :: some rc1 :: suf)) := by
    rw [← hka]
    exact setKey_mid false ka kb key m _
  have hLge : ¬ cl.size ≥ t := by omega
  have hRge : cr.size ≥ t := hRsz
  have hrun : _erase t (fuel + 1) (mk false (ka ++ key :: kb) (pre ++ some cl :: some cr :: suf))
      key = .ok (mk false (ka ++ m :: kb) (pre ++ some cl :: some rc1 :: suf)) := by
    simp only [_erase, hscan, ok_bind, eraseTail, leaf, Bool.false_eq_true, if_false, hgetL,
      hgetR, deref_some, hLge, hRge, if_true, hsucc, hnodeAt, hkey0, hmodify, hsetKey]
  have hrc1tail : inorder rc1 = (inorder cr).tail := by
    rw [hrc1io, hin]; rfl
  have hm_notin : m ∉ inorder rc1 := by
    rw [hrc1io]
    intro hmem
    have := hafter m (by
      simp only [List.mem_append] at hmem ⊢
      rcases hmem with h1 | h1
      · exact Or.inl (Or.inl h1)
      · exact Or.inl (Or.inr h1))
    omega
  refine ⟨_, rc1, m, hrun, ?_, ?_, ?_, ?_, ?_, ?_, ?_, ?_, ?_, hrc1tail, hm_notin, ?_⟩
  · simp only [keys]
    rw [← hka]
    simp
  · simp only [children]
    rw [hcs, ← hlen1]
    simp
  · simp [keys]
  · simp [children]
  · simp only [keys]
    rw [← hka]; exact getElem?_mid ka kb m
  · simp only [children]
    rw [← hpre]; exact getElem?_mid pre _ (some cl)
  · simp only [children]
    have : pre ++ some cl :: some rc1 :: suf = (pre ++ [some cl]) ++ some rc1 :: suf := by simp
    rw [this, ← hlen1]; exact getElem?_mid (pre ++ [some cl]) suf (some rc1)
  · rw [hin]; rfl
  · intro x hx
    rw [hin] at hx
    simp only [List.cons_append, List.mem_cons, List.mem_append] at hx
    rcases hx with h1 | h1 | h1
    · omega
    · exact le_of_lt (hafter x (by simp [h1]))
    · exact le_of_lt (hafter x (by simp [h1]))
  · have hio1 : inorder (mk false (ka ++ m :: kb) (pre ++ some cl :: some rc1 :: suf))
        = (interleave (pre.map inorderOpt) ka ++ inorder cl)
          ++ m :: (back ++ rest ++ interleave ([] :: suf.map inorderOpt) kb) := by
      rw [inorder_internal]
      have e : (pre ++ some cl :: some rc1 :: suf).map inorderOpt
          = (pre.map inorderOpt ++ [inorder cl]) ++ (inorder rc1 :: suf.map inorderOpt) := by
        simp [inorderOpt]
      rw [e, interleave_split_key ka _ _ m kb (by simp; omega)]
      have e2 : interleave (pre.map inorderOpt ++ [inorder cl]) ka
          = interleave (pre.map inorderOpt) ka ++ inorder cl := by
        have := interleave_split (pre.map inorderOpt) ka (inorder cl) [] [] (by simp; omega)
        simpa [interleave] using this
      rw [e2, interleave_cons (inorder rc1), hrc1io]
    rw [hio1, hnode]
    have hnot : key ∉ interleave (pre.map inorderOpt) ka ++ inorder cl := by
      intro hmem
      have := hbefore key hmem
      omega
    rw [List.erase_append_right _ hnot, List.erase_cons_head]

theorem exTreeTen_shaped : Shaped 2 2 exTreeTen.root := by
  simp [exTreeTen, exLeaf, shaped_succ, shaped_zero, leaf, keys, children, size]

theorem erase_successor_swap_witness :
    (2 : Int) ≤ 2 ∧ build 2 [1, 2, 3, 4, 5, 6, 7, 8, 9, 10] = .ok exTreeTen ∧
    Shaped 2 (1 + 1) exTreeTen.root ∧
    List.Pairwise (· < ·) (inorder exTreeTen.root) ∧
    exTreeTen.root.keys[0]? = some 4 ∧
    exTreeTen.root.children[0]? = some (some (mk false [2] [exLeaf [1], exLeaf [3]])) ∧
    exTreeTen.root.children[0 + 1]?
      = some (some (mk false [6, 8] [exLeaf [5], exLeaf [7], exLeaf [9, 10]])) ∧
    (mk false [2] [exLeaf [1], exLeaf [3]]).size = 2 - 1 ∧
    2 ≤ (mk false [6, 8] [exLeaf [5], exLeaf [7], exLeaf [9, 10]]).size ∧
    ∃ node1 rc1 m, _erase 2 (2 + 1) exTreeTen.root 4 = .ok node1 ∧
      node1.keys = exTreeTen.root.keys.set 0 m ∧
      node1.children = exTreeTen.root.children.set (0 + 1) (some rc1) ∧
      node1.keys.length = exTreeTen.root.keys.length ∧
      node1.children.length = exTreeTen.root.children.length ∧
      node1.keys[0]? = some m ∧
      node1.children[0]? = some (some (mk false [2] [exLeaf [1], exLeaf [3]])) ∧
      node1.children[0 + 1]? = some (some rc1) ∧
      (inorder (mk false [6, 8] [exLeaf [5], exLeaf [7], exLeaf [9, 10]])).head? = some m ∧
      (∀ x ∈ inorder (mk false [6, 8] [exLeaf [5], exLeaf [7], exLeaf [9, 10]]), m ≤ x) ∧
      inorder rc1 = (inorder (mk false [6, 8] [exLeaf [5], exLeaf [7], exLeaf [9, 10]])).tail ∧
      m ∉ inorder rc1 ∧
      inorder node1 = (inorder exTreeTen.root).erase 4 :=
  ⟨by decide, by decide!, exTreeTen_shaped, by decide!, by decide!, by decide!, by decide!,
    by decide!, by decide!,
    erase_successor_swap 2 (by decide) 1 exTreeTen.root
      (mk false [2] [exLeaf [1], exLeaf [3]])
      (mk false [6, 8] [exLeaf [5], exLeaf [7], exLeaf [9, 10]]) 0 4 2
      exTreeTen_shaped (by decide!) (by decide!) (by decide!) (by decide!) (by decide!)
      (by decide!) (by decide)⟩

end BTreeProofs

section vEBProofs

open vEBTree

/-! # Proofs about the van Emde Boas tree -/

/-! ## The `Except` monad -/

theorem except_ok_bind {ε α β : Type} (a : α) (f : α → Except ε β) :
    (Except.ok a >>= f) = f a := rfl

theorem except_error_bind {ε α β : Type} (e : ε) (f : α → Except ε β) :
    ((Except.error e : Except ε α) >>= f) = Except.error e := rfl

theorem except_pure {ε α : Type} (a : α) : (pure a : Except ε α) = Except.ok a := rfl

/-! ## Square roots of a power of two -/

theorem pow_split (k : Nat) : (2 : Int) ^ (k - k / 2) * 2 ^ (k / 2) = 2 ^ k := by
  rw [← pow_add]
  congr 1
  omega

theorem toNat_two_pow (k : Nat) : ((2 : Int) ^ k).toNat = 2 ^ k := by
  have h : (2 : Int) ^ k = ((2 ^ k : Nat) : Int) := by push_cast; rfl
  rw [h, Int.toNat_natCast]

theorem two_pow_pos (k : Nat) : (0 : Int) < 2 ^ k := by positivity

theorem downSqrt_pow (k : Nat) : vEBOperations.downSqrt ((2 : Int) ^ k) = 2 ^ (k / 2) := by
  unfold vEBOperations.downSqrt
  have h := two_pow_pos k
  rw [if_neg (by omega), toNat_two_pow, Nat.log2_two_pow]
  push_cast
  rfl

theorem upSqrt_pow (k : Nat) : vEBOperations.upSqrt ((2 : Int) ^ k) = 2 ^ (k - k / 2) := by
  unfold vEBOperations.upSqrt
  have h := two_pow_pos k
  rw [if_neg (by omega), toNat_two_pow, Nat.log2_two_pow, if_pos rfl]
  have e : (k + 1) / 2 = k - k / 2 := by omega
  rw [e]
  push_cast
  rfl

/-! ## High part, low part and index -/

theorem join_div (d i y : Int) (hy0 : 0 ≤ y) (hy : y < d) : (i * d + y) / d = i := by
  rw [Int.add_comm, Int.add_mul_ediv_right _ _ (by omega), Int.ediv_eq_zero_of_lt hy0 hy]
  simp

theorem join_mod (d i y : Int) (hy0 : 0 ≤ y) (hy : y < d) : (i * d + y) % d = y := by
  rw [Int.add_comm, Int.add_mul_emod_self, Int.emod_eq_of_lt hy0 hy]

theorem split_join (d x : Int) : x / d * d + x % d = x := by
  have := Int.ediv_add_emod x d
  rw [mul_comm] at this
  exact this

theorem div_bounds (d m x : Int) (hd : 0 < d) (hx0 : 0 ≤ x) (hx : x < m * d) :
    0 ≤ x / d ∧ x / d < m :=
  ⟨Int.ediv_nonneg hx0 (by omega), Int.ediv_lt_of_lt_mul hd hx⟩

theorem mod_bounds (d x : Int) (hd : 0 < d) : 0 ≤ x % d ∧ x % d < d :=
  ⟨Int.emod_nonneg _ (by omega), Int.emod_lt_of_pos _ hd⟩

theorem join_bounds (d m i y : Int) (hi0 : 0 ≤ i) (hi : i < m) (hy0 : 0 ≤ y) (hy : y < d) :
    0 ≤ i * d + y ∧ i * d + y < m * d := by
  have h1 : 0 ≤ i * d := mul_nonneg hi0 (by omega)
  have h2 : (i + 1) * d ≤ m * d := mul_le_mul_of_nonneg_right (by omega) (by omega)
  rw [add_mul, one_mul] at h2
  constructor <;> omega

theorem join_lt_join (d i y j z : Int) (hy0 : 0 ≤ y) (hy : y < d) (hz0 : 0 ≤ z) (hz : z < d) :
    i * d + y < j * d + z ↔ i < j ∨ (i = j ∧ y < z) := by
  constructor
  · intro h
    by_contra hn
    push_neg at hn
    rcases lt_trichotomy i j with h1 | h1 | h1
    · omega
    · subst h1
      have := hn.2 rfl
      omega
    · have h2 : (j + 1) * d ≤ i * d := mul_le_mul_of_nonneg_right (by omega) (by omega)
      rw [add_mul, one_mul] at h2
      omega
  · rintro (h | ⟨rfl, h⟩)
    · have h2 : (i + 1) * d ≤ j * d := mul_le_mul_of_nonneg_right (by omega) (by omega)
      rw [add_mul, one_mul] at h2
      omega
    · omega

theorem join_inj (d i y j z : Int) (hy0 : 0 ≤ y) (hy : y < d) (hz0 : 0 ≤ z) (hz : z < d)
    (h : i * d + y = j * d + z) : i = j ∧ y = z := by
  have h1 := join_div d i y hy0 hy
  have h2 := join_mod d i y hy0 hy
  rw [h, join_div d j z hz0 hz] at h1
  rw [h, join_mod d j z hz0 hz] at h2
  exact ⟨h1.symm, h2.symm⟩

/-! ## Fields of a node over the universe `2 ^ k` -/

theorem getU_mk (s : Option vEBTree) (cs : List vEBTree) (u mn mx : Int) :
    (mk s cs u mn mx).getU = u := rfl

theorem getMin_mk (s : Option vEBTree) (cs : List vEBTree) (u mn mx : Int) :
    (mk s cs u mn mx).getMin = mn := rfl

theorem getMax_mk (s : Option vEBTree) (cs : List vEBTree) (u mn mx : Int) :
    (mk s cs u mn mx).getMax = mx := rfl

theorem high_mk (s : Option vEBTree) (cs : List vEBTree) (k : Nat) (mn mx x : Int) :
    (mk s cs (2 ^ k) mn mx).high x = x / 2 ^ (k / 2) := by
  unfold high
  rw [getU_mk, downSqrt_pow, Int.fdiv_eq_ediv _ (le_of_lt (two_pow_pos _))]

theorem low_mk (s : Option vEBTree) (cs : List vEBTree) (k : Nat) (mn mx x : Int)
    (hx : 0 ≤ x) : (mk s cs (2 ^ k) mn mx).low x = x % 2 ^ (k / 2) := by
  unfold low
  rw [getU_mk, downSqrt_pow, Int.tmod_eq_emod hx (le_of_lt (two_pow_pos _))]

theorem index_mk (s : Option vEBTree) (cs : List vEBTree) (k : Nat) (mn mx i y : Int) :
    (mk s cs (2 ^ k) mn mx).index i y = i * 2 ^ (k / 2) + y := by
  unfold index
  rw [getU_mk, downSqrt_pow]

theorem cluster_mk (s : Option vEBTree) (cs : List vEBTree) (u mn mx i : Int) (c : vEBTree)
    (hi : 0 ≤ i) (hc : cs[i.toNat]? = some c) : (mk s cs u mn mx).cluster i = .ok c := by
  unfold cluster
  rw [if_neg (by omega)]
  simp only [clusters, hc]

theorem setCluster_mk (s : Option vEBTree) (cs : List vEBTree) (u mn mx i : Int) (c : vEBTree)
    (hi : 0 ≤ i) (hlen : i.toNat < cs.length) :
    (mk s cs u mn mx).setCluster i c = .ok (mk s (cs.set i.toNat c) u mn mx) := by
  unfold setCluster
  rw [if_neg (by simp only [clusters]; omega)]

theorem derefSummary_mk (s : vEBTree) (cs : List vEBTree) (u mn mx : Int) :
    (mk (some s) cs u mn mx).derefSummary = .ok s := rfl

theorem two_pow_ne_two (k : Nat) (hk : 2 ≤ k) : (2 : Int) ^ k ≠ 2 := by
  have h : (2 : Int) ^ 2 ≤ 2 ^ k := pow_le_pow_right₀ (by norm_num) hk
  norm_num at h
  omega

theorem two_lt_two_pow (k : Nat) (hk : 2 ≤ k) : (2 : Int) < 2 ^ k := by
  have h : (2 : Int) ^ 2 ≤ 2 ^ k := pow_le_pow_right₀ (by norm_num) hk
  norm_num at h
  omega

/-! ## Cluster sets and summary sets -/

theorem mem_clusterSet (R : Set Int) (d i y : Int) :
    y ∈ clusterSet R d i ↔ 0 ≤ y ∧ y < d ∧ i * d + y ∈ R := Iff.rfl

theorem mem_summarySet (R : Set Int) (d m i : Int) :
    i ∈ summarySet R d m ↔ 0 ≤ i ∧ i < m ∧ ∃ y, y ∈ clusterSet R d i := Iff.rfl

theorem clusterSet_empty (d i : Int) : clusterSet ∅ d i = ∅ := by
  ext y; simp [mem_clusterSet]

theorem summarySet_empty (d m : Int) : summarySet ∅ d m = ∅ := by
  ext y; simp [mem_summarySet, clusterSet_empty]

theorem clusterSet_subset (R : Set Int) (d i : Int) : clusterSet R d i ⊆ Set.Ico 0 d := by
  intro y hy
  exact ⟨hy.1, hy.2.1⟩

theorem summarySet_subset (R : Set Int) (d m : Int) : summarySet R d m ⊆ Set.Ico 0 m := by
  intro y hy
  exact ⟨hy.1, hy.2.1⟩

theorem low_mem_clusterSet (R : Set Int) (d x : Int) (hd : 0 < d) :
    x % d ∈ clusterSet R d (x / d) ↔ x ∈ R := by
  rw [mem_clusterSet, split_join]
  have := mod_bounds d x hd
  tauto

theorem high_mem_summarySet (R : Set Int) (d m x : Int) (hd : 0 < d) (hx0 : 0 ≤ x)
    (hx : x < m * d) (hR : x ∈ R) : x / d ∈ summarySet R d m := by
  have := div_bounds d m x hd hx0 hx
  exact ⟨this.1, this.2, x % d, (low_mem_clusterSet R d x hd).2 hR⟩

theorem clusterSet_insert_same (R : Set Int) (d v : Int) (hd : 0 < d) :
    clusterSet (insert v R) d (v / d) = insert (v % d) (clusterSet R d (v / d)) := by
  ext y
  simp only [mem_clusterSet, Set.mem_insert_iff]
  have hb := mod_bounds d v hd
  constructor
  · rintro ⟨h0, h1, h | h⟩
    · left
      have := join_inj d (v / d) y (v / d) (v % d) h0 h1 hb.1 hb.2 (by rw [split_join]; exact h)
      exact this.2
    · right; exact ⟨h0, h1, h⟩
  · rintro (h | ⟨h0, h1, h⟩)
    · subst h
      exact ⟨hb.1, hb.2, Or.inl (split_join d v)⟩
    · exact ⟨h0, h1, Or.inr h⟩

theorem clusterSet_insert_other (R : Set Int) (d v i : Int) (hi : i ≠ v / d) :
    clusterSet (insert v R) d i = clusterSet R d i := by
  ext y
  simp only [mem_clusterSet, Set.mem_insert_iff]
  constructor
  · rintro ⟨h0, h1, h | h⟩
    · exfalso
      apply hi
      rw [← h, join_div d i y h0 h1]
    · exact ⟨h0, h1, h⟩
  · rintro ⟨h0, h1, h⟩
    exact ⟨h0, h1, Or.inr h⟩

theorem clusterSet_diff_same (R : Set Int) (d v : Int) (hd : 0 < d) :
    clusterSet (R \ {v}) d (v / d) = clusterSet R d (v / d) \ {v % d} := by
  ext y
  simp only [mem_clusterSet, Set.mem_diff, Set.mem_singleton_iff]
  have hb := mod_bounds d v hd
  constructor
  · rintro ⟨h0, h1, h, hne⟩
    refine ⟨⟨h0, h1, h⟩, ?_⟩
    intro hy
    apply hne
    rw [hy, split_join]
  · rintro ⟨⟨h0, h1, h⟩, hne⟩
    refine ⟨h0, h1, h, ?_⟩
    intro hy
    apply hne
    have := join_inj d (v / d) y (v / d) (v % d) h0 h1 hb.1 hb.2 (by rw [split_join]; exact hy)
    exact this.2

theorem clusterSet_diff_other (R : Set Int) (d v i : Int) (hi : i ≠ v / d) :
    clusterSet (R \ {v}) d i = clusterSet R d i := by
  ext y
  simp only [mem_clusterSet, Set.mem_diff, Set.mem_singleton_iff]
  constructor
  · rintro ⟨h0, h1, h, _⟩
    exact ⟨h0, h1, h⟩
  · rintro ⟨h0, h1, h⟩
    refine ⟨h0, h1, h, ?_⟩
    intro hy
    apply hi
    rw [← hy, join_div d i y h0 h1]

theorem summarySet_insert (R : Set Int) (d m v : Int) (hd : 0 < d) (hv0 : 0 ≤ v)
    (hv : v < m * d) : summarySet (insert v R) d m = insert (v / d) (summarySet R d m) := by
  ext i
  simp only [mem_summarySet, Set.mem_insert_iff]
  have hb := div_bounds d m v hd hv0 hv
  by_cases hi : i = v / d
  · subst hi
    simp only [true_or, iff_true]
    refine ⟨hb.1, hb.2, v % d, ?_⟩
    rw [clusterSet_insert_same R d v hd]
    exact Set.mem_insert _ _
  · rw [clusterSet_insert_other R d v i hi]
    simp [hi]

theorem summarySet_diff_nonempty (R : Set Int) (d m v : Int) (hd : 0 < d) (hv0 : 0 ≤ v)
    (hv : v < m * d) (hne : (clusterSet (R \ {v}) d (v / d)).Nonempty) :
    summarySet (R \ {v}) d m = summarySet R d m := by
  ext i
  simp only [mem_summarySet]
  have hb := div_bounds d m v hd hv0 hv
  by_cases hi : i = v / d
  · subst hi
    obtain ⟨y, hy⟩ := hne
    have hy1 : y ∈ clusterSet R d (v / d) := by
      rw [clusterSet_diff_same R d v hd] at hy
      exact hy.1
    constructor
    · intro _
      exact ⟨hb.1, hb.2, y, hy1⟩
    · intro _
      exact ⟨hb.1, hb.2, y, hy⟩
  · rw [clusterSet_diff_other R d v i hi]

theorem summarySet_diff_empty (R : Set Int) (d m v : Int)
    (he : clusterSet (R \ {v}) d (v / d) = ∅) :
    summarySet (R \ {v}) d m = summarySet R d m \ {v / d} := by
  ext i
  simp only [mem_summarySet, Set.mem_diff, Set.mem_singleton_iff]
  by_cases hi : i = v / d
  · subst hi
    rw [he]
    simp
  · rw [clusterSet_diff_other R d v i hi]
    simp [hi]

/-! ## The power-of-two test of the constructors -/

theorem land_pred_two_pow (k : Nat) : Nat.land (2 ^ k) (2 ^ k - 1) = 0 := by
  show 2 ^ k &&& 2 ^ k - 1 = 0
  rw [Nat.and_pow_two_sub_one_eq_mod]
  exact Nat.mod_self _

theorem two_pow_of_land_pred : ∀ (n : Nat), 0 < n → Nat.land n (n - 1) = 0 → ∃ k, n = 2 ^ k := by
  intro n
  induction n using Nat.strong_induction_on with
  | _ n ih =>
    intro hn h
    have h0 : n &&& (n - 1) = 0 := h
    by_cases h1 : n = 1
    · exact ⟨0, by simp [h1]⟩
    have hbit : ∀ j, ((n / 2).testBit j && ((n - 1) / 2).testBit j) = false := by
      intro j
      rw [Nat.testBit_div_two, Nat.testBit_div_two, ← Nat.testBit_and, h0]
      simp
    by_cases hodd : n % 2 = 1
    · exfalso
      have hm : n / 2 ≠ 0 := by omega
      obtain ⟨j, hj⟩ := Nat.ne_zero_implies_bit_true hm
      have e : (n - 1) / 2 = n / 2 := by omega
      have := hbit j
      rw [e, hj] at this
      simp at this
    · have e : (n - 1) / 2 = n / 2 - 1 := by omega
      have hm : Nat.land (n / 2) (n / 2 - 1) = 0 := by
        show n / 2 &&& (n / 2 - 1) = 0
        apply Nat.zero_of_testBit_eq_false
        intro j
        rw [Nat.testBit_and, ← e]
        exact hbit j
      obtain ⟨k, hk⟩ := ih (n / 2) (by omega) (by omega) hm
      refine ⟨k + 1, ?_⟩
      rw [pow_succ, ← hk]
      omega

/-! ## Minimum and maximum fields -/

theorem minMax_empty : MinMax ∅ (-1) (-1) := Or.inl ⟨rfl, rfl, rfl⟩

theorem minMax_singleton (x : Int) : MinMax {x} x x :=
  Or.inr ⟨isLeast_singleton, isGreatest_singleton⟩

theorem MinMax.min_invalid_iff {S : Set Int} {mn mx N : Int} (h : MinMax S mn mx)
    (hS : S ⊆ Set.Ico 0 N) : mn = -1 ↔ S = ∅ := by
  rcases h with ⟨h1, h2, _⟩ | ⟨h1, _⟩
  · simp [h1, h2]
  · have := (hS h1.1).1
    constructor
    · intro h; omega
    · intro h; rw [h] at h1; exact absurd h1.1 (by simp)

theorem MinMax.max_invalid_iff {S : Set Int} {mn mx N : Int} (h : MinMax S mn mx)
    (hS : S ⊆ Set.Ico 0 N) : mx = -1 ↔ S = ∅ := by
  rcases h with ⟨h1, _, h2⟩ | ⟨_, h1⟩
  · simp [h1, h2]
  · have := (hS h1.1).1
    constructor
    · intro h; omega
    · intro h; rw [h] at h1; exact absurd h1.1 (by simp)

theorem MinMax.of_mem {S : Set Int} {mn mx x : Int} (h : MinMax S mn mx) (hx : x ∈ S) :
    IsLeast S mn ∧ IsGreatest S mx := by
  rcases h with ⟨h1, _, _⟩ | h
  · rw [h1] at hx; exact absurd hx (by simp)
  · exact h

theorem MinMax.of_min_valid {S : Set Int} {mn mx : Int} (h : MinMax S mn mx) (hmn : mn ≠ -1) :
    IsLeast S mn ∧ IsGreatest S mx := by
  rcases h with ⟨_, h1, _⟩ | h
  · exact absurd h1 hmn
  · exact h

theorem MinMax.of_max_valid {S : Set Int} {mn mx : Int} (h : MinMax S mn mx) (hmx : mx ≠ -1) :
    IsLeast S mn ∧ IsGreatest S mx := by
  rcases h with ⟨_, _, h1⟩ | h
  · exact absurd h1 hmx
  · exact h

/-! ## Reading the representation predicate -/

theorem Stores.congr {k : Nat} {t : vEBTree} {S S1 : Set Int} (h : Stores k t S) (e : S = S1) :
    Stores k t S1 := e ▸ h

theorem Stores.one_le {k : Nat} {t : vEBTree} {S : Set Int} (h : Stores k t S) : 1 ≤ k := by
  cases h with
  | base => exact le_refl _
  | node k hk => omega

theorem Stores.subset {k : Nat} {t : vEBTree} {S : Set Int} (h : Stores k t S) :
    S ⊆ Set.Ico 0 (2 ^ k) := by
  cases h with
  | base mn mx S hS hmm => simpa using hS
  | node k hk s cs mn mx S hS => exact hS

theorem Stores.minMax {k : Nat} {t : vEBTree} {S : Set Int} (h : Stores k t S) :
    MinMax S t.getMin t.getMax := by
  cases h with
  | base mn mx S hS hmm => exact hmm
  | node k hk s cs mn mx S hS hmm => exact hmm

theorem Stores.getU {k : Nat} {t : vEBTree} {S : Set Int} (h : Stores k t S) :
    t.getU = 2 ^ k := by
  cases h with
  | base => rfl
  | node => rfl

theorem Stores.getMin_invalid_iff {k : Nat} {t : vEBTree} {S : Set Int} (h : Stores k t S) :
    t.getMin = -1 ↔ S = ∅ :=
  h.minMax.min_invalid_iff h.subset

theorem Stores.getMax_invalid_iff {k : Nat} {t : vEBTree} {S : Set Int} (h : Stores k t S) :
    t.getMax = -1 ↔ S = ∅ :=
  h.minMax.max_invalid_iff h.subset

/-- The cluster behind a high part inside the universe. -/
theorem cluster_exists (cs : List vEBTree) (k : Nat) (i : Int)
    (hlen : cs.length = 2 ^ (k - k / 2)) (hi0 : 0 ≤ i) (hi : i < 2 ^ (k - k / 2)) :
    ∃ c, cs[i.toNat]? = some c ∧ i.toNat < cs.length ∧ ((i.toNat : Nat) : Int) = i := by
  have h1 : ((i.toNat : Nat) : Int) = i := Int.toNat_of_nonneg hi0
  have h2 : i.toNat < cs.length := by
    rw [hlen]
    have : ((i.toNat : Nat) : Int) < ((2 ^ (k - k / 2) : Nat) : Int) := by
      rw [h1]; push_cast; exact hi
    exact_mod_cast this
  exact ⟨cs[i.toNat], List.getElem?_eq_getElem h2, h2, h1⟩

/-! ## Method `contains` -/

theorem contains_spec {k : Nat} {t : vEBTree} {S : Set Int} (h : Stores k t S) :
    ∀ (fuel : Nat) (x : Int), k ≤ fuel → 0 ≤ x → x < 2 ^ k →
      ∃ b, contains fuel t x = .ok b ∧ (b = true ↔ x ∈ S) := by
  induction h with
  | base mn mx S hS hmm =>
    intro fuel x hf hx0 hx
    obtain ⟨f, rfl⟩ : ∃ f, fuel = f + 1 := ⟨fuel - 1, by omega⟩
    simp only [contains, getMin_mk, getMax_mk, getU_mk, if_true]
    by_cases hm : x = mn ∨ x = mx
    · rw [if_pos hm]
      refine ⟨true, rfl, ?_⟩
      simp only [true_iff]
      rcases hmm with ⟨_, h2, h3⟩ | ⟨h1, h2⟩
      · omega
      · rcases hm with hm | hm
        · rw [hm]; exact h1.1
        · rw [hm]; exact h2.1
    · rw [if_neg hm]
      refine ⟨false, rfl, ?_⟩
      simp only [Bool.false_eq_true, false_iff]
      intro hxS
      obtain ⟨h1, h2⟩ := hmm.of_mem hxS
      have a1 := h1.2 hxS
      have a2 := h2.2 hxS
      have a3 := hS h1.1
      have a4 := hS h2.1
      simp only [Set.mem_Ico] at a3 a4
      push_neg at hm
      omega
  | node k hk s cs mn mx S hS hmm hlen hs hc ihs ihc =>
    intro fuel x hf hx0 hx
    obtain ⟨f, rfl⟩ : ∃ f, fuel = f + 1 := ⟨fuel - 1, by omega⟩
    simp only [contains, getMin_mk, getMax_mk, getU_mk]
    by_cases hm : x = mn ∨ x = mx
    · rw [if_pos hm]
      refine ⟨true, rfl, ?_⟩
      simp only [true_iff]
      rcases hmm with ⟨_, h2, h3⟩ | ⟨h1, h2⟩
      · omega
      · rcases hm with hm | hm
        · rw [hm]; exact h1.1
        · rw [hm]; exact h2.1
    · rw [if_neg hm, if_neg (two_pow_ne_two k hk), high_mk, low_mk _ _ _ _ _ _ hx0]
      have hd := two_pow_pos (k / 2)
      have hb := div_bounds (2 ^ (k / 2)) (2 ^ (k - k / 2)) x hd hx0 (by rw [pow_split]; exact hx)
      obtain ⟨c, hcs, _, hcast⟩ := cluster_exists cs k _ hlen hb.1 hb.2
      rw [cluster_mk _ _ _ _ _ _ c hb.1 hcs, except_ok_bind]
      have hmb := mod_bounds (2 ^ (k / 2)) x hd
      obtain ⟨b, hb1, hb2⟩ := ihc _ c hcs f (x % 2 ^ (k / 2)) (by omega) hmb.1 hmb.2
      refine ⟨b, hb1, ?_⟩
      rw [hb2, hcast, low_mem_clusterSet _ _ _ hd]
      push_neg at hm
      simp [hm.1]

/-! ## The constructors -/

theorem pushClusters_ok (c : vEBTree) : ∀ (n : Nat) (cs : List vEBTree),
    pushClusters (.ok c) n cs = .ok (cs ++ List.replicate n c) := by
  intro n
  induction n with
  | zero => intro cs; simp [pushClusters]
  | succ n ih =>
    intro cs
    simp only [pushClusters, except_ok_bind]
    rw [ih]
    simp [List.replicate_succ]

theorem create_reject (fuel : Nat) (u mn mx : Int)
    (h : u < 2 ∨ Nat.land u.toNat (u - 1).toNat ≠ 0) :
    create fuel u mn mx = .error .creationException := by
  cases fuel <;> simp only [create, if_pos h]

theorem create_spec : ∀ (k : Nat), 1 ≤ k → ∀ (fuel : Nat), k ≤ fuel →
    ∃ t, create fuel (2 ^ k) InvalidValue InvalidValue = .ok t ∧ Stores k t ∅ ∧
      t.getMin = -1 ∧ t.getMax = -1 := by
  intro k
  induction k using Nat.strong_induction_on with
  | _ k ih =>
    intro hk fuel hf
    have hpos := two_pow_pos k
    have hcheck : ¬ ((2 : Int) ^ k < 2 ∨ Nat.land ((2 : Int) ^ k).toNat ((2 : Int) ^ k - 1).toNat ≠ 0) := by
      have e1 : ((2 : Int) ^ k - 1).toNat = 2 ^ k - 1 := by
        have := toNat_two_pow k
        omega
      rw [toNat_two_pow, e1, land_pred_two_pow]
      have : (2 : Int) ^ 1 ≤ 2 ^ k := pow_le_pow_right₀ (by norm_num) hk
      norm_num at this
      simp
      omega
    by_cases hk1 : k = 1
    · subst hk1
      refine ⟨mk none [] 2 (-1) (-1), ?_, ?_, rfl, rfl⟩
      · cases fuel <;> rfl
      · exact Stores.base _ _ _ (by simp) minMax_empty
    · have hk2 : 2 ≤ k := by omega
      obtain ⟨f, rfl⟩ : ∃ f, fuel = f + 1 := ⟨fuel - 1, by omega⟩
      obtain ⟨c, hc1, hc2, _, _⟩ := ih (k / 2) (by omega) (by omega) f (by omega)
      obtain ⟨s, hs1, hs2, _, _⟩ := ih (k - k / 2) (by omega) (by omega) f (by omega)
      refine ⟨mk (some s) (List.replicate (2 ^ (k - k / 2)) c) (2 ^ k) (-1) (-1), ?_, ?_, rfl, rfl⟩
      · simp only [create]
        rw [if_neg hcheck, if_neg (two_pow_ne_two k hk2), upSqrt_pow, downSqrt_pow, hc1, hs1,
          pushClusters_ok, toNat_two_pow, except_ok_bind, except_ok_bind]
        rfl
      · refine Stores.node k hk2 s _ (-1) (-1) ∅ (by simp) minMax_empty (by simp) ?_ ?_
        · refine hs2.congr ?_
          simp [summarySet_empty]
        · intro i c1 hi
          have : c1 = c := by
            rw [List.getElem?_replicate] at hi
            split at hi
            · exact (Option.some.inj hi).symm
            · exact absurd hi (by simp)
          subst this
          refine hc2.congr ?_
          simp [clusterSet_empty]

/-! ## Method `_insert` -/

theorem emptyTreeInsert_mk (s : Option vEBTree) (cs : List vEBTree) (u mn mx x : Int) :
    (mk s cs u mn mx).emptyTreeInsert x = mk s cs u x x := rfl

theorem setMin_mk (s : Option vEBTree) (cs : List vEBTree) (u mn mx x : Int) :
    (mk s cs u mn mx).setMin x = mk s cs u x mx := rfl

theorem setMax_mk (s : Option vEBTree) (cs : List vEBTree) (u mn mx x : Int) :
    (mk s cs u mn mx).setMax x = mk s cs u mn x := rfl

theorem setSummary_mk (s : Option vEBTree) (cs : List vEBTree) (u mn mx : Int) (s1 : vEBTree) :
    (mk s cs u mn mx).setSummary s1 = mk (some s1) cs u mn mx := rfl

theorem Stores.emptyTreeInsert {k : Nat} {t : vEBTree} (h : Stores k t ∅) (y : Int)
    (hy0 : 0 ≤ y) (hy : y < 2 ^ k) : Stores k (t.emptyTreeInsert y) {y} := by
  cases h with
  | base mn mx _ hS hmm =>
    rw [emptyTreeInsert_mk]
    refine Stores.base y y {y} ?_ (minMax_singleton y)
    intro z hz
    rw [Set.mem_singleton_iff] at hz
    subst hz
    exact ⟨hy0, by simpa using hy⟩
  | node k hk s cs mn mx _ hS hmm hlen hs hc =>
    rw [emptyTreeInsert_mk]
    refine Stores.node k hk s cs y y {y} ?_ (minMax_singleton y) hlen ?_ ?_
    · intro z hz
      rw [Set.mem_singleton_iff] at hz
      subst hz
      exact ⟨hy0, hy⟩
    · refine hs.congr ?_
      simp
    · intro i c hi
      refine (hc i c hi).congr ?_
      simp

theorem minMax_insert {S : Set Int} {mn mx : Int} (x : Int) (h1 : IsLeast S mn)
    (h2 : IsGreatest S mx) :
    MinMax (insert x S) (if x < mn then x else mn)
      (if (if x < mn then mn else x) > mx then (if x < mn then mn else x) else mx) := by
  have hle : mn ≤ mx := h1.2 h2.1
  have e1 : (if x < mn then x else mn) = min x mn := by
    by_cases h : x < mn
    · rw [if_pos h, min_eq_left (le_of_lt h)]
    · rw [if_neg h, min_eq_right (by omega)]
  have e2 : (if (if x < mn then mn else x) > mx then (if x < mn then mn else x) else mx)
      = max x mx := by
    by_cases h : x < mn
    · rw [if_pos h, if_neg (by omega), max_eq_right (by omega)]
    · rw [if_neg h]
      by_cases h3 : x > mx
      · rw [if_pos h3, max_eq_left (by omega)]
      · rw [if_neg h3, max_eq_right (by omega)]
  rw [e1, e2]
  exact Or.inr ⟨h1.insert x, h2.insert x⟩

/-- The elements kept in the clusters after an insertion: the old ones and the greater of the
new element and the old minimum. -/
theorem rest_insert {S : Set Int} {mn : Int} (x : Int) (h1 : mn ∈ S) (hx : x ∉ S) :
    insert x S \ {if x < mn then x else mn}
      = insert (if x < mn then mn else x) (S \ {mn}) := by
  have hne : x ≠ mn := fun h => hx (h ▸ h1)
  by_cases h : x < mn
  · rw [if_pos h, if_pos h]
    ext z
    simp only [Set.mem_diff, Set.mem_insert_iff, Set.mem_singleton_iff]
    constructor
    · rintro ⟨h3 | h3, h4⟩
      · exact absurd h3 h4
      · by_cases h5 : z = mn
        · exact Or.inl h5
        · exact Or.inr ⟨h3, h5⟩
    · rintro (h3 | ⟨h3, _⟩)
      · subst h3; exact ⟨Or.inr h1, fun h4 => hne h4.symm⟩
      · exact ⟨Or.inr h3, fun h4 => hx (h4 ▸ h3)⟩
  · rw [if_neg h, if_neg h]
    ext z
    simp only [Set.mem_diff, Set.mem_insert_iff, Set.mem_singleton_iff]
    constructor
    · rintro ⟨h3 | h3, h4⟩
      · exact Or.inl h3
      · exact Or.inr ⟨h3, h4⟩
    · rintro (h3 | ⟨h3, h4⟩)
      · subst h3; exact ⟨Or.inl rfl, hne⟩
      · exact ⟨Or.inr h3, h4⟩

theorem getElem?_set_cases {α : Type} (cs : List α) (i j : Nat) (a b : α)
    (h : (cs.set i a)[j]? = some b) : (j = i ∧ b = a) ∨ (j ≠ i ∧ cs[j]? = some b) := by
  by_cases hij : i = j
  · subst hij
    left
    rw [List.getElem?_set, if_pos rfl] at h
    split at h
    · exact ⟨rfl, (Option.some.inj h).symm⟩
    · exact absurd h (by simp)
  · right
    rw [List.getElem?_set_ne hij] at h
    exact ⟨fun e => hij e.symm, h⟩

theorem _insert_base (f : Nat) (mn mx x : Int) (hmn : mn ≠ -1) :
    _insert (f + 1) (mk none [] 2 mn mx) x
      = .ok (mk none [] 2 (if x < mn then x else mn)
          (if (if x < mn then mn else x) > mx then (if x < mn then mn else x) else mx)) := by
  simp only [_insert, getMin_mk, InvalidValue, hmn, if_false]
  by_cases hlt : x < mn
  · simp only [hlt, if_true, setMin_mk, getU_mk, gt_iff_lt, lt_self_iff_false, if_false,
      except_pure, except_ok_bind, getMax_mk, setMax_mk]
    split <;> rfl
  · simp only [hlt, if_false, getU_mk, gt_iff_lt, lt_self_iff_false, except_pure,
      except_ok_bind, getMax_mk, setMax_mk]
    split <;> rfl

theorem cluster_at (s : Option vEBTree) (cs : List vEBTree) (u mn mx v : Int) (i : Nat)
    (c : vEBTree) (hi : v = (i : Int)) (hc : cs[i]? = some c) :
    (mk s cs u mn mx).cluster v = .ok c := by
  subst hi
  exact cluster_mk _ _ _ _ _ _ c (by omega) (by simpa using hc)

theorem setCluster_at (s : Option vEBTree) (cs : List vEBTree) (u mn mx v : Int) (i : Nat)
    (c c1 : vEBTree) (hi : v = (i : Int)) (hc : cs[i]? = some c) :
    (mk s cs u mn mx).setCluster v c1 = .ok (mk s (cs.set i c1) u mn mx) := by
  subst hi
  have hlt : i < cs.length := by
    by_contra hn
    rw [List.getElem?_eq_none (by omega)] at hc
    exact absurd hc (by simp)
  rw [setCluster_mk _ _ _ _ _ _ _ (by omega) (by simpa using hlt)]
  simp

/-- One step of `_insert` in a node that is not empty when the cluster of the pushed value is
empty: the summary gets the high part, the cluster gets the low part as its only element. -/
theorem _insert_node_empty (f k : Nat) (hk : 2 ≤ k) (s : vEBTree) (cs : List vEBTree)
    (mn mx x : Int) (hmn : mn ≠ -1) (i : Nat) (c s1 : vEBTree)
    (hv0 : 0 ≤ (if x < mn then mn else x))
    (hi : (if x < mn then mn else x) / 2 ^ (k / 2) = (i : Int)) (hc : cs[i]? = some c)
    (hcm : c.getMin = -1)
    (hcont : contains f s ((if x < mn then mn else x) / 2 ^ (k / 2)) = .ok false)
    (hs1 : _insert f s ((if x < mn then mn else x) / 2 ^ (k / 2)) = .ok s1) :
    _insert (f + 1) (mk (some s) cs (2 ^ k) mn mx) x
      = .ok (mk (some s1)
          (cs.set i (c.emptyTreeInsert ((if x < mn then mn else x) % 2 ^ (k / 2))))
          (2 ^ k) (if x < mn then x else mn)
          (if (if x < mn then mn else x) > mx then (if x < mn then mn else x) else mx)) := by
  have hu := two_lt_two_pow k hk
  simp only [_insert, getMin_mk, InvalidValue, hmn, if_false]
  by_cases hlt : x < mn
  · simp only [hlt, if_true] at hv0 hi hcont hs1 ⊢
    simp only [setMin_mk, getU_mk, gt_iff_lt, hu, high_mk, if_true,
      cluster_at _ _ _ _ _ _ i c hi hc, except_ok_bind, hcm, derefSummary_mk, hcont, hs1,
      Bool.false_eq_true, if_false, setSummary_mk, low_mk _ _ _ _ _ _ hv0,
      setCluster_at _ _ _ _ _ _ i c _ hi hc, getMax_mk, setMax_mk, except_pure]
    split <;> rfl
  · simp only [hlt, if_false] at hv0 hi hcont hs1 ⊢
    simp only [getU_mk, gt_iff_lt, hu, high_mk, if_true,
      cluster_at _ _ _ _ _ _ i c hi hc, except_ok_bind, hcm, derefSummary_mk, hcont, hs1,
      Bool.false_eq_true, if_false, setSummary_mk, low_mk _ _ _ _ _ _ hv0,
      setCluster_at _ _ _ _ _ _ i c _ hi hc, getMax_mk, setMax_mk, except_pure]
    split <;> rfl

/-- One step of `_insert` in a node that is not empty when the cluster of the pushed value is not
empty: the low part is inserted into the cluster, the summary stays. -/
theorem _insert_node_nonempty (f k : Nat) (hk : 2 ≤ k) (s : vEBTree) (cs : List vEBTree)
    (mn mx x : Int) (hmn : mn ≠ -1) (i : Nat) (c c1 : vEBTree)
    (hv0 : 0 ≤ (if x < mn then mn else x))
    (hi : (if x < mn then mn else x) / 2 ^ (k / 2) = (i : Int)) (hc : cs[i]? = some c)
    (hcm : c.getMin ≠ -1)
    (hc1 : _insert f c ((if x < mn then mn else x) % 2 ^ (k / 2)) = .ok c1) :
    _insert (f + 1) (mk (some s) cs (2 ^ k) mn mx) x
      = .ok (mk (some s) (cs.set i c1) (2 ^ k) (if x < mn then x else mn)
          (if (if x < mn then mn else x) > mx then (if x < mn then mn else x) else mx)) := by
  have hu := two_lt_two_pow k hk
  simp only [_insert, getMin_mk, InvalidValue, hmn, if_false]
  by_cases hlt : x < mn
  · simp only [hlt, if_true] at hv0 hi hc1 ⊢
    simp only [setMin_mk, getU_mk, gt_iff_lt, hu, high_mk, if_true,
      cluster_at _ _ _ _ _ _ i c hi hc, except_ok_bind, hcm, hc1,
      if_false, low_mk _ _ _ _ _ _ hv0,
      setCluster_at _ _ _ _ _ _ i c _ hi hc, getMax_mk, setMax_mk, except_pure]
    split <;> rfl
  · simp only [hlt, if_false] at hv0 hi hc1 ⊢
    simp only [getU_mk, gt_iff_lt, hu, high_mk, if_true,
      cluster_at _ _ _ _ _ _ i c hi hc, except_ok_bind, hcm, hc1,
      if_false, low_mk _ _ _ _ _ _ hv0,
      setCluster_at _ _ _ _ _ _ i c _ hi hc, getMax_mk, setMax_mk, except_pure]
    split <;> rfl

theorem _insert_spec {k : Nat} {t : vEBTree} {S : Set Int} (h : Stores k t S) :
    ∀ (fuel : Nat) (x : Int), k ≤ fuel → 0 ≤ x → x < 2 ^ k → x ∉ S →
      ∃ t1, _insert fuel t x = .ok t1 ∧ Stores k t1 (insert x S) := by
  induction h with
  | base mn mx S hS hmm =>
    intro fuel x hf hx0 hx hxS
    obtain ⟨f, rfl⟩ : ∃ f, fuel = f + 1 := ⟨fuel - 1, by omega⟩
    by_cases hmn : mn = -1
    · have hSe : S = ∅ := (hmm.min_invalid_iff hS).1 hmn
      subst hSe
      refine ⟨mk none [] 2 x x, ?_, ?_⟩
      · simp only [_insert, getMin_mk, InvalidValue, hmn, if_true, emptyTreeInsert_mk]
      · have := (Stores.base mn mx ∅ hS hmm).emptyTreeInsert x hx0 hx
        rw [emptyTreeInsert_mk] at this
        simpa using this
    · obtain ⟨h1, h2⟩ := hmm.of_min_valid hmn
      refine ⟨_, _insert_base f mn mx x hmn, ?_⟩
      refine Stores.base _ _ _ ?_ (minMax_insert x h1 h2)
      intro z hz
      rcases hz with hz | hz
      · subst hz; exact ⟨hx0, by simpa using hx⟩
      · exact hS hz
  | node k hk s cs mn mx S hS hmm hlen hs hc ihs ihc =>
    intro fuel x hf hx0 hx hxS
    obtain ⟨f, rfl⟩ : ∃ f, fuel = f + 1 := ⟨fuel - 1, by omega⟩
    by_cases hmn : mn = -1
    · have hSe : S = ∅ := (hmm.min_invalid_iff hS).1 hmn
      subst hSe
      refine ⟨mk (some s) cs (2 ^ k) x x, ?_, ?_⟩
      · simp only [_insert, getMin_mk, InvalidValue, hmn, if_true, emptyTreeInsert_mk]
      · have := (Stores.node k hk s cs mn mx ∅ hS hmm hlen hs hc).emptyTreeInsert x hx0 hx
        rw [emptyTreeInsert_mk] at this
        simpa using this
    · obtain ⟨h1, h2⟩ := hmm.of_min_valid hmn
      have hd := two_pow_pos (k / 2)
      have hmnS := hS h1.1
      simp only [Set.mem_Ico] at hmnS
      -- the value pushed into the clusters
      obtain ⟨val, hval⟩ : ∃ val, val = if x < mn then mn else x := ⟨_, rfl⟩
      have hv0 : 0 ≤ val := by rw [hval]; split <;> omega
      have hv : val < 2 ^ (k - k / 2) * 2 ^ (k / 2) := by
        rw [pow_split, hval]; split <;> omega
      have hrest := rest_insert x h1.1 hxS
      rw [← hval] at hrest
      have hvR : val ∉ S \ {mn} := by
        rw [hval]
        split
        · simp
        · intro hh; exact hxS hh.1
      have hS1 : insert x S ⊆ Set.Ico 0 (2 ^ k) := by
        intro z hz
        rcases hz with hz | hz
        · subst hz; exact ⟨hx0, hx⟩
        · exact hS hz
      have hb := div_bounds (2 ^ (k / 2)) (2 ^ (k - k / 2)) val hd hv0 hv
      have hmb := mod_bounds (2 ^ (k / 2)) val hd
      obtain ⟨c, hcs, hilt, hcast⟩ := cluster_exists cs k _ hlen hb.1 hb.2
      have hcS := hc _ c hcs
      rw [hcast] at hcS
      by_cases hcm : c.getMin = -1
      · -- the cluster is empty
        have hCe := hcS.getMin_invalid_iff.1 hcm
        have hnotin : val / 2 ^ (k / 2) ∉ summarySet (S \ {mn}) (2 ^ (k / 2)) (2 ^ (k - k / 2)) := by
          intro hh
          obtain ⟨_, _, y, hy⟩ := hh
          rw [hCe] at hy
          exact absurd hy (by simp)
        obtain ⟨b, hb1, hb2⟩ := contains_spec hs f (val / 2 ^ (k / 2)) (by omega) hb.1 hb.2
        have hbf : b = false := by
          cases b with
          | false => rfl
          | true => exact absurd (hb2.1 rfl) hnotin
        subst hbf
        obtain ⟨s1, hs1, hs1S⟩ := ihs f (val / 2 ^ (k / 2)) (by omega) hb.1 hb.2 hnotin
        refine ⟨_, _insert_node_empty f k hk s cs mn mx x hmn (val / 2 ^ (k / 2)).toNat c s1
          (hval ▸ hv0) (by rw [← hval, hcast]) hcs hcm (by rw [← hval]; exact hb1)
          (by rw [← hval]; exact hs1), ?_⟩
        rw [← hval]
        refine Stores.node k hk s1 _ _ _ _ hS1 (hval ▸ minMax_insert x h1 h2) (by simpa using hlen)
          ?_ ?_
        · refine hs1S.congr ?_
          rw [hrest, summarySet_insert _ _ _ _ hd hv0 hv]
        · intro j c2 hj
          rw [hrest]
          rcases getElem?_set_cases _ _ _ _ _ hj with ⟨rfl, rfl⟩ | ⟨hne, hj2⟩
          · rw [hcast, clusterSet_insert_same _ _ _ hd, hCe]
            have := (hcS.congr hCe).emptyTreeInsert (val % 2 ^ (k / 2)) hmb.1 hmb.2
            simpa using this
          · rw [clusterSet_insert_other]
            · exact hc j c2 hj2
            · intro e
              apply hne
              have : ((j : Nat) : Int) = (((val / 2 ^ (k / 2)).toNat : Nat) : Int) := by
                rw [hcast, e]
              exact_mod_cast this
      · -- the cluster is not empty
        have hCne : clusterSet (S \ {mn}) (2 ^ (k / 2)) (val / 2 ^ (k / 2)) ≠ ∅ := fun e =>
          hcm (hcS.getMin_invalid_iff.2 e)
        have hlow : val % 2 ^ (k / 2) ∉ clusterSet (S \ {mn}) (2 ^ (k / 2)) (val / 2 ^ (k / 2)) := by
          rw [low_mem_clusterSet _ _ _ hd]
          exact hvR
        obtain ⟨c1, hc1, hc1S⟩ := ihc _ c hcs f (val % 2 ^ (k / 2)) (by omega) hmb.1 hmb.2
          (by rw [hcast]; exact hlow)
        rw [hcast] at hc1S
        refine ⟨_, _insert_node_nonempty f k hk s cs mn mx x hmn (val / 2 ^ (k / 2)).toNat c c1
          (hval ▸ hv0) (by rw [← hval, hcast]) hcs hcm (by rw [← hval]; exact hc1), ?_⟩
        rw [← hval]
        refine Stores.node k hk s _ _ _ _ hS1 (hval ▸ minMax_insert x h1 h2) (by simpa using hlen)
          ?_ ?_
        · refine hs.congr ?_
          rw [hrest, summarySet_insert _ _ _ _ hd hv0 hv, Set.insert_eq_of_mem]
          obtain ⟨y, hy⟩ := Set.nonempty_iff_ne_empty.2 hCne
          exact ⟨hb.1, hb.2, y, hy⟩
        · intro j c2 hj
          rw [hrest]
          rcases getElem?_set_cases _ _ _ _ _ hj with ⟨rfl, rfl⟩ | ⟨hne, hj2⟩
          · rw [hcast, clusterSet_insert_same _ _ _ hd]
            exact hc1S
          · rw [clusterSet_insert_other]
            · exact hc j c2 hj2
            · intro e
              apply hne
              have : ((j : Nat) : Int) = (((val / 2 ^ (k / 2)).toNat : Nat) : Int) := by
                rw [hcast, e]
              exact_mod_cast this

/-! ## Method `_erase` -/

theorem _erase_single (f : Nat) (s : Option vEBTree) (cs : List vEBTree) (u mn mx x : Int)
    (h : mn = mx) :
    _erase (f + 1) (mk s cs u mn mx) x = .ok (mk s cs u (-1) (-1)) := by
  simp only [_erase, getMin_mk, getMax_mk, h, if_true, setMin_mk, setMax_mk, InvalidValue]

theorem _erase_base (f : Nat) (mn mx x : Int) (h : mn ≠ mx) :
    _erase (f + 1) (mk none [] 2 mn mx) x
      = .ok (mk none [] 2 (if x = 0 then 1 else 0) (if x = 0 then 1 else 0)) := by
  simp only [_erase, getMin_mk, getMax_mk, h, if_false, getU_mk, if_true]
  split <;> rfl

/-- One step of `_erase` in a node with more than one element when the cluster of the erased
value keeps an element. The value erased below is `val`: `x` itself, or the first element of
the first cluster when `x` is the minimum. -/
theorem _erase_node_nonempty (f k : Nat) (hk : 2 ≤ k) (s : vEBTree) (cs : List vEBTree)
    (mn mx x val : Int) (hne : mn ≠ mx) (j i : Nat) (c0 c c1 : vEBTree)
    (hmin : x = mn → s.getMin = (j : Int) ∧ cs[j]? = some c0 ∧
      val = (j : Int) * 2 ^ (k / 2) + c0.getMin)
    (hoth : x ≠ mn → val = x)
    (hv0 : 0 ≤ val)
    (hi : val / 2 ^ (k / 2) = (i : Int)) (hc : cs[i]? = some c)
    (hc1 : _erase f c (val % 2 ^ (k / 2)) = .ok c1)
    (hcm : c1.getMin ≠ -1) :
    _erase (f + 1) (mk (some s) cs (2 ^ k) mn mx) x
      = .ok (mk (some s) (cs.set i c1) (2 ^ k) (if x = mn then val else mn)
          (if val = mx then (i : Int) * 2 ^ (k / 2) + c1.getMax else mx)) := by
  have hu := two_pow_ne_two k hk
  simp only [_erase, getMin_mk, getMax_mk, hne, if_false, getU_mk, hu]
  by_cases hx : x = mn
  · obtain ⟨e1, e2, e3⟩ := hmin hx
    simp only [hx, if_true, derefSummary_mk, except_ok_bind, e1,
      cluster_at _ _ _ _ _ _ j c0 rfl e2, index_mk, ← e3, except_pure, setMin_mk, high_mk,
      low_mk _ _ _ _ _ _ hv0, hi, cluster_at _ _ _ _ _ _ i c rfl hc, hc1,
      setCluster_at _ _ _ _ _ _ i c _ rfl hc, InvalidValue, hcm, if_false, getMax_mk, setMax_mk]
    split <;> rfl
  · have e3 := hoth hx
    subst e3
    simp only [hx, if_false, except_ok_bind, index_mk, except_pure, high_mk,
      low_mk _ _ _ _ _ _ hv0, hi, cluster_at _ _ _ _ _ _ i c rfl hc, hc1,
      setCluster_at _ _ _ _ _ _ i c _ rfl hc, InvalidValue, hcm, getMax_mk, setMax_mk]
    split <;> rfl

/-- One step of `_erase` in a node with more than one element when the cluster of the erased
value becomes empty and the maximum stays or falls back to the minimum. -/
theorem _erase_node_empty (f k : Nat) (hk : 2 ≤ k) (s : vEBTree) (cs : List vEBTree)
    (mn mx x val : Int) (hne : mn ≠ mx) (j i : Nat) (c0 c c1 s1 : vEBTree)
    (hmin : x = mn → s.getMin = (j : Int) ∧ cs[j]? = some c0 ∧
      val = (j : Int) * 2 ^ (k / 2) + c0.getMin)
    (hoth : x ≠ mn → val = x)
    (hv0 : 0 ≤ val)
    (hi : val / 2 ^ (k / 2) = (i : Int)) (hc : cs[i]? = some c)
    (hc1 : _erase f c (val % 2 ^ (k / 2)) = .ok c1)
    (hcm : c1.getMin = -1)
    (hs1 : _erase f s (i : Int) = .ok s1)
    (hmax : val = mx → s1.getMax = -1) :
    _erase (f + 1) (mk (some s) cs (2 ^ k) mn mx) x
      = .ok (mk (some s1) (cs.set i c1) (2 ^ k) (if x = mn then val else mn)
          (if val = mx then (if x = mn then val else mn) else mx)) := by
  have hu := two_pow_ne_two k hk
  simp only [_erase, getMin_mk, getMax_mk, hne, if_false, getU_mk, hu]
  by_cases hx : x = mn
  · obtain ⟨e1, e2, e3⟩ := hmin hx
    simp only [hx, if_true, derefSummary_mk, except_ok_bind, e1,
      cluster_at _ _ _ _ _ _ j c0 rfl e2, index_mk, ← e3, except_pure, setMin_mk, high_mk,
      low_mk _ _ _ _ _ _ hv0, hi, cluster_at _ _ _ _ _ _ i c rfl hc, hc1,
      setCluster_at _ _ _ _ _ _ i c _ rfl hc, InvalidValue, hcm, getMax_mk, setMax_mk,
      hs1, setSummary_mk, getMin_mk]
    by_cases hv : val = mx
    · simp only [hv, if_true, hmax hv]
    · simp only [hv, if_false]
  · have e3 := hoth hx
    subst e3
    simp only [hx, if_false, if_true, derefSummary_mk, except_ok_bind, index_mk, except_pure,
      high_mk,
      low_mk _ _ _ _ _ _ hv0, hi, cluster_at _ _ _ _ _ _ i c rfl hc, hc1,
      setCluster_at _ _ _ _ _ _ i c _ rfl hc, InvalidValue, hcm, getMax_mk, setMax_mk,
      hs1, setSummary_mk, getMin_mk]
    by_cases hv : val = mx
    · simp only [hv, if_true, hmax hv]
    · simp only [hv, if_false]

/-- One step of `_erase` in a node with more than one element when the cluster of the erased
maximum becomes empty and another cluster holds the new maximum. -/
theorem _erase_node_newmax (f k : Nat) (hk : 2 ≤ k) (s : vEBTree) (cs : List vEBTree)
    (mn mx x val : Int) (hne : mn ≠ mx) (j i j2 : Nat) (c0 c c1 s1 c2 : vEBTree)
    (hmin : x = mn → s.getMin = (j : Int) ∧ cs[j]? = some c0 ∧
      val = (j : Int) * 2 ^ (k / 2) + c0.getMin)
    (hoth : x ≠ mn → val = x)
    (hv0 : 0 ≤ val)
    (hi : val / 2 ^ (k / 2) = (i : Int)) (hc : cs[i]? = some c)
    (hc1 : _erase f c (val % 2 ^ (k / 2)) = .ok c1)
    (hcm : c1.getMin = -1)
    (hs1 : _erase f s (i : Int) = .ok s1)
    (hv : val = mx) (hsm : s1.getMax ≠ -1) (hj2 : s1.getMax = (j2 : Int))
    (hc2 : (cs.set i c1)[j2]? = some c2) :
    _erase (f + 1) (mk (some s) cs (2 ^ k) mn mx) x
      = .ok (mk (some s1) (cs.set i c1) (2 ^ k) (if x = mn then val else mn)
          ((j2 : Int) * 2 ^ (k / 2) + c2.getMax)) := by
  have hu := two_pow_ne_two k hk
  subst hv
  simp only [_erase, getMin_mk, getMax_mk, hne, if_false, getU_mk, hu]
  by_cases hx : x = mn
  · obtain ⟨e1, e2, e3⟩ := hmin hx
    simp only [hx, if_true, derefSummary_mk, except_ok_bind, e1,
      cluster_at _ _ _ _ _ _ j c0 rfl e2, index_mk, ← e3, except_pure, setMin_mk, high_mk,
      low_mk _ _ _ _ _ _ hv0, hi, cluster_at _ _ _ _ _ _ i c rfl hc, hc1,
      setCluster_at _ _ _ _ _ _ i c _ rfl hc, InvalidValue, hcm, getMax_mk, setMax_mk,
      hs1, setSummary_mk, getMin_mk, hsm, if_false]
    rw [hj2] at hsm ⊢
    simp only [cluster_at _ _ _ _ _ _ j2 c2 rfl hc2, except_ok_bind]
  · have e3 := hoth hx
    subst e3
    simp only [hx, if_false, if_true, derefSummary_mk, except_ok_bind, index_mk, except_pure,
      high_mk,
      low_mk _ _ _ _ _ _ hv0, hi, cluster_at _ _ _ _ _ _ i c rfl hc, hc1,
      setCluster_at _ _ _ _ _ _ i c _ rfl hc, InvalidValue, hcm, getMax_mk, setMax_mk,
      hs1, setSummary_mk, getMin_mk, hsm]
    rw [hj2] at hsm ⊢
    simp only [cluster_at _ _ _ _ _ _ j2 c2 rfl hc2, except_ok_bind]

/-! ## Least and greatest elements through the clusters -/

theorem least_join (R : Set Int) (d i y : Int) (hd : 0 < d)
    (hy : IsLeast (clusterSet R d i) y) (hi : ∀ r ∈ R, i ≤ r / d) : IsLeast R (i * d + y) := by
  refine ⟨hy.1.2.2, ?_⟩
  intro r hr
  have hb := mod_bounds d r hd
  have h1 := hi r hr
  rw [← split_join d r]
  rcases lt_or_eq_of_le h1 with h2 | h2
  · exact le_of_lt ((join_lt_join d i y (r / d) (r % d) hy.1.1 hy.1.2.1 hb.1 hb.2).2 (Or.inl h2))
  · have h3 : r % d ∈ clusterSet R d i := by
      rw [h2, low_mem_clusterSet R d r hd]; exact hr
    have := hy.2 h3
    rw [← h2]
    omega

theorem greatest_join (R : Set Int) (d i y : Int) (hd : 0 < d)
    (hy : IsGreatest (clusterSet R d i) y) (hi : ∀ r ∈ R, r / d ≤ i) :
    IsGreatest R (i * d + y) := by
  refine ⟨hy.1.2.2, ?_⟩
  intro r hr
  have hb := mod_bounds d r hd
  have h1 := hi r hr
  rw [← split_join d r]
  rcases lt_or_eq_of_le h1 with h2 | h2
  · exact le_of_lt ((join_lt_join d (r / d) (r % d) i y hb.1 hb.2 hy.1.1 hy.1.2.1).2 (Or.inl h2))
  · have h3 : r % d ∈ clusterSet R d i := by
      rw [← h2, low_mem_clusterSet R d r hd]; exact hr
    have := hy.2 h3
    rw [h2]
    omega

theorem summary_least_bound (R : Set Int) (d m j : Int) (hd : 0 < d)
    (hR : R ⊆ Set.Ico 0 (m * d)) (hj : IsLeast (summarySet R d m) j) : ∀ r ∈ R, j ≤ r / d := by
  intro r hr
  have := hR hr
  exact hj.2 (high_mem_summarySet R d m r hd this.1 this.2 hr)

theorem summary_greatest_bound (R : Set Int) (d m j : Int) (hd : 0 < d)
    (hR : R ⊆ Set.Ico 0 (m * d)) (hj : IsGreatest (summarySet R d m) j) :
    ∀ r ∈ R, r / d ≤ j := by
  intro r hr
  have := hR hr
  exact hj.2 (high_mem_summarySet R d m r hd this.1 this.2 hr)

theorem eq_empty_of_summarySet (R : Set Int) (d m : Int) (hd : 0 < d)
    (hR : R ⊆ Set.Ico 0 (m * d)) (h : summarySet R d m = ∅) : R = ∅ := by
  rw [Set.eq_empty_iff_forall_not_mem]
  intro r hr
  have := hR hr
  have h2 := high_mem_summarySet R d m r hd this.1 this.2 hr
  rw [h] at h2
  exact absurd h2 (by simp)

theorem greatest_of_rest {S : Set Int} {mn g : Int} (h1 : IsLeast S mn)
    (h2 : IsGreatest (S \ {mn}) g) : IsGreatest S g := by
  refine ⟨h2.1.1, ?_⟩
  intro z hz
  by_cases hzm : z = mn
  · rw [hzm]; exact h1.2 h2.1.1
  · exact h2.2 ⟨hz, hzm⟩

theorem greatest_of_rest_empty {S : Set Int} {mn : Int} (h1 : IsLeast S mn)
    (h2 : S \ {mn} = ∅) : IsGreatest S mn := by
  refine ⟨h1.1, ?_⟩
  intro z hz
  by_cases hzm : z = mn
  · rw [hzm]
  · have : z ∈ S \ {mn} := ⟨hz, hzm⟩
    rw [h2] at this
    exact absurd this (by simp)

theorem eq_singleton_of_least_greatest {S : Set Int} {a : Int} (h1 : IsLeast S a)
    (h2 : IsGreatest S a) : S = {a} := by
  ext z
  constructor
  · intro hz
    have a1 := h1.2 hz
    have a2 := h2.2 hz
    exact le_antisymm a2 a1
  · intro hz
    rw [Set.mem_singleton_iff] at hz
    rw [hz]; exact h1.1

/-- Putting a node together again after one cluster and the summary have changed. -/
theorem stores_assemble (k : Nat) (hk : 2 ≤ k) (s1 : vEBTree) (cs : List vEBTree) (i : Nat)
    (c1 : vEBTree) (mn1 mx1 : Int) (S1 R R1 : Set Int)
    (hS1 : S1 ⊆ Set.Ico 0 (2 ^ k)) (hl : IsLeast S1 mn1) (hg : IsGreatest S1 mx1)
    (hR1 : S1 \ {mn1} = R1) (hlen : cs.length = 2 ^ (k - k / 2))
    (hs1 : Stores (k - k / 2) s1 (summarySet R1 (2 ^ (k / 2)) (2 ^ (k - k / 2))))
    (hcs : ∀ (j : Nat) (c : vEBTree), cs[j]? = some c →
      Stores (k / 2) c (clusterSet R (2 ^ (k / 2)) j))
    (hc1 : Stores (k / 2) c1 (clusterSet R1 (2 ^ (k / 2)) i))
    (hother : ∀ j : Nat, j ≠ i → clusterSet R1 (2 ^ (k / 2)) j = clusterSet R (2 ^ (k / 2)) j) :
    Stores k (mk (some s1) (cs.set i c1) (2 ^ k) mn1 mx1) S1 := by
  refine Stores.node k hk s1 _ mn1 mx1 S1 hS1 (Or.inr ⟨hl, hg⟩) (by simpa using hlen) ?_ ?_
  · rw [hR1]; exact hs1
  · intro j c2 hj
    rw [hR1]
    rcases getElem?_set_cases _ _ _ _ _ hj with ⟨rfl, rfl⟩ | ⟨hne, hj2⟩
    · exact hc1
    · rw [hother j hne]
      exact hcs j c2 hj2

theorem _erase_spec {k : Nat} {t : vEBTree} {S : Set Int} (h : Stores k t S) :
    ∀ (fuel : Nat) (x : Int), k ≤ fuel → x ∈ S →
      ∃ t1, _erase fuel t x = .ok t1 ∧ Stores k t1 (S \ {x}) := by
  induction h with
  | base mn mx S hS hmm =>
    intro fuel x hf hxS
    obtain ⟨f, rfl⟩ : ∃ f, fuel = f + 1 := ⟨fuel - 1, by omega⟩
    obtain ⟨h1, h2⟩ := hmm.of_mem hxS
    by_cases hne : mn = mx
    · subst hne
      have hSe := eq_singleton_of_least_greatest h1 h2
      refine ⟨_, _erase_single f none [] 2 mn mn x rfl, ?_⟩
      refine Stores.base _ _ _ (Set.diff_subset.trans hS) (Or.inl ⟨?_, rfl, rfl⟩)
      rw [hSe] at hxS ⊢
      rw [Set.mem_singleton_iff] at hxS
      rw [hxS]
      simp
    · refine ⟨_, _erase_base f mn mx x hne, ?_⟩
      have a1 := hS h1.1
      have a2 := hS h2.1
      have a3 := h1.2 h2.1
      simp only [Set.mem_Ico] at a1 a2
      have hmn0 : mn = 0 := by omega
      have hmx1 : mx = 1 := by omega
      refine Stores.base _ _ _ (Set.diff_subset.trans hS) ?_
      have hSx : S \ {x} = {if x = 0 then 1 else 0} := by
        ext z
        simp only [Set.mem_diff, Set.mem_singleton_iff]
        constructor
        · rintro ⟨hz, hzx⟩
          have b1 := hS hz
          have b2 := hS hxS
          simp only [Set.mem_Ico] at b1 b2
          split <;> omega
        · intro hz
          by_cases hx0 : x = 0
          · rw [if_pos hx0] at hz
            subst hz
            exact ⟨hmx1 ▸ h2.1, by omega⟩
          · rw [if_neg hx0] at hz
            subst hz
            exact ⟨hmn0 ▸ h1.1, fun e => hx0 e.symm⟩
      rw [hSx]
      exact minMax_singleton _
  | node k hk s cs mn mx S hS hmm hlen hs hc ihs ihc =>
    intro fuel x hf hxS
    obtain ⟨f, rfl⟩ : ∃ f, fuel = f + 1 := ⟨fuel - 1, by omega⟩
    obtain ⟨h1, h2⟩ := hmm.of_mem hxS
    by_cases hne : mn = mx
    · subst hne
      have hSe := eq_singleton_of_least_greatest h1 h2
      have hx : x = mn := by rw [hSe] at hxS; simpa using hxS
      refine ⟨_, _erase_single f (some s) cs (2 ^ k) mn mn x rfl, ?_⟩
      have hR : S \ {mn} = ∅ := by rw [hSe]; simp
      have hSx : S \ {x} = ∅ := by rw [hx, hR]
      rw [hSx]
      refine Stores.node k hk s cs (-1) (-1) ∅ (by simp) minMax_empty hlen ?_ ?_
      · refine hs.congr ?_
        rw [hR]; simp
      · intro i c hi
        refine (hc i c hi).congr ?_
        rw [hR]; simp
    · have hd := two_pow_pos (k / 2)
      have hRsub : S \ {mn} ⊆ Set.Ico 0 (2 ^ (k - k / 2) * 2 ^ (k / 2)) := by
        rw [pow_split]; exact Set.diff_subset.trans hS
      have hmxR : mx ∈ S \ {mn} := ⟨h2.1, fun e => hne e.symm⟩
      -- the value erased below
      obtain ⟨val, j, c0, hmin, hoth, hvR, hl1, hrest⟩ : ∃ (val : Int) (j : Nat) (c0 : vEBTree),
          (x = mn → s.getMin = (j : Int) ∧ cs[j]? = some c0 ∧
            val = (j : Int) * 2 ^ (k / 2) + c0.getMin) ∧
          (x ≠ mn → val = x) ∧ val ∈ S \ {mn} ∧
          IsLeast (S \ {x}) (if x = mn then val else mn) ∧
          (S \ {x}) \ {if x = mn then val else mn} = (S \ {mn}) \ {val} := by
        by_cases hx : x = mn
        · have hsum := high_mem_summarySet _ _ _ _ hd (hRsub hmxR).1 (hRsub hmxR).2 hmxR
          obtain ⟨hsl, _⟩ := hs.minMax.of_mem hsum
          obtain ⟨hj0, hjm, y, hy⟩ := hsl.1
          obtain ⟨c0, hc0, _, hcast⟩ := cluster_exists cs k _ hlen hj0 hjm
          have hc0S := hc _ c0 hc0
          rw [hcast] at hc0S
          obtain ⟨hcl, _⟩ := hc0S.minMax.of_mem hy
          have hleast := least_join _ _ _ _ hd hcl (summary_least_bound _ _ _ _ hd hRsub hsl)
          refine ⟨s.getMin * 2 ^ (k / 2) + c0.getMin, s.getMin.toNat, c0,
            fun _ => ⟨hcast.symm, hc0, by rw [hcast]⟩, fun h => absurd hx h, hleast.1, ?_, ?_⟩
          · rw [if_pos hx, hx]; exact hleast
          · rw [if_pos hx, hx]
        · refine ⟨x, 0, s, fun h => absurd h hx, fun _ => rfl, ⟨hxS, hx⟩, ?_, ?_⟩
          · rw [if_neg hx]
            exact ⟨⟨h1.1, fun e => hx e.symm⟩, fun z hz => h1.2 hz.1⟩
          · rw [if_neg hx]
            ext z
            simp only [Set.mem_diff, Set.mem_singleton_iff]
            tauto
      have hvb := hRsub hvR
      have hb := div_bounds _ _ val hd hvb.1 hvb.2
      have hmb := mod_bounds (2 ^ (k / 2)) val hd
      obtain ⟨c, hcs, hilt, hcast⟩ := cluster_exists cs k _ hlen hb.1 hb.2
      have hcS := hc _ c hcs
      rw [hcast] at hcS
      have hlowC := (low_mem_clusterSet _ _ _ hd).2 hvR
      obtain ⟨c1, hc1, hc1S⟩ := ihc _ c hcs f (val % 2 ^ (k / 2)) (by omega)
        (by rw [hcast]; exact hlowC)
      rw [hcast, ← clusterSet_diff_same _ _ _ hd] at hc1S
      have hS1 : S \ {x} ⊆ Set.Ico 0 (2 ^ k) := Set.diff_subset.trans hS
      have hother : ∀ j : Nat, j ≠ (val / 2 ^ (k / 2)).toNat →
          clusterSet ((S \ {mn}) \ {val}) (2 ^ (k / 2)) j
            = clusterSet (S \ {mn}) (2 ^ (k / 2)) j := by
        intro j hj
        apply clusterSet_diff_other
        intro e
        apply hj
        have : ((j : Nat) : Int) = (((val / 2 ^ (k / 2)).toNat : Nat) : Int) := by rw [hcast, e]
        exact_mod_cast this
      have hmxS1 : val ≠ mx → IsGreatest (S \ {x}) mx := by
        intro hvm
        refine ⟨⟨h2.1, ?_⟩, fun z hz => h2.2 hz.1⟩
        intro e
        rw [Set.mem_singleton_iff] at e
        by_cases hx : x = mn
        · exact hne (by rw [← hx, ← e])
        · exact hvm (by rw [hoth hx]; exact e.symm)
      have hR1sub : (S \ {mn}) \ {val} ⊆ Set.Ico 0 (2 ^ (k - k / 2) * 2 ^ (k / 2)) :=
        Set.diff_subset.trans hRsub
      by_cases hcm : c1.getMin = -1
      · have hC1e := hc1S.getMin_invalid_iff.1 hcm
        have hhi := high_mem_summarySet _ _ _ _ hd hvb.1 hvb.2 hvR
        obtain ⟨s1, hs1, hs1S⟩ := ihs f (val / 2 ^ (k / 2)) (by omega) hhi
        rw [← summarySet_diff_empty _ _ _ _ hC1e] at hs1S
        by_cases hnm : val = mx ∧ s1.getMax ≠ -1
        · obtain ⟨hvm, hsm⟩ := hnm
          obtain ⟨_, hsg⟩ := hs1S.minMax.of_max_valid hsm
          obtain ⟨hj0, hjm, y, hy⟩ := hsg.1
          obtain ⟨c2, hc2, _, hcast2⟩ := cluster_exists cs k _ hlen hj0 hjm
          have hj2ne : s1.getMax.toNat ≠ (val / 2 ^ (k / 2)).toNat := by
            intro e
            have e2 : s1.getMax = val / 2 ^ (k / 2) := by rw [← hcast2, e, hcast]
            rw [e2, hC1e] at hy
            exact absurd hy (by simp)
          have hc2set : (cs.set (val / 2 ^ (k / 2)).toNat c1)[s1.getMax.toNat]? = some c2 := by
            rw [List.getElem?_set_ne (Ne.symm hj2ne)]; exact hc2
          have hc2S := hc _ c2 hc2
          rw [← hother _ hj2ne, hcast2] at hc2S
          obtain ⟨_, hc2g⟩ := hc2S.minMax.of_mem hy
          have hgr := greatest_join _ _ _ _ hd hc2g
            (summary_greatest_bound _ _ _ _ hd hR1sub hsg)
          rw [← hrest] at hgr
          refine ⟨_, _erase_node_newmax f k hk s cs mn mx x val hne j (val / 2 ^ (k / 2)).toNat
            s1.getMax.toNat c0 c c1 s1 c2 hmin hoth hvb.1 hcast.symm hcs hc1 hcm
            (by rw [hcast]; exact hs1) hvm hsm hcast2.symm hc2set, ?_⟩
          rw [hcast2]
          exact stores_assemble k hk s1 cs _ c1 _ _ _ (S \ {mn}) _ hS1 hl1
            (greatest_of_rest hl1 hgr) hrest hlen hs1S hc (by rw [hcast]; exact hc1S) hother
        · have hmax : val = mx → s1.getMax = -1 := by
            intro hv
            by_contra hh
            exact hnm ⟨hv, hh⟩
          refine ⟨_, _erase_node_empty f k hk s cs mn mx x val hne j (val / 2 ^ (k / 2)).toNat
            c0 c c1 s1 hmin hoth hvb.1 hcast.symm hcs hc1 hcm (by rw [hcast]; exact hs1) hmax, ?_⟩
          refine stores_assemble k hk s1 cs _ c1 _ _ _ (S \ {mn}) _ hS1 hl1 ?_ hrest hlen hs1S hc
            (by rw [hcast]; exact hc1S) hother
          by_cases hv : val = mx
          · rw [if_pos hv]
            apply greatest_of_rest_empty hl1
            rw [hrest]
            exact eq_empty_of_summarySet _ _ _ hd hR1sub (hs1S.getMax_invalid_iff.1 (hmax hv))
          · rw [if_neg hv]; exact hmxS1 hv
      · have hC1ne : (clusterSet ((S \ {mn}) \ {val}) (2 ^ (k / 2)) (val / 2 ^ (k / 2))).Nonempty :=
          Set.nonempty_iff_ne_empty.2 (fun e => hcm (hc1S.getMin_invalid_iff.2 e))
        refine ⟨_, _erase_node_nonempty f k hk s cs mn mx x val hne j (val / 2 ^ (k / 2)).toNat
          c0 c c1 hmin hoth hvb.1 hcast.symm hcs hc1 hcm, ?_⟩
        refine stores_assemble k hk s cs _ c1 _ _ _ (S \ {mn}) _ hS1 hl1 ?_ hrest hlen
          (by rw [summarySet_diff_nonempty _ _ _ _ hd hvb.1 hvb.2 hC1ne]; exact hs) hc
          (by rw [hcast]; exact hc1S) hother
        by_cases hv : val = mx
        · rw [if_pos hv, hcast]
          obtain ⟨y, hy⟩ := hC1ne
          obtain ⟨_, hc1g⟩ := hc1S.minMax.of_mem hy
          have hgr := greatest_join ((S \ {mn}) \ {val}) _ _ _ hd hc1g (by
            intro r hr
            have : r ≤ val := by rw [hv]; exact h2.2 hr.1.1
            exact Int.ediv_le_ediv hd this)
          rw [← hrest] at hgr
          exact greatest_of_rest hl1 hgr
        · rw [if_neg hv]; exact hmxS1 hv

/-! ## The public methods `insert` and `erase` -/

theorem Stores.le_fuel {k : Nat} {t : vEBTree} {S : Set Int} (h : Stores k t S) : k ≤ t.fuel := by
  unfold fuel
  rw [h.getU, toNat_two_pow]
  exact le_of_lt (Nat.lt_two_pow k)

theorem veb_insert_spec {k : Nat} {t : vEBTree} {S : Set Int} (h : Stores k t S) (fuel : Nat)
    (x : Int) (hf : k ≤ fuel) (hx0 : 0 ≤ x) (hx : x < 2 ^ k) :
    ∃ t1, insert fuel t x = .ok t1 ∧ Stores k t1 (Insert.insert x S) ∧ (x ∈ S → t1 = t) := by
  obtain ⟨b, hb1, hb2⟩ := contains_spec h fuel x hf hx0 hx
  cases b with
  | true =>
    have hxS := hb2.1 rfl
    refine ⟨t, ?_, h.congr (Set.insert_eq_of_mem hxS).symm, fun _ => rfl⟩
    simp only [vEBTree.insert, hb1, except_ok_bind, if_true, except_pure]
  | false =>
    have hxS : x ∉ S := fun hh => absurd (hb2.2 hh) (by simp)
    obtain ⟨t1, ht1, ht1S⟩ := _insert_spec h fuel x hf hx0 hx hxS
    refine ⟨t1, ?_, ht1S, fun hh => absurd hh hxS⟩
    simp only [vEBTree.insert, hb1, except_ok_bind, Bool.false_eq_true, if_false, ht1]

theorem veb_erase_spec {k : Nat} {t : vEBTree} {S : Set Int} (h : Stores k t S) (fuel : Nat)
    (x : Int) (hf : k ≤ fuel) (hx0 : 0 ≤ x) (hx : x < 2 ^ k) :
    ∃ t1, erase fuel t x = .ok t1 ∧ Stores k t1 (S \ {x}) ∧ (x ∉ S → t1 = t) := by
  obtain ⟨b, hb1, hb2⟩ := contains_spec h fuel x hf hx0 hx
  cases b with
  | true =>
    have hxS := hb2.1 rfl
    obtain ⟨t1, ht1, ht1S⟩ := _erase_spec h fuel x hf hxS
    refine ⟨t1, ?_, ht1S, fun hh => absurd hxS hh⟩
    simp only [erase, hb1, except_ok_bind, Bool.not_true, Bool.false_eq_true, if_false, ht1]
  | false =>
    have hxS : x ∉ S := fun hh => absurd (hb2.2 hh) (by simp)
    refine ⟨t, ?_, h.congr (Set.diff_singleton_eq_self hxS).symm, fun _ => rfl⟩
    simp only [erase, hb1, except_ok_bind, Bool.not_false, if_true, except_pure]

/-! ## A sequence of calls on a new tree -/

theorem veb_new_spec (k : Nat) (hk : 1 ≤ k) :
    ∃ t, vEBTree.new (2 ^ k) = .ok t ∧ Stores k t ∅ ∧ t.getMin = -1 ∧ t.getMax = -1 := by
  unfold vEBTree.new
  rw [toNat_two_pow]
  exact create_spec k hk _ (le_of_lt (Nat.lt_two_pow k))

theorem stored_append (calls : List vEBCall) (c : vEBCall) (y : Int) :
    vEBCall.stored (calls ++ [c]) y
      = (match c with
        | .insert x => if x = y then true else vEBCall.stored calls y
        | .erase x => if x = y then false else vEBCall.stored calls y) := by
  unfold vEBCall.stored
  rw [List.foldl_append]
  cases c <;> rfl

theorem runAll_append (u : Int) (calls : List vEBCall) (c : vEBCall) :
    vEBCall.runAll u (calls ++ [c]) = (vEBCall.runAll u calls >>= fun t => vEBCall.run t c) := by
  unfold vEBCall.runAll
  cases vEBTree.new u with
  | error e => rfl
  | ok t =>
    simp only [except_ok_bind, List.foldlM_append]
    cases List.foldlM vEBCall.run t calls with
    | error e => rfl
    | ok t1 =>
      simp only [except_ok_bind, List.foldlM]
      cases vEBCall.run t1 c <;> rfl

theorem runAll_spec (k : Nat) (hk : 1 ≤ k) (calls : List vEBCall)
    (hcalls : ∀ c ∈ calls, 0 ≤ c.arg ∧ c.arg < 2 ^ k) :
    ∃ T, vEBCall.runAll (2 ^ k) calls = .ok T ∧
      Stores k T {y | vEBCall.stored calls y = true} := by
  induction calls using List.reverseRecOn with
  | nil =>
    obtain ⟨t, ht, htS, _⟩ := veb_new_spec k hk
    refine ⟨t, ?_, htS.congr ?_⟩
    · simp only [vEBCall.runAll, ht, except_ok_bind, List.foldlM, except_pure]
    · ext y; simp [vEBCall.stored]
  | append_singleton calls c ih =>
    obtain ⟨T, hT, hTS⟩ := ih (fun c1 hc1 => hcalls c1 (by simp [hc1]))
    have hc := hcalls c (by simp)
    rw [runAll_append, hT, except_ok_bind]
    cases c with
    | insert x =>
      simp only [vEBCall.arg] at hc
      obtain ⟨t1, ht1, ht1S, _⟩ := veb_insert_spec hTS T.fuel x hTS.le_fuel hc.1 hc.2
      refine ⟨t1, ht1, ht1S.congr ?_⟩
      ext y
      simp only [Set.mem_insert_iff, Set.mem_setOf_eq, stored_append]
      by_cases hxy : x = y
      · simp [hxy]
      · have hyx : ¬ y = x := fun e => hxy e.symm
        simp [hxy, hyx]
    | erase x =>
      simp only [vEBCall.arg] at hc
      obtain ⟨t1, ht1, ht1S, _⟩ := veb_erase_spec hTS T.fuel x hTS.le_fuel hc.1 hc.2
      refine ⟨t1, ht1, ht1S.congr ?_⟩
      ext y
      simp only [Set.mem_diff, Set.mem_singleton_iff, Set.mem_setOf_eq, stored_append]
      by_cases hxy : x = y
      · simp [hxy]
      · have hyx : ¬ y = x := fun e => hxy e.symm
        simp [hxy, hyx]

/-! ## Method `successor` -/

theorem le_of_same_high (d x y : Int) (h1 : y / d = x / d) (h2 : y % d ≤ x % d) : y ≤ x := by
  have e1 := split_join d y
  have e2 := split_join d x
  rw [h1] at e1
  omega

theorem successor_spec {k : Nat} {t : vEBTree} {S : Set Int} (h : Stores k t S) :
    ∀ (fuel : Nat) (x : Int), k ≤ fuel → 0 ≤ x → x < 2 ^ k →
      ∃ r, successor fuel t x = .ok r ∧
        ((r = -1 ∧ ∀ y ∈ S, y ≤ x) ∨ IsLeast {y | y ∈ S ∧ x < y} r) := by
  induction h with
  | base mn mx S hS hmm =>
    intro fuel x hf hx0 hx
    obtain ⟨f, rfl⟩ : ∃ f, fuel = f + 1 := ⟨fuel - 1, by omega⟩
    simp only [successor, getU_mk, if_true, getMax_mk, InvalidValue]
    by_cases h1 : x = 0 ∧ mx = 1
    · rw [if_pos h1]
      refine ⟨1, rfl, Or.inr ?_⟩
      obtain ⟨_, hg⟩ := hmm.of_max_valid (by omega)
      refine ⟨⟨h1.2 ▸ hg.1, by omega⟩, ?_⟩
      intro y hy
      have := hy.2
      omega
    · rw [if_neg h1]
      refine ⟨-1, rfl, Or.inl ⟨rfl, ?_⟩⟩
      intro y hy
      obtain ⟨_, hg⟩ := hmm.of_mem hy
      have a1 := hg.2 hy
      have a2 := hS hg.1
      have a3 := hS hy
      simp only [Set.mem_Ico] at a2 a3
      have hx2 : x < 2 := by simpa using hx
      by_contra hc
      apply h1
      constructor <;> omega
  | node k hk s cs mn mx S hS hmm hlen hs hc ihs ihc =>
    intro fuel x hf hx0 hx
    obtain ⟨f, rfl⟩ : ∃ f, fuel = f + 1 := ⟨fuel - 1, by omega⟩
    have hd := two_pow_pos (k / 2)
    have hu := two_pow_ne_two k hk
    have hxb : x < 2 ^ (k - k / 2) * 2 ^ (k / 2) := by rw [pow_split]; exact hx
    have hb := div_bounds _ _ x hd hx0 hxb
    have hmb := mod_bounds (2 ^ (k / 2)) x hd
    have hRsub : S \ {mn} ⊆ Set.Ico 0 (2 ^ (k - k / 2) * 2 ^ (k / 2)) := by
      rw [pow_split]; exact Set.diff_subset.trans hS
    obtain ⟨c, hcs, _, hcast⟩ := cluster_exists cs k _ hlen hb.1 hb.2
    have hcS := hc _ c hcs
    rw [hcast] at hcS
    have hcl := cluster_at (some s) cs (2 ^ k) mn mx _ _ c hcast.symm hcs
    by_cases h1 : mn ≠ -1 ∧ x < mn
    · refine ⟨mn, ?_, Or.inr ?_⟩
      · simp only [successor, getU_mk, hu, if_false, getMin_mk, InvalidValue, h1, ne_eq,
          not_false_eq_true, and_self, if_true]
      · obtain ⟨hl, _⟩ := hmm.of_min_valid h1.1
        exact ⟨⟨hl.1, h1.2⟩, fun y hy => hl.2 hy.1⟩
    · have hRmem : ∀ y ∈ S, x < y → y ∈ S \ {mn} := by
        intro y hy hxy
        refine ⟨hy, ?_⟩
        intro e
        rw [Set.mem_singleton_iff] at e
        obtain ⟨hl, _⟩ := hmm.of_mem hy
        have := (hS hl.1).1
        apply h1
        constructor <;> omega
      have hif1 : ¬ (mn ≠ -1 ∧ x < mn) := h1
      by_cases h2 : c.getMax ≠ -1 ∧ x % 2 ^ (k / 2) < c.getMax
      · obtain ⟨_, hcg⟩ := hcS.minMax.of_max_valid h2.1
        obtain ⟨off, hoff, hoffS⟩ := ihc _ c hcs f (x % 2 ^ (k / 2)) (by omega) hmb.1 hmb.2
        rw [hcast] at hoffS
        have hoffL : IsLeast {y | y ∈ clusterSet (S \ {mn}) (2 ^ (k / 2)) (x / 2 ^ (k / 2)) ∧
            x % 2 ^ (k / 2) < y} off := by
          rcases hoffS with ⟨_, hall⟩ | hl
          · have := hall _ hcg.1
            omega
          · exact hl
        refine ⟨x / 2 ^ (k / 2) * 2 ^ (k / 2) + off, ?_, Or.inr ?_⟩
        · simp only [successor, getU_mk, hu, if_false, getMin_mk, InvalidValue, hif1, high_mk,
            low_mk _ _ _ _ _ _ hx0, hcl, except_ok_bind, h2, ne_eq, not_false_eq_true, and_self,
            if_true, hoff, index_mk, except_pure]
        · obtain ⟨⟨hoC, hlt⟩, hleast⟩ := hoffL
          refine ⟨⟨hoC.2.2.1, ?_⟩, ?_⟩
          · have := (join_lt_join (2 ^ (k / 2)) (x / 2 ^ (k / 2)) (x % 2 ^ (k / 2))
              (x / 2 ^ (k / 2)) off hmb.1 hmb.2 hoC.1 hoC.2.1).2 (Or.inr ⟨rfl, hlt⟩)
            rw [split_join] at this
            exact this
          · rintro y ⟨hyS, hxy⟩
            have hyR := hRmem y hyS hxy
            have hyb := mod_bounds (2 ^ (k / 2)) y hd
            have hlex := (join_lt_join (2 ^ (k / 2)) (x / 2 ^ (k / 2)) (x % 2 ^ (k / 2))
              (y / 2 ^ (k / 2)) (y % 2 ^ (k / 2)) hmb.1 hmb.2 hyb.1 hyb.2).1
              (by rw [split_join, split_join]; exact hxy)
            rw [← split_join (2 ^ (k / 2)) y]
            rcases hlex with hlt2 | ⟨heq, hlt2⟩
            · exact le_of_lt ((join_lt_join _ _ _ _ _ hoC.1 hoC.2.1 hyb.1 hyb.2).2 (Or.inl hlt2))
            · have hyC : y % 2 ^ (k / 2) ∈
                  clusterSet (S \ {mn}) (2 ^ (k / 2)) (x / 2 ^ (k / 2)) := by
                rw [heq]; exact (low_mem_clusterSet _ _ _ hd).2 hyR
              have := hleast ⟨hyC, hlt2⟩
              rw [heq]
              omega
      · have hnoC : ∀ y ∈ S \ {mn}, y / 2 ^ (k / 2) = x / 2 ^ (k / 2) →
            y % 2 ^ (k / 2) ≤ x % 2 ^ (k / 2) := by
          intro y hyR heq
          have hyC : y % 2 ^ (k / 2) ∈ clusterSet (S \ {mn}) (2 ^ (k / 2)) (x / 2 ^ (k / 2)) := by
            rw [← heq]; exact (low_mem_clusterSet _ _ _ hd).2 hyR
          obtain ⟨_, hcg⟩ := hcS.minMax.of_mem hyC
          have a1 := hcg.1.1
          have a2 := hcg.2 hyC
          by_contra hcon
          apply h2
          constructor <;> omega
        obtain ⟨sc, hsc, hscS⟩ := ihs f (x / 2 ^ (k / 2)) (by omega) hb.1 hb.2
        by_cases h3 : sc = -1
        · refine ⟨-1, ?_, Or.inl ⟨rfl, ?_⟩⟩
          · simp only [successor, getU_mk, hu, if_false, getMin_mk, InvalidValue, hif1, high_mk,
              low_mk _ _ _ _ _ _ hx0, hcl, except_ok_bind, h2, derefSummary_mk, hsc, h3, if_true,
              except_pure]
          · intro y hyS
            by_contra hxy
            push_neg at hxy
            have hyR := hRmem y hyS hxy
            have hall : ∀ i ∈ summarySet (S \ {mn}) (2 ^ (k / 2)) (2 ^ (k - k / 2)),
                i ≤ x / 2 ^ (k / 2) := by
              rcases hscS with ⟨_, hall⟩ | hl
              · exact hall
              · have := hl.1.1.1
                omega
            have hyb := hRsub hyR
            have h4 := hall _ (high_mem_summarySet _ _ _ _ hd hyb.1 hyb.2 hyR)
            have h5 : x / 2 ^ (k / 2) ≤ y / 2 ^ (k / 2) := Int.ediv_le_ediv hd (le_of_lt hxy)
            have := le_of_same_high _ _ _ (le_antisymm h4 h5) (hnoC y hyR (le_antisymm h4 h5))
            omega
        · have hl : IsLeast {i | i ∈ summarySet (S \ {mn}) (2 ^ (k / 2)) (2 ^ (k - k / 2)) ∧
              x / 2 ^ (k / 2) < i} sc := by
            rcases hscS with ⟨e, _⟩ | hl
            · exact absurd e h3
            · exact hl
          obtain ⟨⟨⟨hsc0, hscm, y0, hy0⟩, hsclt⟩, hscleast⟩ := hl
          obtain ⟨c1, hc1s, _, hcast1⟩ := cluster_exists cs k _ hlen hsc0 hscm
          have hc1S := hc _ c1 hc1s
          rw [hcast1] at hc1S
          obtain ⟨hc1l, _⟩ := hc1S.minMax.of_mem hy0
          have hcl1 := cluster_at (some s) cs (2 ^ k) mn mx _ _ c1 hcast1.symm hc1s
          refine ⟨sc * 2 ^ (k / 2) + c1.getMin, ?_, Or.inr ⟨⟨hc1l.1.2.2.1, ?_⟩, ?_⟩⟩
          · simp only [successor, getU_mk, hu, if_false, getMin_mk, InvalidValue, hif1, high_mk,
              low_mk _ _ _ _ _ _ hx0, hcl, except_ok_bind, h2, derefSummary_mk, hsc, h3, hcl1,
              index_mk, except_pure]
          · have := (join_lt_join (2 ^ (k / 2)) (x / 2 ^ (k / 2)) (x % 2 ^ (k / 2))
              sc c1.getMin hmb.1 hmb.2 hc1l.1.1 hc1l.1.2.1).2 (Or.inl hsclt)
            rw [split_join] at this
            exact this
          · rintro y ⟨hyS, hxy⟩
            have hyR := hRmem y hyS hxy
            have hyb := hRsub hyR
            have hymb := mod_bounds (2 ^ (k / 2)) y hd
            have h5 : x / 2 ^ (k / 2) ≤ y / 2 ^ (k / 2) := Int.ediv_le_ediv hd (le_of_lt hxy)
            have h6 : x / 2 ^ (k / 2) < y / 2 ^ (k / 2) := by
              rcases lt_or_eq_of_le h5 with h | h
              · exact h
              · have := le_of_same_high _ _ _ h.symm (hnoC y hyR h.symm)
                omega
            have h7 := hscleast ⟨high_mem_summarySet _ _ _ _ hd hyb.1 hyb.2 hyR, h6⟩
            rw [← split_join (2 ^ (k / 2)) y]
            rcases lt_or_eq_of_le h7 with h | h
            · exact le_of_lt ((join_lt_join _ _ _ _ _ hc1l.1.1 hc1l.1.2.1 hymb.1 hymb.2).2
                (Or.inl h))
            · have hyC : y % 2 ^ (k / 2) ∈ clusterSet (S \ {mn}) (2 ^ (k / 2)) sc := by
                rw [h]; exact (low_mem_clusterSet _ _ _ hd).2 hyR
              have := hc1l.2 hyC
              rw [h]
              omega

/-! ## Method `predecessor` -/

theorem predecessor_spec {k : Nat} {t : vEBTree} {S : Set Int} (h : Stores k t S) :
    ∀ (fuel : Nat) (x : Int), k ≤ fuel → 0 ≤ x → x < 2 ^ k →
      ∃ r, predecessor fuel t x = .ok r ∧
        ((r = -1 ∧ ∀ y ∈ S, x ≤ y) ∨ IsGreatest {y | y ∈ S ∧ y < x} r) := by
  induction h with
  | base mn mx S hS hmm =>
    intro fuel x hf hx0 hx
    obtain ⟨f, rfl⟩ : ∃ f, fuel = f + 1 := ⟨fuel - 1, by omega⟩
    simp only [predecessor, getU_mk, if_true, getMin_mk, InvalidValue]
    by_cases h1 : x = 1 ∧ mn = 0
    · rw [if_pos h1]
      refine ⟨0, rfl, Or.inr ?_⟩
      obtain ⟨hl, _⟩ := hmm.of_min_valid (by omega)
      refine ⟨⟨h1.2 ▸ hl.1, by omega⟩, ?_⟩
      intro y hy
      have := hy.2
      omega
    · rw [if_neg h1]
      refine ⟨-1, rfl, Or.inl ⟨rfl, ?_⟩⟩
      intro y hy
      obtain ⟨hl, _⟩ := hmm.of_mem hy
      have a1 := hl.2 hy
      have a2 := hS hl.1
      have a3 := hS hy
      simp only [Set.mem_Ico] at a2 a3
      have hx2 : x < 2 := by simpa using hx
      by_contra hc
      apply h1
      constructor <;> omega
  | node k hk s cs mn mx S hS hmm hlen hs hc ihs ihc =>
    intro fuel x hf hx0 hx
    obtain ⟨f, rfl⟩ : ∃ f, fuel = f + 1 := ⟨fuel - 1, by omega⟩
    have hd := two_pow_pos (k / 2)
    have hu := two_pow_ne_two k hk
    have hxb : x < 2 ^ (k - k / 2) * 2 ^ (k / 2) := by rw [pow_split]; exact hx
    have hb := div_bounds _ _ x hd hx0 hxb
    have hmb := mod_bounds (2 ^ (k / 2)) x hd
    have hRsub : S \ {mn} ⊆ Set.Ico 0 (2 ^ (k - k / 2) * 2 ^ (k / 2)) := by
      rw [pow_split]; exact Set.diff_subset.trans hS
    obtain ⟨c, hcs, _, hcast⟩ := cluster_exists cs k _ hlen hb.1 hb.2
    have hcS := hc _ c hcs
    rw [hcast] at hcS
    have hcl := cluster_at (some s) cs (2 ^ k) mn mx _ _ c hcast.symm hcs
    by_cases h1 : mx ≠ -1 ∧ x > mx
    · refine ⟨mx, ?_, Or.inr ?_⟩
      · simp only [predecessor, getU_mk, hu, if_false, getMax_mk, InvalidValue, h1, ne_eq,
          not_false_eq_true, and_self, if_true]
      · obtain ⟨_, hg⟩ := hmm.of_max_valid h1.1
        exact ⟨⟨hg.1, h1.2⟩, fun y hy => hg.2 hy.1⟩
    · have hif1 : ¬ (mx ≠ -1 ∧ x > mx) := h1
      by_cases h2 : c.getMin ≠ -1 ∧ x % 2 ^ (k / 2) > c.getMin
      · obtain ⟨hcl0, _⟩ := hcS.minMax.of_min_valid h2.1
        obtain ⟨off, hoff, hoffS⟩ := ihc _ c hcs f (x % 2 ^ (k / 2)) (by omega) hmb.1 hmb.2
        rw [hcast] at hoffS
        have hoffG : IsGreatest {y | y ∈ clusterSet (S \ {mn}) (2 ^ (k / 2)) (x / 2 ^ (k / 2)) ∧
            y < x % 2 ^ (k / 2)} off := by
          rcases hoffS with ⟨_, hall⟩ | hl
          · have := hall _ hcl0.1
            omega
          · exact hl
        refine ⟨x / 2 ^ (k / 2) * 2 ^ (k / 2) + off, ?_, Or.inr ?_⟩
        · simp only [predecessor, getU_mk, hu, if_false, getMax_mk, InvalidValue, hif1, high_mk,
            low_mk _ _ _ _ _ _ hx0, hcl, except_ok_bind, h2, ne_eq, not_false_eq_true, and_self,
            if_true, hoff, index_mk, except_pure]
        · obtain ⟨⟨hoC, hlt⟩, hgreatest⟩ := hoffG
          have hmem : x / 2 ^ (k / 2) * 2 ^ (k / 2) + off ∈ S := hoC.2.2.1
          refine ⟨⟨hmem, ?_⟩, ?_⟩
          · have := (join_lt_join (2 ^ (k / 2)) (x / 2 ^ (k / 2)) off
              (x / 2 ^ (k / 2)) (x % 2 ^ (k / 2)) hoC.1 hoC.2.1 hmb.1 hmb.2).2 (Or.inr ⟨rfl, hlt⟩)
            rw [split_join] at this
            exact this
          · rintro y ⟨hyS, hxy⟩
            by_cases hym : y = mn
            · obtain ⟨hl, _⟩ := hmm.of_mem hyS
              rw [hym]; exact hl.2 hmem
            have hyR : y ∈ S \ {mn} := ⟨hyS, hym⟩
            have hyb := mod_bounds (2 ^ (k / 2)) y hd
            have hlex := (join_lt_join (2 ^ (k / 2)) (y / 2 ^ (k / 2)) (y % 2 ^ (k / 2))
              (x / 2 ^ (k / 2)) (x % 2 ^ (k / 2)) hyb.1 hyb.2 hmb.1 hmb.2).1
              (by rw [split_join, split_join]; exact hxy)
            rw [← split_join (2 ^ (k / 2)) y]
            rcases hlex with hlt2 | ⟨heq, hlt2⟩
            · exact le_of_lt ((join_lt_join _ _ _ _ _ hyb.1 hyb.2 hoC.1 hoC.2.1).2 (Or.inl hlt2))
            · have hyC : y % 2 ^ (k / 2) ∈
                  clusterSet (S \ {mn}) (2 ^ (k / 2)) (x / 2 ^ (k / 2)) := by
                rw [← heq]; exact (low_mem_clusterSet _ _ _ hd).2 hyR
              have := hgreatest ⟨hyC, hlt2⟩
              rw [heq]
              omega
      · have hnoC : ∀ y ∈ S \ {mn}, y / 2 ^ (k / 2) = x / 2 ^ (k / 2) →
            x % 2 ^ (k / 2) ≤ y % 2 ^ (k / 2) := by
          intro y hyR heq
          have hyC : y % 2 ^ (k / 2) ∈ clusterSet (S \ {mn}) (2 ^ (k / 2)) (x / 2 ^ (k / 2)) := by
            rw [← heq]; exact (low_mem_clusterSet _ _ _ hd).2 hyR
          obtain ⟨hcl0, _⟩ := hcS.minMax.of_mem hyC
          have a1 := hcl0.1.1
          have a2 := hcl0.2 hyC
          by_contra hcon
          apply h2
          constructor <;> omega
        -- an element of the clusters below `x` lies in a cluster before that of `x`
        have hbefore : ∀ y ∈ S \ {mn}, y < x → y / 2 ^ (k / 2) < x / 2 ^ (k / 2) := by
          intro y hyR hxy
          have h5 : y / 2 ^ (k / 2) ≤ x / 2 ^ (k / 2) := Int.ediv_le_ediv hd (le_of_lt hxy)
          rcases lt_or_eq_of_le h5 with h | h
          · exact h
          · have := le_of_same_high _ _ _ h.symm (hnoC y hyR h)
            omega
        obtain ⟨pc, hpc, hpcS⟩ := ihs f (x / 2 ^ (k / 2)) (by omega) hb.1 hb.2
        by_cases h3 : pc = -1
        · have hall : ∀ i ∈ summarySet (S \ {mn}) (2 ^ (k / 2)) (2 ^ (k - k / 2)),
              x / 2 ^ (k / 2) ≤ i := by
            rcases hpcS with ⟨_, hall⟩ | hl
            · exact hall
            · have := hl.1.1.1
              omega
          have hnone : ∀ y ∈ S \ {mn}, ¬ y < x := by
            intro y hyR hxy
            have hyb := hRsub hyR
            have h4 := hall _ (high_mem_summarySet _ _ _ _ hd hyb.1 hyb.2 hyR)
            have := hbefore y hyR hxy
            omega
          by_cases h4 : mn ≠ -1 ∧ x > mn
          · refine ⟨mn, ?_, Or.inr ?_⟩
            · simp only [predecessor, getU_mk, hu, if_false, getMax_mk, InvalidValue, hif1,
                high_mk, low_mk _ _ _ _ _ _ hx0, hcl, except_ok_bind, h2, derefSummary_mk, hpc,
                h3, if_true, getMin_mk, h4, ne_eq, not_false_eq_true, and_self, except_pure]
            · obtain ⟨hl, _⟩ := hmm.of_min_valid h4.1
              refine ⟨⟨hl.1, h4.2⟩, ?_⟩
              rintro y ⟨hyS, hxy⟩
              by_cases hym : y = mn
              · rw [hym]
              · exact absurd hxy (hnone y ⟨hyS, hym⟩)
          · refine ⟨-1, ?_, Or.inl ⟨rfl, ?_⟩⟩
            · simp only [predecessor, getU_mk, hu, if_false, getMax_mk, InvalidValue, hif1,
                high_mk, low_mk _ _ _ _ _ _ hx0, hcl, except_ok_bind, h2, derefSummary_mk, hpc,
                h3, if_true, getMin_mk, h4, except_pure]
            · intro y hyS
              by_cases hym : y = mn
              · obtain ⟨hl, _⟩ := hmm.of_mem hyS
                have := (hS hl.1).1
                rw [hym]
                by_contra hcon
                apply h4
                constructor <;> omega
              · have := hnone y ⟨hyS, hym⟩
                omega
        · have hg : IsGreatest {i | i ∈ summarySet (S \ {mn}) (2 ^ (k / 2)) (2 ^ (k - k / 2)) ∧
              i < x / 2 ^ (k / 2)} pc := by
            rcases hpcS with ⟨e, _⟩ | hl
            · exact absurd e h3
            · exact hl
          obtain ⟨⟨⟨hpc0, hpcm, y0, hy0⟩, hpclt⟩, hpcgreatest⟩ := hg
          obtain ⟨c1, hc1s, _, hcast1⟩ := cluster_exists cs k _ hlen hpc0 hpcm
          have hc1S := hc _ c1 hc1s
          rw [hcast1] at hc1S
          obtain ⟨_, hc1g⟩ := hc1S.minMax.of_mem hy0
          have hcl1 := cluster_at (some s) cs (2 ^ k) mn mx _ _ c1 hcast1.symm hc1s
          have hmem : pc * 2 ^ (k / 2) + c1.getMax ∈ S := hc1g.1.2.2.1
          refine ⟨pc * 2 ^ (k / 2) + c1.getMax, ?_, Or.inr ⟨⟨hmem, ?_⟩, ?_⟩⟩
          · simp only [predecessor, getU_mk, hu, if_false, getMax_mk, InvalidValue, hif1,
              high_mk, low_mk _ _ _ _ _ _ hx0, hcl, except_ok_bind, h2, derefSummary_mk, hpc,
              h3, hcl1, index_mk, except_pure]
          · have := (join_lt_join (2 ^ (k / 2)) pc c1.getMax (x / 2 ^ (k / 2))
              (x % 2 ^ (k / 2)) hc1g.1.1 hc1g.1.2.1 hmb.1 hmb.2).2 (Or.inl hpclt)
            rw [split_join] at this
            exact this
          · rintro y ⟨hyS, hxy⟩
            by_cases hym : y = mn
            · obtain ⟨hl, _⟩ := hmm.of_mem hyS
              rw [hym]; exact hl.2 hmem
            have hyR : y ∈ S \ {mn} := ⟨hyS, hym⟩
            have hyb := hRsub hyR
            have hymb := mod_bounds (2 ^ (k / 2)) y hd
            have h6 := hbefore y hyR hxy
            have h7 := hpcgreatest ⟨high_mem_summarySet _ _ _ _ hd hyb.1 hyb.2 hyR, h6⟩
            rw [← split_join (2 ^ (k / 2)) y]
            rcases lt_or_eq_of_le h7 with h | h
            · exact le_of_lt ((join_lt_join _ _ _ _ _ hymb.1 hymb.2 hc1g.1.1 hc1g.1.2.1).2
                (Or.inl h))
            · have hyC : y % 2 ^ (k / 2) ∈ clusterSet (S \ {mn}) (2 ^ (k / 2)) pc := by
                rw [← h]; exact (low_mem_clusterSet _ _ _ hd).2 hyR
              have := hc1g.2 hyC
              rw [h]
              omega

/-! ## Claims about the van Emde Boas tree -/

/-- Claim C13: for every universe size `2 ^ k` with `k >= 1` and every sequence of insert and
erase calls with arguments inside the universe, run on a newly constructed tree, all calls
return, and `contains x` on the resulting tree returns true exactly when `x` was inserted and
not erased afterwards; `insert` of a stored element and `erase` of an element that is not
stored return the tree unchanged. -/
theorem veb_contains_iff_stored (k : Nat) (hk : 1 ≤ k) (calls : List vEBCall)
    (hcalls : ∀ c ∈ calls, 0 ≤ c.arg ∧ c.arg < 2 ^ k) :
    ∃ T, vEBCall.runAll (2 ^ k) calls = .ok T ∧
      (∀ x, 0 ≤ x → x < 2 ^ k → contains T.fuel T x = .ok (vEBCall.stored calls x)) ∧
      (∀ x, 0 ≤ x → x < 2 ^ k → vEBCall.stored calls x = true →
        vEBTree.insert T.fuel T x = .ok T) ∧
      (∀ x, 0 ≤ x → x < 2 ^ k → vEBCall.stored calls x = false →
        erase T.fuel T x = .ok T) := by
  obtain ⟨T, hT, hTS⟩ := runAll_spec k hk calls hcalls
  refine ⟨T, hT, ?_, ?_, ?_⟩
  · intro x hx0 hx
    obtain ⟨b, hb1, hb2⟩ := contains_spec hTS T.fuel x hTS.le_fuel hx0 hx
    rw [hb1]
    congr 1
    simp only [Set.mem_setOf_eq] at hb2
    cases b <;> cases hst : vEBCall.stored calls x <;> simp_all
  · intro x hx0 hx hst
    obtain ⟨t1, ht1, _, hsame⟩ := veb_insert_spec hTS T.fuel x hTS.le_fuel hx0 hx
    rw [ht1, hsame hst]
  · intro x hx0 hx hst
    obtain ⟨t1, ht1, _, hsame⟩ := veb_erase_spec hTS T.fuel x hTS.le_fuel hx0 hx
    rw [ht1, hsame (by simp [hst])]

theorem veb_contains_iff_stored_witness :
    1 ≤ 2 ∧
    (∀ c ∈ [vEBCall.insert 1, vEBCall.insert 3, vEBCall.erase 1],
      0 ≤ c.arg ∧ c.arg < 2 ^ 2) ∧
    ∃ T, vEBCall.runAll (2 ^ 2) [vEBCall.insert 1, vEBCall.insert 3, vEBCall.erase 1] = .ok T ∧
      (∀ x, 0 ≤ x → x < 2 ^ 2 → contains T.fuel T x
        = .ok (vEBCall.stored [vEBCall.insert 1, vEBCall.insert 3, vEBCall.erase 1] x)) ∧
      (∀ x, 0 ≤ x → x < 2 ^ 2 →
        vEBCall.stored [vEBCall.insert 1, vEBCall.insert 3, vEBCall.erase 1] x = true →
        vEBTree.insert T.fuel T x = .ok T) ∧
      (∀ x, 0 ≤ x → x < 2 ^ 2 →
        vEBCall.stored [vEBCall.insert 1, vEBCall.insert 3, vEBCall.erase 1] x = false →
        erase T.fuel T x = .ok T) :=
  ⟨by decide, by simp [vEBCall.arg],
    veb_contains_iff_stored 2 (by decide) _ (by simp [vEBCall.arg])⟩

/-- Claim C14: for every universe size `2 ^ k` with `k >= 1`, every tree reached from a new
tree by insert and erase calls with arguments inside the universe, and every `x` inside the
universe, `successor x` returns the least stored element greater than `x`, or `InvalidValue`
when no stored element is greater, and `predecessor x` returns the greatest stored element
less than `x`, or `InvalidValue` when no stored element is less. -/
theorem veb_successor_predecessor (k : Nat) (hk : 1 ≤ k) (calls : List vEBCall)
    (hcalls : ∀ c ∈ calls, 0 ≤ c.arg ∧ c.arg < 2 ^ k) (x : Int) (hx0 : 0 ≤ x)
    (hx : x < 2 ^ k) :
    ∃ T r p, vEBCall.runAll (2 ^ k) calls = .ok T ∧
      successor T.fuel T x = .ok r ∧ predecessor T.fuel T x = .ok p ∧
      ((r = InvalidValue ∧ ∀ y, vEBCall.stored calls y = true → y ≤ x) ∨
        (vEBCall.stored calls r = true ∧ x < r ∧
          ∀ y, vEBCall.stored calls y = true → x < y → r ≤ y)) ∧
      ((p = InvalidValue ∧ ∀ y, vEBCall.stored calls y = true → x ≤ y) ∨
        (vEBCall.stored calls p = true ∧ p < x ∧
          ∀ y, vEBCall.stored calls y = true → y < x → y ≤ p)) := by
  obtain ⟨T, hT, hTS⟩ := runAll_spec k hk calls hcalls
  obtain ⟨r, hr, hrS⟩ := successor_spec hTS T.fuel x hTS.le_fuel hx0 hx
  obtain ⟨p, hp, hpS⟩ := predecessor_spec hTS T.fuel x hTS.le_fuel hx0 hx
  refine ⟨T, r, p, hT, hr, hp, ?_, ?_⟩
  · rcases hrS with ⟨h1, h2⟩ | h
    · exact Or.inl ⟨h1, fun y hy => h2 y hy⟩
    · exact Or.inr ⟨h.1.1, h.1.2, fun y hy hxy => h.2 ⟨hy, hxy⟩⟩
  · rcases hpS with ⟨h1, h2⟩ | h
    · exact Or.inl ⟨h1, fun y hy => h2 y hy⟩
    · exact Or.inr ⟨h.1.1, h.1.2, fun y hy hxy => h.2 ⟨hy, hxy⟩⟩

theorem veb_successor_predecessor_witness :
    1 ≤ 2 ∧
    (∀ c ∈ [vEBCall.insert 1, vEBCall.insert 3, vEBCall.erase 1],
      0 ≤ c.arg ∧ c.arg < 2 ^ 2) ∧ (0 : Int) ≤ 2 ∧ (2 : Int) < 2 ^ 2 ∧
    ∃ T r p,
      vEBCall.runAll (2 ^ 2) [vEBCall.insert 1, vEBCall.insert 3, vEBCall.erase 1] = .ok T ∧
      successor T.fuel T 2 = .ok r ∧ predecessor T.fuel T 2 = .ok p ∧
      ((r = InvalidValue ∧ ∀ y,
          vEBCall.stored [vEBCall.insert 1, vEBCall.insert 3, vEBCall.erase 1] y = true →
          y ≤ 2) ∨
        (vEBCall.stored [vEBCall.insert 1, vEBCall.insert 3, vEBCall.erase 1] r = true ∧ 2 < r ∧
          ∀ y, vEBCall.stored [vEBCall.insert 1, vEBCall.insert 3, vEBCall.erase 1] y = true →
            2 < y → r ≤ y)) ∧
      ((p = InvalidValue ∧ ∀ y,
          vEBCall.stored [vEBCall.insert 1, vEBCall.insert 3, vEBCall.erase 1] y = true →
          2 ≤ y) ∨
        (vEBCall.stored [vEBCall.insert 1, vEBCall.insert 3, vEBCall.erase 1] p = true ∧ p < 2 ∧
          ∀ y, vEBCall.stored [vEBCall.insert 1, vEBCall.insert 3, vEBCall.erase 1] y = true →
            y < 2 → y ≤ p)) :=
  ⟨by decide, by simp [vEBCall.arg], by decide, by decide,
    veb_successor_predecessor 2 (by decide) _ (by simp [vEBCall.arg]) 2 (by decide) (by decide)⟩

/-- Claim C15: the constructor `vEBTree(u)` throws `vEBTreeCreationException` exactly when
`u < 2` or `u` is not a power of two; for every power of two `u >= 2` it returns a tree whose
`min` and `max` are both `InvalidValue`, which is `empty()`, and on which `contains x` returns
false for every `x` from 0 to `u - 1`. -/
theorem veb_new_throws_iff (u : Int) :
    (vEBTree.new u = .error .creationException ↔ (u < 2 ∨ ¬ ∃ k : Nat, u = 2 ^ k)) ∧
    (2 ≤ u → (∃ k : Nat, u = 2 ^ k) →
      ∃ T, vEBTree.new u = .ok T ∧ T.getMin = InvalidValue ∧ T.getMax = InvalidValue ∧
        T.empty = true ∧ ∀ x, 0 ≤ x → x < u → contains T.fuel T x = .ok false) := by
  have hpow : 2 ≤ u → (∃ k : Nat, u = 2 ^ k) → ∃ k : Nat, 1 ≤ k ∧ u = 2 ^ k := by
    rintro h2 ⟨k, rfl⟩
    refine ⟨k, ?_, rfl⟩
    by_contra hk
    have : k = 0 := by omega
    subst this
    norm_num at h2
  constructor
  · constructor
    · intro herr
      by_contra hcon
      push_neg at hcon
      obtain ⟨k, hk, rfl⟩ := hpow hcon.1 hcon.2
      obtain ⟨t, ht, _⟩ := veb_new_spec k hk
      rw [ht] at herr
      exact absurd herr (by simp)
    · intro h
      apply create_reject
      by_cases h2 : u < 2
      · exact Or.inl h2
      · right
        intro h0
        rcases h with h | h
        · exact h2 h
        · apply h
          have e1 : (u - 1).toNat = u.toNat - 1 := by omega
          rw [e1] at h0
          obtain ⟨k, hk⟩ := two_pow_of_land_pred u.toNat (by omega) h0
          refine ⟨k, ?_⟩
          have : ((u.toNat : Nat) : Int) = u := Int.toNat_of_nonneg (by omega)
          rw [← this, hk]
          push_cast
          rfl
  · intro h2 hp
    obtain ⟨k, hk, rfl⟩ := hpow h2 hp
    obtain ⟨T, hT, hTS, hmin, hmax⟩ := veb_new_spec k hk
    refine ⟨T, hT, hmin, hmax, ?_, ?_⟩
    · simp [vEBTree.empty, hmin, hmax, InvalidValue]
    · intro x hx0 hx
      obtain ⟨b, hb1, hb2⟩ := contains_spec hTS T.fuel x hTS.le_fuel hx0 hx
      rw [hb1]
      cases b with
      | false => rfl
      | true => exact absurd (hb2.1 rfl) (by simp)

theorem veb_new_throws_iff_witness :
    (2 : Int) ≤ 4 ∧ (∃ k : Nat, (4 : Int) = 2 ^ k) ∧
      ∃ T, vEBTree.new 4 = .ok T ∧ T.getMin = InvalidValue ∧ T.getMax = InvalidValue ∧
        T.empty = true ∧ ∀ x, 0 ≤ x → x < 4 → contains T.fuel T x = .ok false :=
  ⟨by decide, ⟨2, by norm_num⟩, (veb_new_throws_iff 4).2 (by decide) ⟨2, by norm_num⟩⟩

end vEBProofs
